import Mathlib

/-!
Verification development for gpfs (gh-project-file-sync).

This file embeds the reconciliation core of the repository in Lean:
the YAML-frontmatter parser and serializers of `source/lib/markdown.ts`,
the pull executor of `source/commands/pull.tsx`, the push executor of
`source/commands/push.tsx`, the daemon helpers of `source/lib/daemon.ts`,
the status classifier of the status command, and the filename utilities
of `source/lib/filesystem.ts`.

JavaScript strings are modelled as `List Char`.  The `gh` CLI client is an
external collaborator; it is modelled as an explicit remote-state machine
with injectable failures, matching the interface the code consumes
(`ghProjectView`, `ghProjectItemList`, `ghCreateItem`, `ghUpdateDraftIssue`,
`ghDeleteItem`).  The SHA-256 based `computeChecksum` is kept abstract as a
function parameter `hash`, since no behaviour of the sync engine depends on
anything but equality of its outputs.
-/

namespace Gpfs

set_option maxRecDepth 100000

/-- JavaScript strings are modelled as lists of characters. -/
abbrev Str := List Char

/-- Convert a Lean string literal to the character-list model. -/
def str (s : String) : Str := s.data

/-- Whitespace test matching the characters relevant to JS `\s` and
`String.prototype.trim` that can occur in this code base. -/
def isWs (c : Char) : Bool :=
  c = ' ' ∨ c = '\t' ∨ c = '\n' ∨ c = '\r' ∨ c = '\x0b' ∨ c = '\x0c'

/-- JS `String.prototype.trim`. -/
def jsTrim (s : Str) : Str :=
  ((s.dropWhile isWs).reverse.dropWhile isWs).reverse

/-- A string is trim-stable when trimming does not change it. -/
def trimStable (s : Str) : Bool := jsTrim s == s

/-- JS `s.split("\n")`; `"".split("\n")` is `[""]`. -/
def splitNl : Str → List Str
  | [] => [[]]
  | c :: rest =>
    if c = '\n' then [] :: splitNl rest
    else
      match splitNl rest with
      | [] => [[c]]
      | h :: t => (c :: h) :: t

/-- Join lines with newlines, the inverse direction of `splitNl`. -/
def joinNl (ls : List Str) : Str := List.intercalate ['\n'] ls

/-- Prefix test on character lists (JS `startsWith`). -/
def leads : Str → Str → Bool
  | [], _ => true
  | _ :: _, [] => false
  | p :: ps, c :: cs => p = c && leads ps cs

/-- Scan for the first occurrence of `pat`, reporting absolute index `i` of the
current scan position (helper for `idxOfFrom`). -/
def idxOfAux (pat : Str) : Str → Nat → Option Nat
  | [], i => if pat = [] then some i else none
  | c :: rest, i =>
    if leads pat (c :: rest) then some i else idxOfAux pat rest (i + 1)

/-- JS `s.indexOf(pat, start)` (for the `start ≤ s.length` uses in this code). -/
def idxOfFrom (pat : Str) (s : Str) (start : Nat) : Option Nat :=
  idxOfAux pat (s.drop start) start

/-- JS `s.slice(a, b)` for `a ≤ b` uses. -/
def jsSlice (s : Str) (a b : Nat) : Str := (s.drop a).take (b - a)

/-- Decimal digit character. -/
def digitChar (n : Nat) : Char := Char.ofNat (48 + n)

/-- Digit accumulation for `natToStr` (structural on `fuel`, which any value
above the digit count makes equal to the unbounded recursion). -/
def natToStrGo : Nat → Nat → Str
  | 0, _ => []
  | fuel + 1, n =>
    if n < 10 then [digitChar n]
    else natToStrGo fuel (n / 10) ++ [digitChar (n % 10)]

/-- Decimal rendering of a natural number, matching JS `String(n)`. -/
def natToStr (n : Nat) : Str := natToStrGo (n + 1) n

/-- Decimal rendering of an integer, matching JS `String(n)` for integers. -/
def intToStr (n : Int) : Str :=
  if n < 0 then '-' :: natToStr n.natAbs else natToStr n.toNat

/-- Fold a digit string into a natural number (helper for `parseIntDec`). -/
def parseNat (s : Str) : Nat :=
  s.foldl (fun a c => a * 10 + (c.toNat - 48)) 0

/-- Digit test, JS `\d`. -/
def isDigitCh (c : Char) : Bool := '0' ≤ c ∧ c ≤ '9'

/-- Test for the regex `/^-?\d+$/` used before `parseInt(value, 10)`. -/
def intLit (s : Str) : Bool :=
  match s with
  | [] => false
  | '-' :: rest => rest ≠ [] && rest.all isDigitCh
  | _ => s.all isDigitCh

/-- Test for the regex `/^-?\d+\.\d+$/` used before `parseFloat(value)`. -/
def floatLit (s : Str) : Bool :=
  let core : Str → Bool := fun t =>
    match idxOfFrom ['.'] t 0 with
    | none => false
    | some k =>
      (t.take k) ≠ [] && (t.take k).all isDigitCh &&
        (t.drop (k + 1)) ≠ [] && (t.drop (k + 1)).all isDigitCh
  match s with
  | '-' :: rest => core rest
  | _ => core s

/-- JS `parseInt(s, 10)` restricted to inputs matching `intLit`. -/
def parseIntDec (s : Str) : Int :=
  match s with
  | '-' :: rest => -(parseNat rest : Int)
  | _ => (parseNat s : Int)

/-- Hex digit (lowercase) for `\u00XX` escapes. -/
def hexDigit (n : Nat) : Char :=
  if n < 10 then Char.ofNat (48 + n) else Char.ofNat (87 + n)

/-- JSON string escaping of one character, as in `JSON.stringify`. -/
def jsonEscChar (c : Char) : Str :=
  if c = '"' then ['\\', '"']
  else if c = '\\' then ['\\', '\\']
  else if c = '\n' then ['\\', 'n']
  else if c = '\r' then ['\\', 'r']
  else if c = '\t' then ['\\', 't']
  else if c = '\x08' then ['\\', 'b']
  else if c = '\x0c' then ['\\', 'f']
  else if c.toNat < 0x20 then
    ['\\', 'u', '0', '0', hexDigit (c.toNat / 16), hexDigit (c.toNat % 16)]
  else [c]

/-- JS `JSON.stringify` on a string value. -/
def jsonQuote (s : Str) : Str :=
  '"' :: (s.flatMap jsonEscChar) ++ ['"']

/-- Value of one hex digit character, accepting both cases. -/
def hexVal (c : Char) : Option Nat :=
  if '0' ≤ c ∧ c ≤ '9' then some (c.toNat - 48)
  else if 'a' ≤ c ∧ c ≤ 'f' then some (c.toNat - 87)
  else if 'A' ≤ c ∧ c ≤ 'F' then some (c.toNat - 55)
  else none

/-- Scan the interior of a JSON string literal up to a closing quote that must
end the input; models the success/failure behaviour of `JSON.parse` on the
string values this code feeds it.  (Code points decoded from `\uXXXX` that are
not valid Lean scalar values, i.e. lone surrogates, fall back to `Char.ofNat`'s
default; no escape produced by `jsonQuote` hits that corner.) -/
def jsonScan : Str → Option Str
  | [] => none
  | '"' :: rest => if rest = [] then some [] else none
  | '\\' :: rest =>
    match rest with
    | 'u' :: h1 :: h2 :: h3 :: h4 :: rest2 =>
      match hexVal h1, hexVal h2, hexVal h3, hexVal h4 with
      | some a, some b, some c, some d =>
        (Char.ofNat (((a * 16 + b) * 16 + c) * 16 + d) :: ·) <$> jsonScan rest2
      | _, _, _, _ => none
    | e :: rest2 =>
      let dec : Option Char :=
        if e = '"' then some '"'
        else if e = '\\' then some '\\'
        else if e = '/' then some '/'
        else if e = 'n' then some '\n'
        else if e = 'r' then some '\r'
        else if e = 't' then some '\t'
        else if e = 'b' then some '\x08'
        else if e = 'f' then some '\x0c'
        else none
      match dec with
      | some d => (d :: ·) <$> jsonScan rest2
      | none => none
    | [] => none
  | c :: rest =>
    if c.toNat < 0x20 then none else (c :: ·) <$> jsonScan rest

/-- `JSON.parse` on a whole value that should be a JSON string literal;
`none` models the thrown exception. -/
def jsonParseStr (s : Str) : Option Str :=
  match s with
  | '"' :: rest => jsonScan rest
  | _ => none

/-- Runtime values that can appear in a parsed frontmatter object.  `float`
keeps the raw matched literal text of `parseFloat`'s argument. -/
inductive YValue where
  | vStr (v : Str)
  | vInt (n : Int)
  | vFloat (raw : Str)
  | vBool (v : Bool)
  | vNull
  | vArr (xs : List YValue)
  | vObj (fields : List (Str × YValue))

/-- A frontmatter object: key-value pairs in insertion order. -/
abbrev Fm := List (Str × YValue)

/-- JS object read `m[k]`: `none` models `undefined`. -/
def fmGet (m : Fm) (k : Str) : Option YValue :=
  (m.find? (fun kv => kv.1 == k)).map (·.2)

/-- JS object write `m[k] = v`: overwrite in place if the key exists
(keeping its position), otherwise append. -/
def fmSet (m : Fm) (k : Str) (v : YValue) : Fm :=
  if m.any (fun kv => kv.1 == k) then
    m.map (fun kv => if kv.1 == k then (k, v) else kv)
  else m ++ [(k, v)]

/-- JS `delete m[k]`. -/
def fmDel (m : Fm) (k : Str) : Fm :=
  m.filter (fun kv => kv.1 != k)

/-- Numeric value of a JS number for `===` comparisons between `vInt` and
`vFloat` (both are JS numbers). -/
def numVal : YValue → Option ℚ
  | .vInt n => some (n : ℚ)
  | .vFloat raw =>
    match raw with
    | '-' :: rest =>
      match idxOfFrom ['.'] rest 0 with
      | some k => some (-((parseNat (rest.take k) : ℚ) +
          (parseNat (rest.drop (k + 1)) : ℚ) / ((10 : ℚ) ^ (rest.drop (k + 1)).length)))
      | none => none
    | _ =>
      match idxOfFrom ['.'] raw 0 with
      | some k => some ((parseNat (raw.take k) : ℚ) +
          (parseNat (raw.drop (k + 1)) : ℚ) / ((10 : ℚ) ^ (raw.drop (k + 1)).length))
      | none => none
  | _ => none

/-- JS strict equality `===` between two frontmatter values.  Arrays and
objects compare by reference; distinct parse results are distinct references,
so they compare unequal here. -/
def jsEq (a b : YValue) : Bool :=
  match a, b with
  | .vStr x, .vStr y => x == y
  | .vBool x, .vBool y => x == y
  | .vNull, .vNull => true
  | .vInt _, _ | .vFloat _, _ =>
    match numVal a, numVal b with
    | some x, some y => x == y
    | _, _ => false
  | _, _ => false

/-- JS strict equality of a frontmatter value against a string. -/
def YValue.eqStr : YValue → Str → Bool
  | .vStr v, s => v == s
  | _, _ => false

/-- JS truthiness of a frontmatter value. -/
def truthy : YValue → Bool
  | .vStr v => v ≠ []
  | .vInt n => n ≠ 0
  | .vFloat raw => ¬ raw.all (fun c => c = '0' ∨ c = '.' ∨ c = '-')
  | .vBool v => v
  | .vNull => false
  | .vArr _ => true
  | .vObj _ => true

/-- JS truthiness of a possibly-undefined value. -/
def truthyO : Option YValue → Bool
  | none => false
  | some v => truthy v

/-- Test `v === true`. -/
def YValue.isTrue : YValue → Bool
  | .vBool b => b
  | _ => false

/-- `parseYamlValue` of `source/lib/markdown.ts`: interpret one scalar text. -/
def parseYamlValue (v : Str) : YValue :=
  if v = str "null" ∨ v = str "~" ∨ v = [] then .vNull
  else if v = str "true" then .vBool true
  else if v = str "false" then .vBool false
  else if v = str "[]" then .vArr []
  else if intLit v then .vInt (parseIntDec v)
  else if floatLit v then .vFloat v
  else if (leads ['"'] v && leads ['"'] v.reverse) ∨
      (leads ['\''] v && leads ['\''] v.reverse) then
    match jsonParseStr v with
    | some s => .vStr s
    | none => .vStr ((v.drop 1).dropLast)
  else .vStr v

/-- The regex match `/^(\s*)([^:]+):\s*(.*)$/` followed by trimming of the key
(group 2) and of the value (group 3), as done by `parseYaml`'s main loop:
there must be a colon preceded by at least one character; the key is the
trimmed text before the first colon, the value the trimmed text after it. -/
def parseKV (line : Str) : Option (Str × Str) :=
  match idxOfFrom [':'] line 0 with
  | none => none
  | some 0 => none
  | some k => some (jsTrim (line.take k), jsTrim (line.drop (k + 1)))

/-- Leading-whitespace length, `line.match(/^(\s*)/)[1].length`. -/
def indentOf (line : Str) : Nat := (line.takeWhile isWs).length

/-- Test for `/^\s+-\s/`: an array-item opener. -/
def isArrayStart (line : Str) : Bool :=
  let rest := line.dropWhile isWs
  indentOf line ≠ 0 &&
    (match rest with
     | '-' :: c :: _ => isWs c
     | _ => false)

/-- JS `\w` character class. -/
def isWordCh (c : Char) : Bool :=
  ('a' ≤ c ∧ c ≤ 'z') ∨ ('A' ≤ c ∧ c ≤ 'Z') ∨ ('0' ≤ c ∧ c ≤ '9') ∨ c = '_'

/-- Test for `/^\s+\w+:/`: a nested-object opener. -/
def isObjStart (line : Str) : Bool :=
  let rest := line.dropWhile isWs
  indentOf line ≠ 0 &&
    (rest.takeWhile isWordCh) ≠ [] &&
    leads [':'] (rest.dropWhile isWordCh)

/-- Extract an array item via `/^\s+-\s*(.*)$/` (group 1, not trimmed). -/
def arrayItem (line : Str) : Option Str :=
  let rest := line.dropWhile isWs
  if indentOf line ≠ 0 then
    match rest with
    | '-' :: tail => some (tail.dropWhile isWs)
    | _ => none
  else none

/-- One step of `parseYaml`'s while loop, processing the first line and
continuing on the remaining lines.  `fuel` decreases on every step so that the
recursion is structural; each step consumes at least one line and a nested
block is always shorter than its enclosing document, so any fuel exceeding the
line count (as supplied by `parseYaml` below) behaves exactly like the
unbounded JS loop and the `0` case is never reached. -/
def parseYamlGo : Nat → Fm → List Str → Fm
  | 0, acc, _ => acc
  | _ + 1, acc, [] => acc
  | fuel + 1, acc, line :: rest =>
    if jsTrim line = [] then parseYamlGo fuel acc rest
    else
      match parseKV line with
      | none => parseYamlGo fuel acc rest
      | some (key, value) =>
        if value = [] then
          match rest.head? with
          | none => fmSet acc key (parseYamlValue value)
          | some next =>
            if isArrayStart next then
              let items := rest.takeWhile (fun l => (arrayItem l).isSome)
              let rest2 := rest.dropWhile (fun l => (arrayItem l).isSome)
              let arr := items.filterMap arrayItem |>.map parseYamlValue
              parseYamlGo fuel (fmSet acc key (.vArr arr)) rest2
            else if isObjStart next then
              let base := indentOf next
              let nested := rest.takeWhile
                (fun l => jsTrim l = [] ∨ base ≤ indentOf l)
              let rest2 := rest.dropWhile
                (fun l => jsTrim l = [] ∨ base ≤ indentOf l)
              let inner := parseYamlGo fuel [] (nested.map (·.drop base))
              parseYamlGo fuel (fmSet acc key (.vObj inner)) rest2
            else
              parseYamlGo fuel (fmSet acc key (parseYamlValue value)) rest
        else
          parseYamlGo fuel (fmSet acc key (parseYamlValue value)) rest

/-- `parseYaml` of `source/lib/markdown.ts` on a yaml text. -/
def parseYaml (s : Str) : Fm :=
  parseYamlGo ((splitNl s).length + 1) [] (splitNl s)

/-- Test for the `null` value. -/
def YValue.isNullV : YValue → Bool
  | .vNull => true
  | _ => false

/-- JS string coercion `String(v)` / template-literal interpolation of a
frontmatter value.  For `vFloat` the raw matched literal stands in for the
printed number (they agree on normalized literals; all theorems below stay
away from float values).  `fuel` bounds the nesting depth (structural
recursion); every call site supplies fuel exceeding the depth of the value,
so the `0` case is never reached. -/
def jsStringOf : Nat → YValue → Str
  | 0, _ => []
  | _ + 1, .vStr s => s
  | _ + 1, .vInt n => intToStr n
  | _ + 1, .vFloat raw => raw
  | _ + 1, .vBool b => if b then str "true" else str "false"
  | _ + 1, .vNull => str "null"
  | fuel + 1, .vArr xs => List.intercalate [','] (xs.map
      (fun x => if x.isNullV then [] else jsStringOf fuel x))
  | _ + 1, .vObj _ => str "[object Object]"

/-- `JSON.stringify` of a frontmatter value; `fuel` as in `jsStringOf`. -/
def jsonStringify : Nat → YValue → Str
  | 0, _ => []
  | _ + 1, .vStr s => jsonQuote s
  | _ + 1, .vInt n => intToStr n
  | _ + 1, .vFloat raw => raw
  | _ + 1, .vBool b => if b then str "true" else str "false"
  | _ + 1, .vNull => str "null"
  | fuel + 1, .vArr xs =>
    '[' :: List.intercalate [','] (xs.map (fun x => jsonStringify fuel x)) ++ [']']
  | fuel + 1, .vObj fields =>
    '\x7b' :: List.intercalate [','] (fields.map
      (fun kv => jsonQuote kv.1 ++ [':'] ++ jsonStringify fuel kv.2)) ++ ['\x7d']

/-- Condition under which the yaml serializers JSON-quote a string value. -/
def needsQuote (s : Str) : Bool :=
  s.contains '\n' ∨ s.contains ':' ∨ s.contains '#' ∨ s = []

/-- Indentation prefix `"  ".repeat(indent)`. -/
def pad (indent : Nat) : Str := List.replicate (2 * indent) ' '

/-- View an object-typed JS value as key/value entries (`Object.entries`);
for an array the keys are the decimal indices. -/
def asEntries : YValue → Option Fm
  | .vObj fields => some fields
  | .vArr xs => some (xs.enum.map (fun p => (natToStr p.1, p.2)))
  | _ => none

/-- One entry of `serializeYaml` from `source/lib/markdown.ts` (when
`objInArr = true`) and of `serializeFrontmatter` from
`source/commands/push.tsx` (when `objInArr = false`); the two differ only in
how they render object-typed array elements.  A returned segment may itself
contain newlines (the markdown.ts object-in-array case embeds a trimmed
recursive serialization of the element, inlined here).  `fuel` bounds nesting
depth as in `jsStringOf`. -/
def serializeEntry : Nat → Bool → Nat → Str → YValue → List Str
  | 0, _, _, _, _ => []
  | _ + 1, _, indent, k, .vNull => [pad indent ++ k ++ str ": null"]
  | _ + 1, _, indent, k, .vStr s =>
    if needsQuote s then [pad indent ++ k ++ str ": " ++ jsonQuote s]
    else [pad indent ++ k ++ str ": " ++ s]
  | _ + 1, _, indent, k, .vInt n => [pad indent ++ k ++ str ": " ++ intToStr n]
  | _ + 1, _, indent, k, .vFloat raw => [pad indent ++ k ++ str ": " ++ raw]
  | _ + 1, _, indent, k, .vBool b =>
    [pad indent ++ k ++ str ": " ++ (if b then str "true" else str "false")]
  | fuel + 1, objInArr, indent, k, .vArr xs =>
    if xs.isEmpty then [pad indent ++ k ++ str ": []"]
    else
      (pad indent ++ k ++ [':']) ::
        xs.map (fun x =>
          match asEntries x with
          | some fields =>
            if objInArr then
              pad indent ++ str "  - " ++ jsTrim (joinNl
                ((fields.map (fun kv =>
                  serializeEntry fuel objInArr (indent + 2) kv.1 kv.2)).flatten)
                ++ ['\n'])
            else pad indent ++ str "  - " ++ jsStringOf fuel x
          | none => pad indent ++ str "  - " ++ jsStringOf fuel x)
  | fuel + 1, objInArr, indent, k, .vObj fields =>
    (pad indent ++ k ++ [':']) ::
      (fields.map (fun kv =>
        serializeEntry fuel objInArr (indent + 1) kv.1 kv.2)).flatten

/-- All entries of a frontmatter object, in order. -/
def serializeEntries (fuel : Nat) (objInArr : Bool) (indent : Nat) (fm : Fm) :
    List Str :=
  (fm.map (fun kv => serializeEntry fuel objInArr indent kv.1 kv.2)).flatten

/-- `serializeYaml` / `serializeFrontmatter`: `lines.join("\n") + "\n"`. -/
def serializeYamlStr (fuel : Nat) (objInArr : Bool) (indent : Nat) (fm : Fm) :
    Str :=
  joinNl (serializeEntries fuel objInArr indent fm) ++ ['\n']

/-- `serializeYaml` of `source/lib/markdown.ts` at top level. -/
def serializeYamlMd (fuel : Nat) (fm : Fm) : Str := serializeYamlStr fuel true 0 fm

/-- `serializeFrontmatter` of `source/commands/push.tsx` at top level. -/
def serializeFrontmatterPush (fuel : Nat) (fm : Fm) : Str :=
  serializeYamlStr fuel false 0 fm

/-- `formatYamlValue` of `source/commands/pull.tsx`; `fuel` as in
`jsStringOf`. -/
def formatYamlValue : Nat → YValue → Str
  | 0, _ => []
  | _ + 1, .vNull => str "null"
  | _ + 1, .vStr s => if needsQuote s then jsonQuote s else s
  | _ + 1, .vInt n => intToStr n
  | _ + 1, .vFloat raw => raw
  | _ + 1, .vBool b => if b then str "true" else str "false"
  | fuel + 1, .vArr xs =>
    if xs.isEmpty then str "[]"
    else '\n' :: joinNl (xs.map (fun x => str "  - " ++ formatYamlValue fuel x))
  | fuel + 1, .vObj fields => jsonStringify (fuel + 1) (.vObj fields)

/-- A remote project item as produced by `ghProjectItemList`
(`source/lib/github.ts`). -/
structure ProjectItem where
  id : Str
  title : Str
  body : Str
  status : Option Str
  contentType : Str
  contentId : Option Str

/-- Project context passed to `serializeItemToMarkdown`. -/
structure ProjectContext where
  projectId : Str
  projectOwner : Str
  projectNumber : Int

/-- A nullable string as a frontmatter value. -/
def optStr : Option Str → YValue
  | none => .vNull
  | some s => .vStr s

/-- The frontmatter object built by `serializeItemToMarkdown`
(`source/lib/markdown.ts`); `now` stands for `new Date().toISOString()` and
`hash` for `computeChecksum`. -/
def itemFm (hash : Str → Str) (now : Str) (item : ProjectItem)
    (ctx : ProjectContext) : Fm :=
  [(str "id", .vStr item.id),
   (str "project_id", .vStr ctx.projectId),
   (str "project_owner", .vStr ctx.projectOwner),
   (str "project_number", .vInt ctx.projectNumber),
   (str "title", .vStr item.title),
   (str "status", optStr item.status),
   (str "content_type", .vStr item.contentType),
   (str "content_id", optStr item.contentId),
   (str "deleted", .vBool false),
   (str "_sync", .vObj
     [(str "remote_updated_at", .vStr now),
      (str "local_checksum", .vStr (hash item.body))])]

/-- `serializeItemToMarkdown` of `source/lib/markdown.ts`.  The frontmatter it
builds has fixed nesting depth 2, so fuel 3 makes the fueled serializer agree
exactly with the JS recursion. -/
def serializeItemToMarkdown (hash : Str → Str) (now : Str)
    (item : ProjectItem) (ctx : ProjectContext) : Str :=
  str "---\n" ++ serializeYamlMd 3 (itemFm hash now item ctx) ++ str "---\n\n" ++ item.body

/-- A parsed markdown file: frontmatter object plus body text. -/
structure ParsedMarkdown where
  fm : Fm
  body : Str

/-- `parseMarkdownString` of `source/lib/markdown.ts`.  On a string input it
never returns `null`, so the result type is total here. -/
def parseMarkdownString (content : Str) : ParsedMarkdown :=
  if ¬ leads (str "---\n") content then ⟨[], content⟩
  else
    match idxOfFrom (str "\n---\n") content 4 with
    | none => ⟨[], content⟩
    | some endIndex =>
      ⟨parseYaml (jsSlice content 4 endIndex),
       jsTrim (content.drop (endIndex + 5))⟩

/-- Suffix test (JS `endsWith`). -/
def strEnds (suffix s : Str) : Bool := leads suffix.reverse s.reverse

/-- Replace every maximal run of characters satisfying `p` by a single `rep`
(the JS global regex replaces `/p+/g`); `inRun` tracks whether the previous
character was part of a run. -/
def squashRuns (p : Char → Bool) (rep : Char) : Bool → Str → Str
  | _, [] => []
  | inRun, c :: r =>
    if p c then
      if inRun then squashRuns p rep true r
      else rep :: squashRuns p rep true r
    else c :: squashRuns p rep false r

/-- The character class `[/\\:*?"<>|]` of unsafe filename characters. -/
def unsafeCh (c : Char) : Bool :=
  c = '/' ∨ c = '\\' ∨ c = ':' ∨ c = '*' ∨ c = '?' ∨ c = '"' ∨ c = '<' ∨ c = '>' ∨ c = '|'

/-- The regex `/^-|-$/g`: remove one leading and one trailing dash. -/
def dropEdgeDashes (s : Str) : Str :=
  let s1 := match s with
    | '-' :: rest => rest
    | _ => s
  match s1.reverse with
  | '-' :: rest => rest.reverse
  | _ => s1

/-- `sanitizeForFilesystem` of `source/lib/filesystem.ts`. -/
def sanitizeForFilesystem (s : Str) (maxLength : Nat) : Str :=
  ((dropEdgeDashes
    (squashRuns (fun c => c = '-') '-' false
      (squashRuns isWs '-' false
        ((s.map Char.toLower).map (fun c => if unsafeCh c then '-' else c))))).take
    maxLength)

/-- The suffixed candidate filename `base-k.md`. -/
def suffixName (base : Str) (k : Nat) : Str :=
  base ++ ['-'] ++ natToStr k ++ str ".md"

/-- `getUniqueFilename` of `source/commands/pull.tsx`.  The JS `while` loop
returns the smallest counter from 2 whose name is free; among the
`used.length + 1` candidates `2 … used.length + 2` at least one is free, so
the bounded search below always succeeds and the `getD` fallback is inert. -/
def getUniqueFilename (base : Str) (used : List Str) : Str :=
  if !used.contains (base ++ str ".md") then base ++ str ".md"
  else
    suffixName base
      ((((List.range (used.length + 1)).map (· + 2)).find?
        (fun k => !used.contains (suffixName base k))).getD (used.length + 2))

/-- The project directory contents: filenames with their text, in directory
order. -/
abbrev Files := List (Str × Str)

/-- Read a file (`none` models a missing file / read error). -/
def filesGet (fs : Files) (name : Str) : Option Str :=
  (fs.find? (fun kv => kv.1 == name)).map (·.2)

/-- `writeFile`: overwrite in place or create at the end. -/
def filesSet (fs : Files) (name content : Str) : Files :=
  if fs.any (fun kv => kv.1 == name) then
    fs.map (fun kv => if kv.1 == name then (name, content) else kv)
  else fs ++ [(name, content)]

/-- `unlink`. -/
def filesRemove (fs : Files) (name : Str) : Files :=
  fs.filter (fun kv => kv.1 != name)

/-- Names of the markdown files, `readdir(...).filter(f => f.endsWith(".md"))`. -/
def mdNames (fs : Files) : List Str :=
  (fs.filter (fun kv => strEnds (str ".md") kv.1)).map (·.1)

/-- JS `Map.set` keyed by arbitrary runtime values under `SameValueZero`
(`jsEq` here): overwrite in place, else append. -/
def mapSet (m : List (YValue × Str)) (k : YValue) (v : Str) :
    List (YValue × Str) :=
  if m.any (fun kv => jsEq kv.1 k) then
    m.map (fun kv => if jsEq kv.1 k then (kv.1, v) else kv)
  else m ++ [(k, v)]

/-- JS `Map.get`. -/
def mapGet (m : List (YValue × Str)) (k : YValue) : Option Str :=
  (m.find? (fun kv => jsEq kv.1 k)).map (·.2)

/-- The `localItemMap` built by `pullProject`: item id value to filename, in
insertion order, for every markdown file whose parsed frontmatter has a
truthy `id`.  (The map in `pull.tsx` also records a checksum, which nothing
reads; it is omitted.) -/
def buildLocalItemMap (fs : Files) (names : List Str) : List (YValue × Str) :=
  names.foldl (fun m name =>
    match filesGet fs name with
    | none => m
    | some content =>
      let parsed := parseMarkdownString content
      match fmGet parsed.fm (str "id") with
      | some idv => if truthy idv then mapSet m idv name else m
      | none => m) []

/-- The step of the `localItemMap` fold, named for the proofs below. -/
def bstep (fs : Files) (m : List (YValue × Str)) (name : Str) :
    List (YValue × Str) :=
  match filesGet fs name with
  | none => m
  | some content =>
    match fmGet (parseMarkdownString content).fm (str "id") with
    | some idv => if truthy idv then mapSet m idv name else m
    | none => m

/-- Counters reported by a pull together with the resulting directory. -/
structure PullSt where
  files : Files
  used : List Str
  created : Nat
  updated : Nat
  unchanged : Nat
  deleted : Nat

/-- Processing of one remote item by `pullProject`'s first loop
(`source/commands/pull.tsx`, lines 191-229). -/
def pullStep (hash : Str → Str) (now : Str) (ctx : ProjectContext)
    (lim : List (YValue × Str)) (st : PullSt) (item : ProjectItem) : PullSt :=
  let markdown := serializeItemToMarkdown hash now item ctx
  match mapGet lim (.vStr item.id) with
  | some filename =>
    let parsed? := (filesGet st.files filename).map parseMarkdownString
    let currentBody := (parsed?.map (·.body)).getD []
    let titleMatches :=
      match parsed?.bind (fun p => fmGet p.fm (str "title")) with
      | some v => v.eqStr item.title
      | none => false
    if !titleMatches || currentBody != item.body then
      { st with files := filesSet st.files filename markdown,
                updated := st.updated + 1 }
    else { st with unchanged := st.unchanged + 1 }
  | none =>
    let baseFilename :=
      sanitizeForFilesystem (if item.title = [] then str "untitled" else item.title) 100
    let filename := getUniqueFilename baseFilename st.used
    { st with files := filesSet st.files filename markdown,
              used := st.used ++ [filename],
              created := st.created + 1 }

/-- Processing of one `localItemMap` entry by `pullProject`'s tombstone loop
(`source/commands/pull.tsx`, lines 231-247). -/
def pullTombstoneStep (remoteItems : List ProjectItem) (st : PullSt)
    (entry : YValue × Str) : PullSt :=
  if remoteItems.any (fun r => jsEq entry.1 (.vStr r.id)) then st
  else
    match filesGet st.files entry.2 with
    | none => st
    | some content =>
      let parsed := parseMarkdownString content
      if truthyO (fmGet parsed.fm (str "deleted")) then st
      else
        let updatedFm := fmSet parsed.fm (str "deleted") (.vBool true)
        let yaml := joinNl (updatedFm.map (fun kv =>
          kv.1 ++ str ": " ++ formatYamlValue (content.length + 4) kv.2))
        let markdown := str "---\n" ++ yaml ++ str "\n---\n\n" ++ parsed.body
        { st with files := filesSet st.files entry.2 markdown,
                  deleted := st.deleted + 1 }

/-- `pullProject` of `source/commands/pull.tsx` after the two remote fetches
succeeded: `remoteItems` is the fetched item list, `ctx` carries the project
id from `ghProjectView` together with the tracked owner and number, and
`files` is the project directory.  The `formatYamlValue` fuel passed in the
tombstone loop exceeds the nesting depth of any value parsed from the file,
so the fueled serializer agrees with the JS recursion. -/
def pullProject (hash : Str → Str) (now : Str) (ctx : ProjectContext)
    (remoteItems : List ProjectItem) (files : Files) : PullSt :=
  let names := mdNames files
  let lim := buildLocalItemMap files names
  let st0 : PullSt := ⟨files, names, 0, 0, 0, 0⟩
  let st1 := remoteItems.foldl (pullStep hash now ctx lim) st0
  lim.foldl (pullTombstoneStep remoteItems) st1

/-- State of the remote project as seen through the `gh` client interface
(`source/lib/github.ts`), with injectable failures: `failUpdate` and
`failDelete` name the content ids / item ids whose remote calls fail (for any
of the interface's error reasons), `failCreate` makes creation fail, and
`fresh` supplies the item and content ids that successful creations assign. -/
structure RemoteState where
  items : List ProjectItem
  failUpdate : List Str
  failDelete : List Str
  failCreate : Bool
  fresh : List (Str × Str)

/-- `ghUpdateDraftIssue`: on success the draft with the given content id gets
the new title and body. -/
def ghUpdateDraftIssue (rs : RemoteState) (cid title body : Str) :
    Bool × RemoteState :=
  if rs.failUpdate.contains cid then (false, rs)
  else
    (true, { rs with items := rs.items.map (fun it =>
      if it.contentId = some cid then { it with title := title, body := body }
      else it) })

/-- `ghDeleteItem`: fails when injected to or when the item is absent
(`not_found`), succeeds removing the item otherwise. -/
def ghDeleteItem (rs : RemoteState) (iid : Str) : Bool × RemoteState :=
  if rs.failDelete.contains iid then (false, rs)
  else if rs.items.any (fun it => it.id == iid) then
    (true, { rs with items := rs.items.filter (fun it => it.id != iid) })
  else (false, rs)

/-- `ghCreateItem`: a successful creation appends a fresh draft item carrying
the supplied title and body and returns its item id. -/
def ghCreateItem (rs : RemoteState) (title body : Str) :
    Option Str × RemoteState :=
  if rs.failCreate then (none, rs)
  else
    match rs.fresh with
    | [] => (none, rs)
    | (iid, cid) :: rest =>
      (some iid,
       { rs with
         items := rs.items ++
           [⟨iid, title, body, none, str "DraftIssue", some cid⟩],
         fresh := rest })

/-- The `(parsed.frontmatter._sync as Record<string, unknown>) || {}` read of
the push file writers: an object value is reused, a falsy value is replaced
by a fresh empty object, and a truthy non-object (on which the strict-mode
property assignment that follows would throw, or which is not modelled, like
an array acquiring expando properties) yields `none`. -/
def syncObjOf (fm : Fm) : Option Fm :=
  match fmGet fm (str "_sync") with
  | some (.vObj f) => some f
  | some v => if truthy v then none else some []
  | none => some []

/-- The `(frontmatter._sync as Record)?.local_checksum` read in
`pushProject`: optional chaining on a non-object yields `undefined`. -/
def storedChecksumOf (fm : Fm) : Option YValue :=
  match fmGet fm (str "_sync") with
  | some (.vObj f) => fmGet f (str "local_checksum")
  | _ => none

/-- `updateLocalFileWithId` of `source/commands/push.tsx`: set `id` and
`project_id`, refresh the `_sync` block (`local_checksum` first, then
`remote_updated_at`), and re-serialize.  Returns the new file text. -/
def updateLocalFileWithId (now : Str) (parsed : ParsedMarkdown)
    (itemId projectId checksum : Str) (fuel : Nat) : Option Str :=
  match syncObjOf parsed.fm with
  | none => none
  | some sync0 =>
    let fm1 := fmSet parsed.fm (str "id") (.vStr itemId)
    let fm2 := fmSet fm1 (str "project_id") (.vStr projectId)
    let sync1 := fmSet sync0 (str "local_checksum") (.vStr checksum)
    let sync2 := fmSet sync1 (str "remote_updated_at") (.vStr now)
    let fm3 := fmSet fm2 (str "_sync") (.vObj sync2)
    some (str "---\n" ++ serializeFrontmatterPush fuel fm3 ++ str "---\n\n" ++
      parsed.body)

/-- `updateLocalChecksum` of `source/commands/push.tsx`. -/
def updateLocalChecksum (now : Str) (parsed : ParsedMarkdown)
    (newChecksum : Str) (fuel : Nat) : Option Str :=
  match syncObjOf parsed.fm with
  | none => none
  | some sync0 =>
    let sync1 := fmSet sync0 (str "local_checksum") (.vStr newChecksum)
    let sync2 := fmSet sync1 (str "remote_updated_at") (.vStr now)
    let fm1 := fmSet parsed.fm (str "_sync") (.vObj sync2)
    some (str "---\n" ++ serializeFrontmatterPush fuel fm1 ++ str "---\n\n" ++
      parsed.body)

/-- One local markdown file as read by `pushProject` before its loop. -/
structure LocalItem where
  filename : Str
  parsed : ParsedMarkdown
  currentChecksum : Str
  contentLen : Nat

/-- State threaded through `pushProject`'s loop; `error` records a thrown
exception, which aborts the remaining items of the project. -/
structure PushSt where
  files : Files
  remote : RemoteState
  created : Nat
  updated : Nat
  deleted : Nat
  unchanged : Nat
  error : Option Str

/-- Strip a trailing `.md` (`filename.replace(/\.md$/, "")`). -/
def stripMd (name : Str) : Str :=
  if strEnds (str ".md") name then name.take (name.length - 3) else name

/-- Processing of one local item by `pushProject`'s loop
(`source/commands/push.tsx`, lines 199-275).  A `some`-valued `error` state
short-circuits, modelling the thrown exception. -/
def pushStep (now : Str) (dryRun : Bool) (projectId : Str)
    (remoteList : List ProjectItem) (st : PushSt) (litem : LocalItem) :
    PushSt :=
  if st.error.isSome then st
  else
    let fm := litem.parsed.fm
    let itemId? := fmGet fm (str "id")
    let isDeleted := ((fmGet fm (str "deleted")).map YValue.isTrue).getD false
    let remote? :=
      match itemId? with
      | some idv =>
        if truthy idv then
          remoteList.reverse.find? (fun (it : ProjectItem) => jsEq idv (.vStr it.id))
        else none
      | none => none
    let storedChecksum := storedChecksumOf fm
    if isDeleted then
      match remote?, itemId? with
      | some _, some idv =>
        if dryRun then { st with deleted := st.deleted + 1 }
        else
          let idStr := match idv with | .vStr s => s | v => jsStringOf 3 v
          let (_, rs1) := Gpfs.ghDeleteItem st.remote idStr
          { st with
            remote := rs1,
            files := filesRemove st.files litem.filename,
            deleted := st.deleted + 1 }
      | _, _ =>
        if dryRun then { st with deleted := st.deleted + 1 }
        else
          { st with
            files := filesRemove st.files litem.filename,
            deleted := st.deleted + 1 }
    else
      match remote? with
      | none =>
        let isPvti :=
          match itemId? with
          | some (.vStr s) => truthy (.vStr s) && leads (str "PVTI_") s
          | _ => false
        let idTypeErr :=
          match itemId? with
          | some v => truthy v && (match v with | .vStr _ => false | _ => true)
          | none => false
        if idTypeErr then
          { st with error := some (str "TypeError: startsWith is not a function") }
        else if isPvti then { st with unchanged := st.unchanged + 1 }
        else
          let title :=
            match fmGet fm (str "title") with
            | some v => if truthy v then jsStringOf (litem.contentLen + 4) v
                        else stripMd litem.filename
            | none => stripMd litem.filename
          if dryRun then { st with created := st.created + 1 }
          else
            match ghCreateItem st.remote title litem.parsed.body with
            | (none, rs1) =>
              { st with remote := rs1,
                        error := some (str "Failed to create item") }
            | (some newId, rs1) =>
              match updateLocalFileWithId now litem.parsed newId projectId
                  litem.currentChecksum (litem.contentLen + 8) with
              | none =>
                { st with remote := rs1,
                          error := some (str "TypeError in updateLocalFileWithId") }
              | some content =>
                { st with
                  remote := rs1,
                  files := filesSet st.files litem.filename content,
                  created := st.created + 1 }
      | some remote =>
        let diverged :=
          truthyO storedChecksum &&
            !(match storedChecksum with
              | some v => jsEq (.vStr litem.currentChecksum) v
              | none => false)
        if diverged then
          let draftOk :=
            match remote.contentId with
            | some cid => !cid.isEmpty && remote.contentType == str "DraftIssue"
            | none => false
          if draftOk then
            if dryRun then { st with updated := st.updated + 1 }
            else
              let cid := match remote.contentId with
                | some cid => cid
                | none => []
              let titleStr :=
                match fmGet fm (str "title") with
                | some v => jsStringOf (litem.contentLen + 4) v
                | none => str "undefined"
              let (_, rs1) :=
                Gpfs.ghUpdateDraftIssue st.remote cid titleStr litem.parsed.body
              match updateLocalChecksum now litem.parsed litem.currentChecksum
                  (litem.contentLen + 8) with
              | none =>
                { st with remote := rs1,
                          error := some (str "TypeError in updateLocalChecksum") }
              | some content =>
                { st with
                  remote := rs1,
                  files := filesSet st.files litem.filename content,
                  updated := st.updated + 1 }
          else { st with unchanged := st.unchanged + 1 }
        else { st with unchanged := st.unchanged + 1 }

/-- `pushProject` of `source/commands/push.tsx` after the two remote fetches
succeeded.  The local items and the remote-items-by-id lookup are read before
the loop starts, exactly as the code does. -/
def pushProject (hash : Str → Str) (now : Str) (dryRun : Bool)
    (projectId : Str) (files : Files) (rs : RemoteState) : PushSt :=
  let locals := (mdNames files).filterMap (fun name =>
    (filesGet files name).map (fun content =>
      let parsed := parseMarkdownString content
      (⟨name, parsed, hash parsed.body, content.length⟩ : LocalItem)))
  locals.foldl (pushStep now dryRun projectId rs.items)
    ⟨files, rs, 0, 0, 0, 0, none⟩

/-- The remote-items-by-id map (`Map.set` in fetch order: last item with a
given id wins, first occurrence keeps the position). -/
def remoteByIdList (items : List ProjectItem) : List (Str × ProjectItem) :=
  items.foldl (fun m it =>
    if m.any (fun kv => kv.1 == it.id) then
      m.map (fun kv => if kv.1 == it.id then (kv.1, it) else kv)
    else m ++ [(it.id, it)]) []

/-- One local file as summarized by the status command (`LocalFileInfo`):
falsy ids and titles are replaced by the empty string, a falsy stored
checksum by `null`, exactly as the `||` defaults do. -/
structure LocalFileInfo where
  filename : Str
  itemId : YValue
  title : YValue
  body : Str
  storedChecksum : Option YValue
  currentChecksum : Str
  deleted : Bool
  contentType : YValue
  contentId : Option YValue

/-- Build the `LocalFileInfo` for one parsed file. -/
def mkLocalFileInfo (hash : Str → Str) (filename : Str)
    (parsed : ParsedMarkdown) : LocalFileInfo :=
  let orEmpty : Option YValue → YValue := fun v? =>
    match v? with
    | some v => if truthy v then v else .vStr []
    | none => .vStr []
  let orNull : Option YValue → Option YValue := fun v? =>
    match v? with
    | some v => if truthy v then some v else none
    | none => none
  { filename := filename
    itemId := orEmpty (fmGet parsed.fm (str "id"))
    title := orEmpty (fmGet parsed.fm (str "title"))
    body := parsed.body
    storedChecksum := orNull (storedChecksumOf parsed.fm)
    currentChecksum := hash parsed.body
    deleted := ((fmGet parsed.fm (str "deleted")).map YValue.isTrue).getD false
    contentType := orEmpty (fmGet parsed.fm (str "content_type"))
    contentId := orNull (fmGet parsed.fm (str "content_id")) }

/-- The classification produced by `getProjectStatus` of the status command. -/
structure StatusInfo where
  localModified : List LocalFileInfo
  remoteModified : List ProjectItem
  localNew : List LocalFileInfo
  remoteNew : List ProjectItem
  localDeleted : List LocalFileInfo
  remoteDeleted : List LocalFileInfo

/-- One iteration of `getProjectStatus`'s local-file loop; `none` models the
`TypeError` thrown by `itemId.startsWith` on a truthy non-string id, which
makes the whole status computation fail. -/
def classifyStep (remoteList : List ProjectItem)
    (acc : Option (StatusInfo × List Str)) (lf : LocalFileInfo) :
    Option (StatusInfo × List Str) :=
  match acc with
  | none => none
  | some (info, ids) =>
    match lf.itemId with
    | .vStr s =>
      if s = [] ∨ ¬ leads (str "PVTI_") s then
        some ({ info with localNew := info.localNew ++ [lf] }, ids)
      else
        let ids1 := ids ++ [s]
        let remote? := ((remoteByIdList remoteList).find?
          (fun kv => kv.1 == s)).map (·.2)
        if lf.deleted then
          match remote? with
          | some _ =>
            some ({ info with localDeleted := info.localDeleted ++ [lf] }, ids1)
          | none => some (info, ids1)
        else
          match remote? with
          | none =>
            some ({ info with remoteDeleted := info.remoteDeleted ++ [lf] }, ids1)
          | some remote =>
            let localChanged :=
              match lf.storedChecksum with
              | some v => !(jsEq (.vStr lf.currentChecksum) v)
              | none => false
            let remoteChanged :=
              !(lf.title.eqStr remote.title) || remote.body != lf.body
            let info1 :=
              if localChanged then
                { info with localModified := info.localModified ++ [lf] }
              else info
            let info2 :=
              if remoteChanged && !localChanged then
                { info1 with remoteModified := info1.remoteModified ++ [remote] }
              else info1
            some (info2, ids1)
    | v => if truthy v then none else some (info, ids)

/-- `getProjectStatus` of the status command after a successful item fetch:
classify every markdown file, then report the remote items missing locally.
The final `v => …` fallback of `classifyStep` is unreachable because
`mkLocalFileInfo` replaces falsy ids by the empty string. -/
def getProjectStatus (hash : Str → Str) (remoteItems : List ProjectItem)
    (files : Files) : Option StatusInfo :=
  let localFiles := (mdNames files).filterMap (fun name =>
    (filesGet files name).map (fun content =>
      mkLocalFileInfo hash name (parseMarkdownString content)))
  match localFiles.foldl (classifyStep remoteItems)
      (some (⟨[], [], [], [], [], []⟩, [])) with
  | none => none
  | some (info, ids) =>
    some { info with
      remoteNew := info.remoteNew ++
        ((remoteByIdList remoteItems).filter
          (fun kv => ¬ ids.contains kv.1)).map (·.2) }

/-- The parsed contents of the daemon lock record `daemon.pid`. -/
structure PidData where
  pid : Int
  startedAt : Str
  pollInterval : Int
  debounce : Int

/-- The world visible to the daemon lock logic: the lock record (`none` for a
missing or unreadable file), the set of process ids that exist
(`process.kill(pid, 0)` succeeds), and whether a runner was started in this
process. -/
structure DaemonWorld where
  pidFile : Option PidData
  liveProcs : List Int
  runnerStarted : Bool

/-- The daemon status reported by `getDaemonStatus`. -/
structure DaemonStatus where
  running : Bool
  pid : Option Int

/-- `getDaemonStatus` of `source/lib/daemon.ts`: read the lock record, check
liveness of the recorded process, and remove a stale record. -/
def getDaemonStatus (w : DaemonWorld) : DaemonStatus × DaemonWorld :=
  match w.pidFile with
  | none => (⟨false, none⟩, w)
  | some d =>
    if w.liveProcs.contains d.pid then (⟨true, some d.pid⟩, w)
    else (⟨false, none⟩, { w with pidFile := none })

/-- Outcome of a daemon start attempt. -/
inductive StartOutcome where
  | conflict (pid : Option Int)
  | started

/-- The foreground start path of the daemon start command: fail with a
conflict when a live instance exists, otherwise write the lock record for
this process and start the runner. -/
def startDaemon (w : DaemonWorld) (selfPid : Int) (pollInterval debounce : Int)
    (now : Str) : StartOutcome × DaemonWorld :=
  let (status, w1) := getDaemonStatus w
  if status.running then (.conflict status.pid, w1)
  else
    (.started,
     { w1 with
       pidFile := some ⟨selfPid, now, pollInterval, debounce⟩,
       runnerStarted := true })

/-! ### Side-condition predicates and serialized-entry plans used by the
round-trip and idempotence theorems -/

/-- An unquoted scalar text that `parseYamlValue` maps back to itself as a
string: it avoids the quoting condition of the serializers, is trim-stable,
and falls through every earlier branch of `parseYamlValue`. -/
def plainScalarSafe (s : Str) : Bool :=
  !needsQuote s && trimStable s &&
    s ≠ str "null" && s ≠ str "~" && s ≠ str "true" && s ≠ str "false" &&
    s ≠ str "[]" && !intLit s && !floatLit s &&
    !(leads ['"'] s && leads ['"'] s.reverse) &&
    !(leads ['\''] s && leads ['\''] s.reverse)

/-- The text the yaml serializers print for a scalar value. -/
def scalarText : YValue → Str
  | .vNull => str "null"
  | .vStr s => if needsQuote s then jsonQuote s else s
  | .vInt n => intToStr n
  | .vFloat raw => raw
  | .vBool b => if b then str "true" else str "false"
  | .vArr _ => []
  | .vObj _ => []

/-- A string value whose serialized text parses back to the same string:
either it gets JSON-quoted, or it is a safe plain scalar. -/
def strValueSafe (s : Str) : Bool := needsQuote s || plainScalarSafe s

/-- A scalar value whose serialized text parses back to itself. -/
def scalarSafe : YValue → Bool
  | .vStr s => strValueSafe s
  | .vInt _ => true
  | .vBool _ => true
  | .vNull => true
  | _ => false

/-- A top-level yaml key as the serializers write and the parser reads it:
nonempty, trim-stable, free of colons and newlines. -/
def keySafe (k : Str) : Bool :=
  k ≠ [] && trimStable k && !k.contains ':' && !k.contains '\n'

/-- A `\w+` key, as the object-opener test requires of the first nested
key. -/
def wordKey (k : Str) : Bool := k ≠ [] && k.all isWordCh

/-- Side conditions on the text after `": "` in a yaml line: nonempty,
trim-stable, newline-free. -/
def lineTxtOk (txt : Str) : Bool :=
  txt ≠ [] && trimStable txt && !txt.contains '\n'

/-- One serialized frontmatter entry as a block of lines: either a single
scalar line or a nested-object header followed by twice-indented scalar
lines. -/
inductive EntryPlan where
  | scalar (k txt : Str)
  | objE (k : Str) (inner : List (Str × Str))

/-- The lines a plan stands for. -/
def planLines : EntryPlan → List Str
  | .scalar k txt => [k ++ str ": " ++ txt]
  | .objE k inner =>
    (k ++ [':']) :: inner.map (fun e => str "  " ++ e.1 ++ str ": " ++ e.2)

/-- The parsed key-value pair a plan stands for. -/
def planKV : EntryPlan → Str × YValue
  | .scalar k txt => (k, parseYamlValue txt)
  | .objE k inner =>
    (k, .vObj (inner.map (fun e => (e.1, parseYamlValue e.2))))

/-- Well-formedness of a plan. -/
def planWf : EntryPlan → Prop
  | .scalar k txt => keySafe k = true ∧ lineTxtOk txt = true
  | .objE k inner => keySafe k = true ∧ inner ≠ [] ∧
      (∀ e ∈ inner, wordKey e.1 = true ∧ lineTxtOk e.2 = true) ∧
      (inner.map (·.1)).Nodup

/-- The plan of one frontmatter entry under the yaml serializers. -/
def planOfEntry : Str × YValue → EntryPlan
  | (k, .vObj fields) =>
    .objE k (fields.map (fun kv => (kv.1, scalarText kv.2)))
  | (k, v) => .scalar k (scalarText v)

/-- A frontmatter entry the serializers render into lines that parse back
to the same entry: scalar values must be safe scalars, an object value must
be a nonempty object of safe scalars under `\w+` keys without
duplicates. -/
def entryWf : Str × YValue → Prop
  | (k, .vObj fields) => keySafe k = true ∧ fields ≠ [] ∧
      (∀ e ∈ fields, wordKey e.1 = true ∧ scalarSafe e.2 = true) ∧
      (fields.map (·.1)).Nodup
  | (k, v) => keySafe k = true ∧ scalarSafe v = true

/-- The files `pullProject` creates when run against an empty directory,
with the used-name list threaded exactly as the create branch does. -/
def freshEntries (hash : Str → Str) (now : Str) (ctx : ProjectContext) :
    List ProjectItem → List Str → Files
  | [], _ => []
  | item :: rest, used =>
    let baseFilename := sanitizeForFilesystem
      (if item.title = [] then str "untitled" else item.title) 100
    let filename := getUniqueFilename baseFilename used
    (filename, serializeItemToMarkdown hash now item ctx)
      :: freshEntries hash now ctx rest (used ++ [filename])

/-! ### Concrete example states used by counterexamples and evaluations -/

/-- A concrete stand-in for `computeChecksum`: prefix the body with `h`.
Like the real truncated SHA-256 hex digest, only its output equality matters
to the sync engine; this one is injective outright. -/
def exHash : Str → Str := fun s => 'h' :: s

/-- A concrete timestamp for `new Date().toISOString()`. -/
def exNow : Str := str "2025-01-01T00:00:00.000Z"

/-- A concrete project context. -/
def exCtx : ProjectContext :=
  { projectId := str "PVT_p", projectOwner := str "me", projectNumber := 7 }

/-- A file that is locally modified: its body `newlocal` hashes to
`hnewlocal`, different from the stored checksum `hold`. -/
def exModifiedFile : Str :=
  str "---\nid: PVTI_1\ntitle: Old\n_sync:\n  local_checksum: hold\n---\n\nnewlocal"

/-- The remote counterpart of `exModifiedFile`, itself diverged from the
baseline (body `newremote`). -/
def exRemoteDiverged : ProjectItem :=
  { id := str "PVTI_1", title := str "Old", body := str "newremote"
    status := none, contentType := str "DraftIssue", contentId := some (str "DI_1") }

/-- A draft file with a pending body change (`newbody` vs stored `hold`). -/
def exDraftModifiedFile : Str :=
  str "---\nid: PVTI_1\ntitle: T\ncontent_type: DraftIssue\ncontent_id: DI_1\n_sync:\n  remote_updated_at: x\n  local_checksum: hold\n---\n\nnewbody"

/-- The unmodified remote draft counterpart (body `old`). -/
def exRemoteDraft : ProjectItem :=
  { id := str "PVTI_1", title := str "T", body := str "old"
    status := none, contentType := str "DraftIssue", contentId := some (str "DI_1") }

/-- A tombstoned local file (`deleted: true`). -/
def exTombstonedFile : Str :=
  str "---\nid: PVTI_1\ntitle: T\ndeleted: true\n---\n\nbody"

/-- The remote counterpart as a linked issue (not a draft). -/
def exRemoteIssue : ProjectItem :=
  { id := str "PVTI_1", title := str "T", body := str "old"
    status := none, contentType := str "Issue", contentId := some (str "I_1") }

/-- A remote item whose body ends in a newline (not trim-stable). -/
def exRemoteTrailingNl : ProjectItem :=
  { id := str "PVTI_1", title := str "T", body := str "x\n"
    status := none, contentType := str "DraftIssue", contentId := some (str "DI_1") }

/-! ### Claim C2 -/

/-- No remote item carries id `s` and no fresh id equals `s`: push can then
neither find nor create an item with that id. -/
def remoteSafe (s : Str) (rs : RemoteState) : Prop :=
  (∀ it ∈ rs.items, it.id ≠ s) ∧ (∀ p ∈ rs.fresh, p.1 ≠ s)

/-- The construction of one `LocalItem` in `pushProject`. -/
def mkLocalItem (hash : Str → Str) (files : Files) (name : Str) :
    Option LocalItem :=
  (filesGet files name).map (fun content =>
    let parsed := parseMarkdownString content
    (⟨name, parsed, hash parsed.body, content.length⟩ : LocalItem))

/-- C2 (code bug): for the push-update of a draft whose body changed since
baseline, `pushProject` refreshes the stored `_sync.local_checksum` even
though the remote update call failed: with the update on `DI_1` failing, the
remote item keeps its old body, yet the local file's stored checksum becomes
the checksum of the new body and the item is counted as updated, erasing the
divergence that the spec says is the sole signal of a pending push.  (The
daemon-side `pushFile` checks `result.success` before rewriting; the
`pushProject` loop does not.) -/
theorem c2_failed_update_still_refreshes_checksum :
    (pushProject exHash exNow false (str "PVT_p")
        [(str "a.md", exDraftModifiedFile)]
        ⟨[exRemoteDraft], [str "DI_1"], [], false, []⟩).remote.items
        = [exRemoteDraft] ∧
    storedChecksumOf (parseMarkdownString
        ((filesGet (pushProject exHash exNow false (str "PVT_p")
          [(str "a.md", exDraftModifiedFile)]
          ⟨[exRemoteDraft], [str "DI_1"], [], false, []⟩).files
          (str "a.md")).getD [])).fm
        = some (.vStr (exHash (str "newbody"))) ∧
    (pushProject exHash exNow false (str "PVT_p")
        [(str "a.md", exDraftModifiedFile)]
        ⟨[exRemoteDraft], [str "DI_1"], [], false, []⟩).updated = 1 ∧
    (pushProject exHash exNow false (str "PVT_p")
        [(str "a.md", exDraftModifiedFile)]
        ⟨[exRemoteDraft], [str "DI_1"], [], false, []⟩).error = none := by
  exact ⟨rfl, rfl, rfl, rfl⟩

/-! ### Claim C3 -/

/-- C3 (code bug): for a tombstoned item whose remote counterpart exists,
`pushProject` removes the local file even though the remote delete failed
(the result of `ghDeleteItem` is never checked, despite the adjacent comment
"Remove the local file after successful delete"): with the delete of
`PVTI_1` failing, the remote item survives but the local file is gone and the
item is counted as deleted. -/
theorem c3_failed_remote_delete_still_removes_file :
    (pushProject exHash exNow false (str "PVT_p")
        [(str "a.md", exTombstonedFile)]
        ⟨[exRemoteDraft], [], [str "PVTI_1"], false, []⟩).remote.items
        = [exRemoteDraft] ∧
    filesGet (pushProject exHash exNow false (str "PVT_p")
        [(str "a.md", exTombstonedFile)]
        ⟨[exRemoteDraft], [], [str "PVTI_1"], false, []⟩).files (str "a.md")
        = none ∧
    (pushProject exHash exNow false (str "PVT_p")
        [(str "a.md", exTombstonedFile)]
        ⟨[exRemoteDraft], [], [str "PVTI_1"], false, []⟩).deleted = 1 := by
  exact ⟨rfl, rfl, rfl⟩

/-! ### Claim C1: counterexample -/

/-- C1 (counterexample): an item that is locally modified (current checksum
`hnewlocal` differs from stored `hold`) and whose remote counterpart also
diverged (body `newremote`) is classified `localModified` only by the status
reconciler, yet `pullProject` does not leave its file untouched: the file is
rewritten with the serialized remote item (body `newremote`), counted as
updated, and the unsynced local edit `newlocal` is discarded. -/
theorem c1_counterexample_pull_overwrites_local_modification :
    (getProjectStatus exHash [exRemoteDiverged]
        [(str "a.md", exModifiedFile)]).map
        (fun info => (info.localModified.map (·.filename),
                      info.remoteModified.map (·.id)))
      = some ([str "a.md"], []) ∧
    filesGet (pullProject exHash exNow exCtx [exRemoteDiverged]
        [(str "a.md", exModifiedFile)]).files (str "a.md")
      ≠ some exModifiedFile ∧
    (parseMarkdownString ((filesGet (pullProject exHash exNow exCtx
        [exRemoteDiverged] [(str "a.md", exModifiedFile)]).files
        (str "a.md")).getD [])).body = str "newremote" ∧
    (pullProject exHash exNow exCtx [exRemoteDiverged]
        [(str "a.md", exModifiedFile)]).updated = 1 := by
  exact ⟨rfl, by decide, rfl, rfl⟩

/-! ### Claim C4: counterexample -/

/-- C4 (counterexample): for a local draft-formatted item with a pending body
change whose remote counterpart is a linked issue, `pushProject` reports no
error whatsoever — the run errors out nowhere and the result carries
`error = none` — and merely counts the item as unchanged; no `not-draft`
error is surfaced (the `NotDraft` error of the client interface is never
produced because `ghUpdateDraftIssue` is not even called). -/
theorem c4_counterexample_no_not_draft_error_reported :
    (pushProject exHash exNow false (str "PVT_p")
        [(str "a.md", exDraftModifiedFile)]
        ⟨[exRemoteIssue], [], [], false, []⟩).error = none ∧
    (pushProject exHash exNow false (str "PVT_p")
        [(str "a.md", exDraftModifiedFile)]
        ⟨[exRemoteIssue], [], [], false, []⟩).unchanged = 1 ∧
    filesGet (pushProject exHash exNow false (str "PVT_p")
        [(str "a.md", exDraftModifiedFile)]
        ⟨[exRemoteIssue], [], [], false, []⟩).files (str "a.md")
      = some exDraftModifiedFile ∧
    (pushProject exHash exNow false (str "PVT_p")
        [(str "a.md", exDraftModifiedFile)]
        ⟨[exRemoteIssue], [], [], false, []⟩).remote.items = [exRemoteIssue] := by
  exact ⟨rfl, rfl, rfl, rfl⟩

/-! ### Claim C5: counterexample -/

/-- C5 (counterexample): pulling twice with no intervening remote change does
not always yield zero updates on the second run.  A remote body ending in a
newline is written verbatim on the first pull (created = 1), but parsing
trims the body, so the second pull sees local body `x` against remote body
`x\n` and rewrites the file again (updated = 1). -/
theorem c5_counterexample_pull_not_idempotent_on_untrimmed_body :
    (pullProject exHash exNow exCtx [exRemoteTrailingNl] []).created = 1 ∧
    (pullProject exHash exNow exCtx [exRemoteTrailingNl]
        (pullProject exHash exNow exCtx [exRemoteTrailingNl] []).files).updated
      = 1 := by
  exact ⟨rfl, rfl⟩

/-! ### Claim C9 -/

/-- C9: daemon singleton via the lock record.  If the record names a process
that still exists, a start attempt fails with a conflict naming that pid and
changes nothing — in particular no runner is started and the record is kept.
If the recorded process no longer exists, the stale record is reclaimed and
the start succeeds, replacing the record with one for this process. -/
theorem c9_daemon_singleton_lock (w : DaemonWorld) (d : PidData)
    (selfPid pollInterval debounce : Int) (now : Str)
    (hrec : w.pidFile = some d) :
    (w.liveProcs.contains d.pid = true →
      startDaemon w selfPid pollInterval debounce now
        = (.conflict (some d.pid), w)) ∧
    (w.liveProcs.contains d.pid = false →
      startDaemon w selfPid pollInterval debounce now
        = (.started,
           { pidFile := some ⟨selfPid, now, pollInterval, debounce⟩,
             liveProcs := w.liveProcs,
             runnerStarted := true })) := by
  constructor
  · intro hlive
    have hm : d.pid ∈ w.liveProcs := by simpa using hlive
    simp [startDaemon, getDaemonStatus, hrec, hm]
  · intro hdead
    have hm : d.pid ∉ w.liveProcs := by simpa using hdead
    simp [startDaemon, getDaemonStatus, hrec, hm]

/-- Witness for `c9_daemon_singleton_lock` at a concrete world: a live record
for pid 41 blocks the start, and after pid 41 disappears the start succeeds
and replaces the record. -/
theorem c9_daemon_singleton_lock_witness :
    (startDaemon ⟨some ⟨41, str "t0", 300, 2⟩, [41], false⟩ 99 300 2 (str "t1")
      = (.conflict (some 41), ⟨some ⟨41, str "t0", 300, 2⟩, [41], false⟩)) ∧
    (startDaemon ⟨some ⟨41, str "t0", 300, 2⟩, [], false⟩ 99 300 2 (str "t1")
      = (.started, ⟨some ⟨99, str "t1", 300, 2⟩, [], true⟩)) := by
  constructor
  · exact (c9_daemon_singleton_lock ⟨some ⟨41, str "t0", 300, 2⟩, [41], false⟩
      ⟨41, str "t0", 300, 2⟩ 99 300 2 (str "t1") rfl).1 (by decide)
  · exact (c9_daemon_singleton_lock ⟨some ⟨41, str "t0", 300, 2⟩, [], false⟩
      ⟨41, str "t0", 300, 2⟩ 99 300 2 (str "t1") rfl).2 (by decide)

/-! ### Supporting lemmas about the file store -/

theorem filesGet_filesSet_self (fs : Files) (n c : Str) :
    filesGet (filesSet fs n c) n = some c := by
  by_cases h : fs.any (fun kv => kv.1 == n)
  · simp only [filesGet, filesSet, h, if_true, List.find?_map]
    have hpg : ((fun (kv : Str × Str) => kv.1 == n) ∘
        (fun kv => if kv.1 == n then (n, c) else kv)) =
        (fun (kv : Str × Str) => kv.1 == n) := by
      funext kv
      by_cases hk : kv.1 = n <;> simp [hk]
    rw [hpg]
    rcases List.any_eq_true.mp h with ⟨kv0, hmem, hp⟩
    have hex : ∃ x ∈ fs, (fun (kv : Str × Str) => kv.1 == n) x = true :=
      ⟨kv0, hmem, hp⟩
    rcases Option.isSome_iff_exists.mp (List.find?_isSome.mpr hex) with ⟨kv1, hf⟩
    have hkv1 : kv1.1 = n := by simpa using List.find?_some hf
    simp [hf, hkv1]
  · simp only [filesGet, filesSet, h, if_false, List.find?_append]
    have hnone : fs.find? (fun kv => kv.1 == n) = none := by
      rw [List.find?_eq_none]
      intro x hx hpx
      exact h (List.any_eq_true.mpr ⟨x, hx, hpx⟩)
    simp [hnone]

theorem filesGet_filesSet_ne (fs : Files) (n c f : Str) (hne : n ≠ f) :
    filesGet (filesSet fs n c) f = filesGet fs f := by
  by_cases h : fs.any (fun kv => kv.1 == n)
  · simp only [filesGet, filesSet, h, if_true, List.find?_map]
    have hpg : ((fun (kv : Str × Str) => kv.1 == f) ∘
        (fun kv => if kv.1 == n then (n, c) else kv)) =
        (fun (kv : Str × Str) => kv.1 == f) := by
      funext kv
      by_cases hk : kv.1 = n
      · simp [hk, hne, Ne.symm hne]
      · simp [hk]
    rw [hpg]
    cases hf : fs.find? (fun kv => kv.1 == f) with
    | none => simp
    | some kv0 =>
      have hk0 : kv0.1 = f := by simpa using List.find?_some hf
      have hnn : ¬ kv0.1 = n := by
        rw [hk0]
        exact Ne.symm hne
      simp [hnn]
  · simp only [filesGet, filesSet, h, if_false, List.find?_append]
    have hsingle : List.find? (fun (kv : Str × Str) => kv.1 == f) [(n, c)] = none := by
      simp [hne]
    simp [hsingle]

theorem find?_filter_of_imp {α : Type} (l : List α) (p q : α → Bool)
    (h : ∀ x, p x = true → q x = true) :
    (l.filter q).find? p = l.find? p := by
  induction l with
  | nil => rfl
  | cons a l ih =>
    by_cases hq : q a = true
    · rw [List.filter_cons_of_pos hq]
      simp only [List.find?_cons]
      cases hp : p a
      · exact ih
      · rfl
    · have hp : p a = false := by
        cases hp : p a
        · rfl
        · exact absurd (h a hp) (by simpa using hq)
      rw [List.filter_cons_of_neg (by simpa using hq)]
      rw [ih]
      simp only [List.find?_cons, hp]

theorem filesGet_filesRemove_ne (fs : Files) (n f : Str) (hne : n ≠ f) :
    filesGet (filesRemove fs n) f = filesGet fs f := by
  unfold filesGet filesRemove
  rw [find?_filter_of_imp]
  intro kv hp
  have hkf : kv.1 = f := by simpa using hp
  simp [hkf, Ne.symm hne]

/-! ### Supporting lemmas about `pushStep` -/

theorem pushStep_of_error (now : Str) (dr : Bool) (pid : Str)
    (rl : List ProjectItem) (st : PushSt) (litem : LocalItem)
    (h : st.error.isSome = true) :
    pushStep now dr pid rl st litem = st := by
  unfold pushStep
  simp [h]

theorem pushStep_filesGet_ne (now : Str) (dr : Bool) (pid : Str)
    (rl : List ProjectItem) (st : PushSt) (litem : LocalItem) (f : Str)
    (hne : litem.filename ≠ f) :
    filesGet (pushStep now dr pid rl st litem).files f = filesGet st.files f := by
  simp only [pushStep]
  repeat' split
  all_goals
    first
      | rfl
      | exact filesGet_filesRemove_ne _ _ _ hne
      | exact filesGet_filesSet_ne _ _ _ _ hne

theorem remoteSafe_delete_pair {s : Str} {rs rs1 : RemoteState} {iid : Str}
    {b0 : Bool} (hsafe : remoteSafe s rs)
    (h : Gpfs.ghDeleteItem rs iid = (b0, rs1)) : remoteSafe s rs1 := by
  unfold Gpfs.ghDeleteItem at h
  split at h
  · cases h
    exact hsafe
  · split at h
    · cases h
      refine ⟨fun it hit => ?_, hsafe.2⟩
      exact hsafe.1 it (List.mem_of_mem_filter hit)
    · cases h
      exact hsafe

theorem remoteSafe_update_pair {s : Str} {rs rs1 : RemoteState}
    {cid t bo : Str} {b0 : Bool} (hsafe : remoteSafe s rs)
    (h : Gpfs.ghUpdateDraftIssue rs cid t bo = (b0, rs1)) : remoteSafe s rs1 := by
  unfold Gpfs.ghUpdateDraftIssue at h
  split at h
  · cases h
    exact hsafe
  · cases h
    refine ⟨fun it hit => ?_, hsafe.2⟩
    rcases List.mem_map.mp hit with ⟨it0, hmem, heq⟩
    have hid : it.id = it0.id := by
      subst heq
      split <;> rfl
    rw [hid]
    exact hsafe.1 it0 hmem

theorem remoteSafe_create_pair {s : Str} {rs rs1 : RemoteState}
    {t bo : Str} {r0 : Option Str} (hsafe : remoteSafe s rs)
    (h : ghCreateItem rs t bo = (r0, rs1)) : remoteSafe s rs1 := by
  unfold ghCreateItem at h
  split at h
  · cases h
    exact hsafe
  · split at h
    · cases h
      exact hsafe
    · rename_i iid cid rest heq
      cases h
      constructor
      · intro it hit
        rcases List.mem_append.mp hit with hin | hnew
        · exact hsafe.1 it hin
        · have : it = ⟨iid, t, bo, none, str "DraftIssue", some cid⟩ := by
            simpa using hnew
          rw [this]
          have : (iid, cid) ∈ rs.fresh := by
            rw [heq]
            exact List.mem_cons_self _ _
          exact hsafe.2 _ this
      · intro p hp
        have : p ∈ rs.fresh := by
          rw [heq]
          exact List.mem_cons_of_mem _ hp
        exact hsafe.2 p this

theorem remoteSafe_delete {s : Str} {rs : RemoteState} {iid : Str}
    (hsafe : remoteSafe s rs) : remoteSafe s (Gpfs.ghDeleteItem rs iid).2 :=
  remoteSafe_delete_pair hsafe rfl

theorem remoteSafe_update {s : Str} {rs : RemoteState} {cid t bo : Str}
    (hsafe : remoteSafe s rs) :
    remoteSafe s (Gpfs.ghUpdateDraftIssue rs cid t bo).2 :=
  remoteSafe_update_pair hsafe rfl

theorem remoteSafe_create {s : Str} {rs : RemoteState} {t bo : Str}
    (hsafe : remoteSafe s rs) : remoteSafe s (ghCreateItem rs t bo).2 :=
  remoteSafe_create_pair hsafe rfl

theorem pushStep_remoteSafe (now : Str) (dr : Bool) (pid : Str)
    (rl : List ProjectItem) (st : PushSt) (litem : LocalItem) (s : Str)
    (hsafe : remoteSafe s st.remote) :
    remoteSafe s (pushStep now dr pid rl st litem).remote := by
  simp only [pushStep]
  repeat' split
  all_goals
    first
      | exact hsafe
      | exact remoteSafe_delete hsafe
      | exact remoteSafe_update hsafe
      | exact remoteSafe_create hsafe
      | (rename_i h
         first
           | exact remoteSafe_delete_pair hsafe h
           | exact remoteSafe_update_pair hsafe h
           | exact remoteSafe_create_pair hsafe h)
      | (rename_i h _
         first
           | exact remoteSafe_delete_pair hsafe h
           | exact remoteSafe_update_pair hsafe h
           | exact remoteSafe_create_pair hsafe h)
      | (rename_i h _ _
         first
           | exact remoteSafe_delete_pair hsafe h
           | exact remoteSafe_update_pair hsafe h
           | exact remoteSafe_create_pair hsafe h)
      | (rename_i h _ _ _
         first
           | exact remoteSafe_delete_pair hsafe h
           | exact remoteSafe_update_pair hsafe h
           | exact remoteSafe_create_pair hsafe h)


theorem pushStep_unchanged_mono (now : Str) (dr : Bool) (pid : Str)
    (rl : List ProjectItem) (st : PushSt) (litem : LocalItem) :
    st.unchanged ≤ (pushStep now dr pid rl st litem).unchanged := by
  simp only [pushStep]
  repeat' split
  all_goals
    first
      | exact Nat.le_refl _
      | exact Nat.le_succ _

theorem pushStep_error_none_back (now : Str) (dr : Bool) (pid : Str)
    (rl : List ProjectItem) (st : PushSt) (litem : LocalItem)
    (h : (pushStep now dr pid rl st litem).error = none) : st.error = none := by
  by_cases hs : st.error.isSome = true
  · rw [pushStep_of_error now dr pid rl st litem hs] at h
    exact h
  · simpa using hs

theorem leads_ne_nil {p : Char} {ps s : Str} (h : leads (p :: ps) s = true) :
    s ≠ [] := by
  cases s
  · simp [leads] at h
  · simp

theorem pushStep_missing_pvti (now : Str) (dr : Bool) (pid : Str)
    (rl : List ProjectItem) (st : PushSt) (litem : LocalItem) (s : Str)
    (herr : st.error = none)
    (hid : fmGet litem.parsed.fm (str "id") = some (.vStr s))
    (hpv : leads (str "PVTI_") s = true)
    (hdel : ((fmGet litem.parsed.fm (str "deleted")).map YValue.isTrue).getD false
      = false)
    (hnr : ∀ it ∈ rl, it.id ≠ s) :
    pushStep now dr pid rl st litem = { st with unchanged := st.unchanged + 1 } := by
  have hs : s ≠ [] := by
    intro h
    rw [h] at hpv
    simp [str, leads] at hpv
  have hfind : rl.reverse.find?
      (fun it => jsEq (.vStr s) (.vStr it.id)) = none := by
    rw [List.find?_eq_none]
    intro it hit
    have hne : it.id ≠ s := hnr it (List.mem_reverse.mp hit)
    simp [jsEq]
    exact fun hh => absurd hh.symm hne
  simp only [pushStep, herr, hid, hdel]
  simp [truthy, hs, hfind, hpv]

theorem pushFold_filesGet_ne (now : Str) (dr : Bool) (pid : Str)
    (rl : List ProjectItem) (locals : List LocalItem) (st : PushSt) (f : Str)
    (h : ∀ li ∈ locals, li.filename ≠ f) :
    filesGet ((locals.foldl (pushStep now dr pid rl) st)).files f
      = filesGet st.files f := by
  induction locals generalizing st with
  | nil => rfl
  | cons li rest ih =>
    rw [List.foldl_cons]
    rw [ih _ (fun x hx => h x (List.mem_cons_of_mem _ hx))]
    exact pushStep_filesGet_ne now dr pid rl st li f (h li (List.mem_cons_self _ _))

theorem pushFold_remoteSafe (now : Str) (dr : Bool) (pid : Str)
    (rl : List ProjectItem) (locals : List LocalItem) (st : PushSt) (s : Str)
    (hsafe : remoteSafe s st.remote) :
    remoteSafe s ((locals.foldl (pushStep now dr pid rl) st)).remote := by
  induction locals generalizing st with
  | nil => exact hsafe
  | cons li rest ih =>
    rw [List.foldl_cons]
    exact ih _ (pushStep_remoteSafe now dr pid rl st li s hsafe)

theorem pushFold_unchanged_mono (now : Str) (dr : Bool) (pid : Str)
    (rl : List ProjectItem) (locals : List LocalItem) (st : PushSt) :
    st.unchanged ≤ ((locals.foldl (pushStep now dr pid rl) st)).unchanged := by
  induction locals generalizing st with
  | nil => exact Nat.le_refl _
  | cons li rest ih =>
    rw [List.foldl_cons]
    exact Nat.le_trans (pushStep_unchanged_mono now dr pid rl st li) (ih _)

theorem pushFold_error_none_back (now : Str) (dr : Bool) (pid : Str)
    (rl : List ProjectItem) (locals : List LocalItem) (st : PushSt)
    (h : ((locals.foldl (pushStep now dr pid rl) st)).error = none) :
    st.error = none := by
  induction locals generalizing st with
  | nil => exact h
  | cons li rest ih =>
    rw [List.foldl_cons] at h
    exact pushStep_error_none_back now dr pid rl st li (ih _ h)

/-! ### Supporting lemmas about local-item enumeration -/

theorem filesGet_of_mem_nodup (files : Files) (f c : Str)
    (hnodup : (files.map (·.1)).Nodup) (hmem : (f, c) ∈ files) :
    filesGet files f = some c := by
  induction files with
  | nil => cases hmem
  | cons kv rest ih =>
    rcases List.mem_cons.mp hmem with heq | htail
    · subst heq
      simp [filesGet, List.find?_cons]
    · have hk : kv.1 ≠ f := by
        intro hkf
        have : f ∈ rest.map (·.1) := List.mem_map.mpr ⟨(f, c), htail, rfl⟩
        rw [List.map_cons, List.nodup_cons] at hnodup
        exact hnodup.1 (hkf ▸ this)
      simp only [filesGet, List.find?_cons]
      have : (kv.1 == f) = false := by simpa using hk
      rw [this]
      exact ih (by
        rw [List.map_cons, List.nodup_cons] at hnodup
        exact hnodup.2) htail

theorem mem_mdNames (files : Files) (f c : Str) (hmem : (f, c) ∈ files)
    (hmd : strEnds (str ".md") f = true) : f ∈ mdNames files := by
  exact List.mem_map.mpr ⟨(f, c), List.mem_filter.mpr ⟨hmem, hmd⟩, rfl⟩

theorem mdNames_nodup (files : Files) (hnodup : (files.map (·.1)).Nodup) :
    (mdNames files).Nodup := by
  have hsub : List.Sublist (mdNames files) (files.map (·.1)) := by
    unfold mdNames
    exact List.Sublist.map _ (List.filter_sublist files)
  exact hnodup.sublist hsub

theorem mdNames_isSome (files : Files) (f : Str) (hf : f ∈ mdNames files) :
    (filesGet files f).isSome = true := by
  rcases List.mem_map.mp hf with ⟨kv, hmemf, hname⟩
  have hm : kv ∈ files := (List.mem_filter.mp hmemf).1
  have hsome : (files.find? (fun kv2 => kv2.1 == f)).isSome = true :=
    List.find?_isSome.mpr ⟨kv, hm, by simp [hname]⟩
  unfold filesGet
  rcases Option.isSome_iff_exists.mp hsome with ⟨kv1, hfind⟩
  rw [hfind]
  rfl

theorem pushProject_eq_fold (hash : Str → Str) (now : Str) (dr : Bool)
    (pid : Str) (files : Files) (rs : RemoteState) :
    pushProject hash now dr pid files rs
      = ((mdNames files).filterMap (mkLocalItem hash files)).foldl
          (pushStep now dr pid rs.items) ⟨files, rs, 0, 0, 0, 0, none⟩ := rfl

theorem mem_filterMap_mkLocalItem (hash : Str → Str) (files : Files)
    (names : List Str) (li : LocalItem)
    (h : li ∈ names.filterMap (mkLocalItem hash files)) : li.filename ∈ names := by
  rcases List.mem_filterMap.mp h with ⟨n, hn, hg⟩
  unfold mkLocalItem at hg
  rcases Option.map_eq_some'.mp hg with ⟨content, _, hli⟩
  have : li.filename = n := by rw [← hli]
  rw [this]
  exact hn

/-! ### Claim C10 -/

/-- C10: a local item whose id already has the canonical remote form
(`PVTI_` prefix) but which is absent from the remote item set and not
tombstoned is skipped by push: its file is left untouched, no remote item
with that id is created (given that the fresh ids a creation could consume
differ from it), and — when the run reports no error — the item is counted
as unchanged. -/
theorem c10_push_skips_missing_pvti_item (hash : Str → Str) (now pid : Str)
    (files : Files) (rs : RemoteState) (f c s : Str)
    (hnodup : (files.map (·.1)).Nodup)
    (hmem : (f, c) ∈ files)
    (hmd : strEnds (str ".md") f = true)
    (hid : fmGet (parseMarkdownString c).fm (str "id") = some (.vStr s))
    (hpv : leads (str "PVTI_") s = true)
    (hdel : ((fmGet (parseMarkdownString c).fm (str "deleted")).map
      YValue.isTrue).getD false = false)
    (hremote : ∀ it ∈ rs.items, it.id ≠ s)
    (hfresh : ∀ p ∈ rs.fresh, p.1 ≠ s) :
    filesGet (pushProject hash now false pid files rs).files f = some c ∧
    (∀ it ∈ (pushProject hash now false pid files rs).remote.items, it.id ≠ s) ∧
    ((pushProject hash now false pid files rs).error = none →
      1 ≤ (pushProject hash now false pid files rs).unchanged) := by
  have hget : filesGet files f = some c := filesGet_of_mem_nodup files f c hnodup hmem
  have hfmem : f ∈ mdNames files := mem_mdNames files f c hmem hmd
  have hnodupn : (mdNames files).Nodup := mdNames_nodup files hnodup
  rcases List.append_of_mem hfmem with ⟨N1, N2, hsplit⟩
  have hnotmem : f ∉ N1 ∧ f ∉ N2 := by
    rw [hsplit] at hnodupn
    constructor
    · intro hin
      exact (List.disjoint_of_nodup_append hnodupn) hin (List.mem_cons_self _ _)
    · have := (List.nodup_append.mp hnodupn).2.1
      rw [List.nodup_cons] at this
      exact this.1
  set ourItem : LocalItem :=
    ⟨f, parseMarkdownString c, hash (parseMarkdownString c).body, c.length⟩ with hour
  have hgf : mkLocalItem hash files f = some ourItem := by
    unfold mkLocalItem
    rw [hget]
    rfl
  have hlocals : (mdNames files).filterMap (mkLocalItem hash files)
      = N1.filterMap (mkLocalItem hash files) ++ ourItem ::
        N2.filterMap (mkLocalItem hash files) := by
    rw [hsplit, List.filterMap_append, List.filterMap_cons, hgf]
  rw [pushProject_eq_fold, hlocals]
  set st0 : PushSt := ⟨files, rs, 0, 0, 0, 0, none⟩ with hst0
  set A := N1.filterMap (mkLocalItem hash files) with hA
  set B := N2.filterMap (mkLocalItem hash files) with hB
  have hAne : ∀ li ∈ A, li.filename ≠ f := by
    intro li hli heqf
    exact hnotmem.1 (heqf ▸ mem_filterMap_mkLocalItem hash files N1 li hli)
  have hBne : ∀ li ∈ B, li.filename ≠ f := by
    intro li hli heqf
    exact hnotmem.2 (heqf ▸ mem_filterMap_mkLocalItem hash files N2 li hli)
  rw [List.foldl_append, List.foldl_cons]
  set stA := A.foldl (pushStep now false pid rs.items) st0 with hstA
  have hsafe0 : remoteSafe s st0.remote := ⟨hremote, hfresh⟩
  have hsafeA : remoteSafe s stA.remote :=
    pushFold_remoteSafe now false pid rs.items A st0 s hsafe0
  have hstep : ∀ r, (r = pushStep now false pid rs.items stA ourItem) →
      filesGet r.files f = filesGet stA.files f ∧ remoteSafe s r.remote ∧
      (stA.error = none → r = { stA with unchanged := stA.unchanged + 1 }) := by
    intro r hr
    refine ⟨?_, ?_, ?_⟩
    · rw [hr]
      by_cases he : stA.error.isSome = true
      · rw [pushStep_of_error now false pid rs.items stA ourItem he]
      · rw [pushStep_missing_pvti now false pid rs.items stA ourItem s
          (by simpa using he) hid hpv hdel hremote]
    · rw [hr]
      exact pushStep_remoteSafe now false pid rs.items stA ourItem s hsafeA
    · intro he
      rw [hr, pushStep_missing_pvti now false pid rs.items stA ourItem s
        he hid hpv hdel hremote]
  set stO := pushStep now false pid rs.items stA ourItem with hstO
  obtain ⟨hOf, hOsafe, hOstep⟩ := hstep stO rfl
  refine ⟨?_, ?_, ?_⟩
  · rw [pushFold_filesGet_ne now false pid rs.items B stO f hBne, hOf,
      pushFold_filesGet_ne now false pid rs.items A st0 f hAne]
    exact hget
  · exact (pushFold_remoteSafe now false pid rs.items B stO s hOsafe).1
  · intro herr
    have heO : stO.error = none :=
      pushFold_error_none_back now false pid rs.items B stO herr
    have heA : stA.error = none := by
      by_cases he : stA.error.isSome = true
      · exfalso
        have hfold : stO = stA := by
          rw [hstO]
          exact pushStep_of_error now false pid rs.items stA ourItem he
        rw [hfold] at heO
        rw [heO] at he
        simp at he
      · simpa using he
    have hO1 : stO.unchanged = stA.unchanged + 1 := by
      rw [hOstep heA]
    have := pushFold_unchanged_mono now false pid rs.items B stO
    omega

/-- Witness for `c10_push_skips_missing_pvti_item` on a concrete project:
one file whose id `PVTI_9` is missing remotely. -/
theorem c10_push_skips_missing_pvti_item_witness :
    filesGet (pushProject exHash exNow false (str "PVT_p")
      [(str "a.md", str "---\nid: PVTI_9\ntitle: T\n---\n\nb")]
      ⟨[], [], [], false, []⟩).files (str "a.md")
      = some (str "---\nid: PVTI_9\ntitle: T\n---\n\nb") ∧
    (∀ it ∈ (pushProject exHash exNow false (str "PVT_p")
      [(str "a.md", str "---\nid: PVTI_9\ntitle: T\n---\n\nb")]
      ⟨[], [], [], false, []⟩).remote.items, it.id ≠ str "PVTI_9") ∧
    ((pushProject exHash exNow false (str "PVT_p")
      [(str "a.md", str "---\nid: PVTI_9\ntitle: T\n---\n\nb")]
      ⟨[], [], [], false, []⟩).error = none →
      1 ≤ (pushProject exHash exNow false (str "PVT_p")
        [(str "a.md", str "---\nid: PVTI_9\ntitle: T\n---\n\nb")]
        ⟨[], [], [], false, []⟩).unchanged) := by
  exact c10_push_skips_missing_pvti_item exHash exNow (str "PVT_p")
    [(str "a.md", str "---\nid: PVTI_9\ntitle: T\n---\n\nb")]
    ⟨[], [], [], false, []⟩ (str "a.md")
    (str "---\nid: PVTI_9\ntitle: T\n---\n\nb") (str "PVTI_9")
    (by decide) (by decide) (by decide) rfl rfl rfl
    (by simp) (by simp)

/-- Assembly lemma: when the processing of the file `f`/`c` item leaves the
state unchanged except for the unchanged counter, a push run leaves the file
untouched and — without an error — counts at least one unchanged item. -/
theorem pushFold_files_and_count (hash : Str → Str) (now pid : Str)
    (files : Files) (rs : RemoteState) (f c : Str)
    (hnodup : (files.map (·.1)).Nodup)
    (hmem : (f, c) ∈ files)
    (hmd : strEnds (str ".md") f = true)
    (hstep : ∀ st : PushSt, st.error = none →
      pushStep now false pid rs.items st
        ⟨f, parseMarkdownString c, hash (parseMarkdownString c).body, c.length⟩
        = { st with unchanged := st.unchanged + 1 }) :
    filesGet (pushProject hash now false pid files rs).files f = some c ∧
    ((pushProject hash now false pid files rs).error = none →
      1 ≤ (pushProject hash now false pid files rs).unchanged) := by
  have hget : filesGet files f = some c := filesGet_of_mem_nodup files f c hnodup hmem
  have hfmem : f ∈ mdNames files := mem_mdNames files f c hmem hmd
  have hnodupn : (mdNames files).Nodup := mdNames_nodup files hnodup
  rcases List.append_of_mem hfmem with ⟨N1, N2, hsplit⟩
  have hnotmem : f ∉ N1 ∧ f ∉ N2 := by
    rw [hsplit] at hnodupn
    constructor
    · intro hin
      exact (List.disjoint_of_nodup_append hnodupn) hin (List.mem_cons_self _ _)
    · have := (List.nodup_append.mp hnodupn).2.1
      rw [List.nodup_cons] at this
      exact this.1
  set ourItem : LocalItem :=
    ⟨f, parseMarkdownString c, hash (parseMarkdownString c).body, c.length⟩ with hour
  have hgf : mkLocalItem hash files f = some ourItem := by
    unfold mkLocalItem
    rw [hget]
    rfl
  have hlocals : (mdNames files).filterMap (mkLocalItem hash files)
      = N1.filterMap (mkLocalItem hash files) ++ ourItem ::
        N2.filterMap (mkLocalItem hash files) := by
    rw [hsplit, List.filterMap_append, List.filterMap_cons, hgf]
  rw [pushProject_eq_fold, hlocals]
  set st0 : PushSt := ⟨files, rs, 0, 0, 0, 0, none⟩ with hst0
  set A := N1.filterMap (mkLocalItem hash files) with hA
  set B := N2.filterMap (mkLocalItem hash files) with hB
  have hAne : ∀ li ∈ A, li.filename ≠ f := by
    intro li hli heqf
    exact hnotmem.1 (heqf ▸ mem_filterMap_mkLocalItem hash files N1 li hli)
  have hBne : ∀ li ∈ B, li.filename ≠ f := by
    intro li hli heqf
    exact hnotmem.2 (heqf ▸ mem_filterMap_mkLocalItem hash files N2 li hli)
  rw [List.foldl_append, List.foldl_cons]
  set stA := A.foldl (pushStep now false pid rs.items) st0 with hstA
  set stO := pushStep now false pid rs.items stA ourItem with hstO
  have hOf : filesGet stO.files f = filesGet stA.files f := by
    rw [hstO]
    by_cases he : stA.error.isSome = true
    · rw [pushStep_of_error now false pid rs.items stA ourItem he]
    · rw [hstep stA (by simpa using he)]
  refine ⟨?_, ?_⟩
  · rw [pushFold_filesGet_ne now false pid rs.items B stO f hBne, hOf,
      pushFold_filesGet_ne now false pid rs.items A st0 f hAne]
    exact hget
  · intro herr
    have heO : stO.error = none :=
      pushFold_error_none_back now false pid rs.items B stO herr
    have heA : stA.error = none := by
      by_cases he : stA.error.isSome = true
      · exfalso
        have hfold : stO = stA := by
          rw [hstO]
          exact pushStep_of_error now false pid rs.items stA ourItem he
        rw [hfold] at heO
        rw [heO] at he
        simp at he
      · simpa using he
    have hO1 : stO.unchanged = stA.unchanged + 1 := by
      rw [hstO, hstep stA heA]
    have := pushFold_unchanged_mono now false pid rs.items B stO
    omega

theorem pushStep_nondraft_diverged (now : Str) (dr : Bool) (pid : Str)
    (rl : List ProjectItem) (st : PushSt) (litem : LocalItem) (s : Str)
    (r : ProjectItem) (w : YValue)
    (herr : st.error = none)
    (hid : fmGet litem.parsed.fm (str "id") = some (.vStr s))
    (hs : s ≠ [])
    (hdel : ((fmGet litem.parsed.fm (str "deleted")).map YValue.isTrue).getD false
      = false)
    (hfound : rl.reverse.find? (fun it => jsEq (.vStr s) (.vStr it.id)) = some r)
    (hnondraft : (match r.contentId with
      | some cid => !cid.isEmpty && r.contentType == str "DraftIssue"
      | none => false) = false)
    (hw : storedChecksumOf litem.parsed.fm = some w)
    (htr : truthy w = true)
    (hne : jsEq (.vStr litem.currentChecksum) w = false) :
    pushStep now dr pid rl st litem = { st with unchanged := st.unchanged + 1 } := by
  simp only [pushStep, herr, hid, hdel, hw]
  simp [truthy, hs, hfound, htr, hne, hnondraft]

/-! ### Claim C4: amended theorem -/

/-- C4 (amended): for a local item with a pending body change whose remote
counterpart is a linked issue or PR (not a draft, i.e. `contentType` is not
`DraftIssue` or there is no usable content id), push leaves both the remote
state and the local file unchanged and counts the item as unchanged,
reporting no error: the item's processing step changes nothing but the
unchanged counter, the file survives the whole run verbatim, and a run that
ends without error counts at least this one unchanged item. -/
theorem c4_amended_nondraft_update_counted_unchanged (hash : Str → Str)
    (now pid : Str) (files : Files) (rs : RemoteState) (f c s : Str)
    (r : ProjectItem) (w : YValue)
    (hnodup : (files.map (·.1)).Nodup)
    (hmem : (f, c) ∈ files)
    (hmd : strEnds (str ".md") f = true)
    (hid : fmGet (parseMarkdownString c).fm (str "id") = some (.vStr s))
    (hs : s ≠ [])
    (hdel : ((fmGet (parseMarkdownString c).fm (str "deleted")).map
      YValue.isTrue).getD false = false)
    (hfound : rs.items.reverse.find?
      (fun it => jsEq (.vStr s) (.vStr it.id)) = some r)
    (hnondraft : (match r.contentId with
      | some cid => !cid.isEmpty && r.contentType == str "DraftIssue"
      | none => false) = false)
    (hw : storedChecksumOf (parseMarkdownString c).fm = some w)
    (htr : truthy w = true)
    (hne : jsEq (.vStr (hash (parseMarkdownString c).body)) w = false) :
    (∀ st : PushSt, st.error = none →
      pushStep now false pid rs.items st
        ⟨f, parseMarkdownString c, hash (parseMarkdownString c).body, c.length⟩
        = { st with unchanged := st.unchanged + 1 }) ∧
    filesGet (pushProject hash now false pid files rs).files f = some c ∧
    ((pushProject hash now false pid files rs).error = none →
      1 ≤ (pushProject hash now false pid files rs).unchanged) := by
  have hstep : ∀ st : PushSt, st.error = none →
      pushStep now false pid rs.items st
        ⟨f, parseMarkdownString c, hash (parseMarkdownString c).body, c.length⟩
        = { st with unchanged := st.unchanged + 1 } := by
    intro st herr
    exact pushStep_nondraft_diverged now false pid rs.items st _ s r w herr
      hid hs hdel hfound hnondraft hw htr hne
  obtain ⟨h1, h2⟩ := pushFold_files_and_count hash now pid files rs f c
    hnodup hmem hmd hstep
  exact ⟨hstep, h1, h2⟩

/-- Witness for `c4_amended_nondraft_update_counted_unchanged`: the concrete
linked-issue scenario of the C4 counterexample. -/
theorem c4_amended_nondraft_update_counted_unchanged_witness :
    (∀ st : PushSt, st.error = none →
      pushStep exNow false (str "PVT_p")
        (RemoteState.items ⟨[exRemoteIssue], [], [], false, []⟩) st
        ⟨str "a.md", parseMarkdownString exDraftModifiedFile,
         exHash (parseMarkdownString exDraftModifiedFile).body,
         exDraftModifiedFile.length⟩
        = { st with unchanged := st.unchanged + 1 }) ∧
    filesGet (pushProject exHash exNow false (str "PVT_p")
      [(str "a.md", exDraftModifiedFile)]
      ⟨[exRemoteIssue], [], [], false, []⟩).files (str "a.md")
      = some exDraftModifiedFile ∧
    ((pushProject exHash exNow false (str "PVT_p")
      [(str "a.md", exDraftModifiedFile)]
      ⟨[exRemoteIssue], [], [], false, []⟩).error = none →
      1 ≤ (pushProject exHash exNow false (str "PVT_p")
        [(str "a.md", exDraftModifiedFile)]
        ⟨[exRemoteIssue], [], [], false, []⟩).unchanged) := by
  exact c4_amended_nondraft_update_counted_unchanged exHash exNow (str "PVT_p")
    [(str "a.md", exDraftModifiedFile)] ⟨[exRemoteIssue], [], [], false, []⟩
    (str "a.md") exDraftModifiedFile (str "PVTI_1") exRemoteIssue
    (.vStr (str "hold"))
    (by decide) (by decide) (by decide) rfl (by decide) rfl rfl rfl rfl
    (by decide) rfl

/-! ### Digit rendering round trip -/

theorem digitChar_toNat (n : Nat) (h : n < 10) : (digitChar n).toNat = 48 + n := by
  interval_cases n <;> decide

theorem parseNat_append_digit (a : Str) (c : Char) :
    parseNat (a ++ [c]) = parseNat a * 10 + (c.toNat - 48) := by
  unfold parseNat
  rw [List.foldl_append]
  rfl

theorem parseNat_natToStrGo (fuel : Nat) :
    ∀ n, n < fuel → parseNat (natToStrGo fuel n) = n := by
  induction fuel with
  | zero => intro n h; omega
  | succ f ih =>
    intro n h
    unfold natToStrGo
    by_cases h10 : n < 10
    · simp only [h10, if_true]
      have hd := digitChar_toNat n h10
      unfold parseNat
      simp [hd]
    · simp only [h10, if_false]
      rw [parseNat_append_digit]
      have hdlt : n / 10 < n := Nat.div_lt_self (by omega) (by omega)
      rw [ih (n / 10) (by omega)]
      have hdn : (digitChar (n % 10)).toNat = 48 + n % 10 :=
        digitChar_toNat _ (Nat.mod_lt _ (by omega))
      rw [hdn]
      omega

theorem parseNat_natToStr (n : Nat) : parseNat (natToStr n) = n :=
  parseNat_natToStrGo (n + 1) n (by omega)

theorem natToStr_inj : Function.Injective natToStr := by
  intro a b h
  have := congrArg parseNat h
  simpa [parseNat_natToStr] using this

theorem suffixName_inj (base : Str) : Function.Injective (suffixName base) := by
  intro j k h
  unfold suffixName at h
  have h1 : base ++ ['-'] ++ natToStr j = base ++ ['-'] ++ natToStr k :=
    List.append_cancel_right h
  exact natToStr_inj (List.append_cancel_left h1)

/-! ### Bounded minimal search -/

theorem find?_range'_some {s n k : Nat} {p : Nat → Bool}
    (h : (List.range' s n).find? p = some k) :
    s ≤ k ∧ k < s + n ∧ p k = true ∧ ∀ j, s ≤ j → j < k → p j = false := by
  induction n generalizing s with
  | zero => cases h
  | succ m ih =>
    rw [List.range'_succ] at h
    rw [List.find?_cons] at h
    cases hp : p s with
    | true =>
      rw [hp] at h
      cases h
      exact ⟨Nat.le_refl _, by omega, hp, fun j h1 h2 => by omega⟩
    | false =>
      rw [hp] at h
      obtain ⟨h1, h2, h3, h4⟩ := ih h
      refine ⟨by omega, by omega, h3, fun j hj1 hj2 => ?_⟩
      by_cases hjs : j = s
      · rw [hjs]; exact hp
      · exact h4 j (by omega) hj2

theorem find?_range'_isSome {s n : Nat} {p : Nat → Bool}
    (h : ∃ k, s ≤ k ∧ k < s + n ∧ p k = true) :
    ((List.range' s n).find? p).isSome = true := by
  induction n generalizing s with
  | zero =>
    obtain ⟨k, h1, h2, _⟩ := h
    omega
  | succ m ih =>
    rw [List.range'_succ, List.find?_cons]
    cases hp : p s with
    | true => rfl
    | false =>
      apply ih
      obtain ⟨k, h1, h2, h3⟩ := h
      refine ⟨k, ?_, by omega, h3⟩
      rcases Nat.lt_or_ge s k with hlt | hge
      · omega
      · exfalso
        have : k = s := by omega
        rw [this] at h3
        rw [h3] at hp
        cases hp

theorem range_map_add_two (m : Nat) :
    (List.range m).map (· + 2) = List.range' 2 m := by
  rw [List.range'_eq_map_range]
  apply List.map_congr_left
  intro i _
  omega

/-! ### Pigeonhole: a free suffixed name exists -/

theorem exists_free_suffix (base : Str) (used : List Str) :
    ∃ k, 2 ≤ k ∧ k < used.length + 3 ∧
      used.contains (suffixName base k) = false := by
  by_contra hcon
  push_neg at hcon
  have hall : ∀ k, 2 ≤ k → k < used.length + 3 →
      used.contains (suffixName base k) = true := by
    intro k h1 h2
    have := hcon k h1 h2
    cases hc : used.contains (suffixName base k)
    · exact absurd hc this
    · rfl
  set L := (List.range' 2 (used.length + 1)).map (suffixName base) with hL
  have hsub : L ⊆ used := by
    intro x hx
    rcases List.mem_map.mp hx with ⟨k, hk, rfl⟩
    rcases List.mem_range'_1.mp hk with ⟨hk1, hk2⟩
    have := hall k hk1 (by omega)
    simpa using this
  have hnodup : L.Nodup :=
    List.Nodup.map (suffixName_inj base) (List.nodup_range' _ _)
  have hlen : L.length = used.length + 1 := by
    simp [hL]
  have hcard1 : L.toFinset.card = used.length + 1 := by
    rw [List.toFinset_card_of_nodup hnodup, hlen]
  have hcard2 : L.toFinset ⊆ used.toFinset := by
    intro x hx
    exact List.mem_toFinset.mpr (hsub (List.mem_toFinset.mp hx))
  have := Finset.card_le_card hcard2
  have := List.toFinset_card_le used
  omega

/-! ### Claim C8 -/

/-- C8: filename derivation and collision resolution on pull-create.  First,
`getUniqueFilename` returns `base.md` when free, and otherwise `base-k.md`
for the smallest `k ≥ 2` that is free.  Second, the creation branch of the
pull executor names the new file `getUniqueFilename (sanitizeForFilesystem
title 100)` — the title sanitized for the filesystem (lowercased, unsafe
characters and whitespace replaced by dashes, dashes collapsed and edge
dashes removed, truncated to 100 characters) — and writes the serialized
remote item there.  Third, pulling two remote items titled "Bug Fix" into an
empty directory yields exactly the files `bug-fix.md` and `bug-fix-2.md`. -/
theorem c8_filename_derivation_and_collisions :
    (∀ (base : Str) (used : List Str),
      (used.contains (base ++ str ".md") = false →
        getUniqueFilename base used = base ++ str ".md") ∧
      (used.contains (base ++ str ".md") = true →
        ∃ k, 2 ≤ k ∧ getUniqueFilename base used = suffixName base k ∧
          used.contains (suffixName base k) = false ∧
          ∀ j, 2 ≤ j → j < k → used.contains (suffixName base j) = true)) ∧
    (∀ (hash : Str → Str) (now : Str) (ctx : ProjectContext)
      (lim : List (YValue × Str)) (st : PullSt) (item : ProjectItem),
      mapGet lim (.vStr item.id) = none →
      pullStep hash now ctx lim st item =
        { st with
          files := filesSet st.files
            (getUniqueFilename (sanitizeForFilesystem
              (if item.title = [] then str "untitled" else item.title) 100)
              st.used)
            (serializeItemToMarkdown hash now item ctx),
          used := st.used ++ [getUniqueFilename (sanitizeForFilesystem
            (if item.title = [] then str "untitled" else item.title) 100)
            st.used],
          created := st.created + 1 }) ∧
    ((pullProject exHash exNow exCtx
        [{ id := str "PVTI_1", title := str "Bug Fix", body := str "a",
           status := none, contentType := str "DraftIssue",
           contentId := some (str "DI_1") },
         { id := str "PVTI_2", title := str "Bug Fix", body := str "b",
           status := none, contentType := str "DraftIssue",
           contentId := some (str "DI_2") }] []).files.map (·.1)
      = [str "bug-fix.md", str "bug-fix-2.md"] ∧
     (pullProject exHash exNow exCtx
        [{ id := str "PVTI_1", title := str "Bug Fix", body := str "a",
           status := none, contentType := str "DraftIssue",
           contentId := some (str "DI_1") },
         { id := str "PVTI_2", title := str "Bug Fix", body := str "b",
           status := none, contentType := str "DraftIssue",
           contentId := some (str "DI_2") }] []).created = 2) := by
  refine ⟨?_, ?_, rfl, rfl⟩
  · intro base used
    constructor
    · intro hfree
      unfold getUniqueFilename
      rw [hfree]
      rfl
    · intro htaken
      unfold getUniqueFilename
      rw [htaken]
      simp only [Bool.not_true, Bool.false_eq_true, if_false]
      rw [range_map_add_two]
      have hex : ∃ k, 2 ≤ k ∧ k < 2 + (used.length + 1) ∧
          (!used.contains (suffixName base k)) = true := by
        obtain ⟨k, h1, h2, h3⟩ := exists_free_suffix base used
        exact ⟨k, h1, by omega, by rw [h3]; rfl⟩
      have hsome := find?_range'_isSome hex
      rcases Option.isSome_iff_exists.mp hsome with ⟨k, hfind⟩
      obtain ⟨hk1, hk2, hk3, hk4⟩ := find?_range'_some hfind
      refine ⟨k, hk1, ?_, ?_, ?_⟩
      · rw [hfind]
        rfl
      · cases hc : used.contains (suffixName base k)
        · rfl
        · rw [hc] at hk3
          cases hk3
      · intro j hj1 hj2
        have := hk4 j hj1 hj2
        cases hc : used.contains (suffixName base j)
        · rw [hc] at this
          cases this
        · rfl
  · intro hash now ctx lim st item hnone
    simp only [pullStep, hnone]

/-- Witness for `c8_filename_derivation_and_collisions`: instantiate the
collision characterization at `bug-fix` with `bug-fix.md` taken, and the
creation branch at a concrete item with an empty map. -/
theorem c8_filename_derivation_and_collisions_witness :
    getUniqueFilename (str "bug-fix") [str "bug-fix.md"]
      = suffixName (str "bug-fix") 2 ∧
    pullStep exHash exNow exCtx [] ⟨[], [], 0, 0, 0, 0⟩
        { id := str "PVTI_1", title := str "Bug Fix", body := str "a",
          status := none, contentType := str "DraftIssue",
          contentId := some (str "DI_1") }
      = { files := [(str "bug-fix.md",
            serializeItemToMarkdown exHash exNow
              { id := str "PVTI_1", title := str "Bug Fix", body := str "a",
                status := none, contentType := str "DraftIssue",
                contentId := some (str "DI_1") } exCtx)],
          used := [str "bug-fix.md"], created := 1, updated := 0,
          unchanged := 0, deleted := 0 } := by
  constructor
  · obtain ⟨k, hk1, hk2, hk3, hk4⟩ :=
      (c8_filename_derivation_and_collisions.1 (str "bug-fix")
        [str "bug-fix.md"]).2 (by decide)
    have hklt : k < 4 := by
      by_contra hge
      have := hk4 3 (by omega) (by omega)
      revert this
      decide
    interval_cases k
    · exact hk2
    · exfalso
      have h2in := hk4 2 (by omega) (by omega)
      revert h2in
      decide
  · rw [c8_filename_derivation_and_collisions.2.1 exHash exNow exCtx []
      ⟨[], [], 0, 0, 0, 0⟩ _ rfl]
    rfl

/-- A character failing the predicate survives `dropWhile`. -/
theorem mem_dropWhile_of_not (p : Char → Bool) {c : Char} {t : Str}
    (hc : c ∈ t) (hp : p c = false) : c ∈ t.dropWhile p := by
  induction t with
  | nil => simp at hc
  | cons a u ih =>
    cases hpa : p a with
    | false => simpa [List.dropWhile_cons, hpa] using hc
    | true =>
      rcases List.mem_cons.mp hc with h | h
      · subst h
        rw [hp] at hpa
        cases hpa
      · simpa [List.dropWhile_cons, hpa] using ih h

/-- `dropWhile` leaves a list whose every member fails the predicate alone at
the head. -/
theorem dropWhile_eq_self_of_not (p : Char → Bool) (t : Str)
    (h : ∀ c ∈ t, p c = false) : t.dropWhile p = t := by
  cases t with
  | nil => rfl
  | cons a u => simp [List.dropWhile_cons, h a (by simp)]

/-- The head of a `dropWhile` result fails the predicate. -/
theorem head?_dropWhile_not (p : Char → Bool) (t : Str) {c : Char}
    (h : (t.dropWhile p).head? = some c) : p c = false := by
  induction t with
  | nil => simp [List.dropWhile] at h
  | cons a u ih =>
    cases hpa : p a with
    | true =>
      rw [List.dropWhile_cons, if_pos hpa] at h
      exact ih h
    | false =>
      rw [List.dropWhile_cons, if_neg (by simp [hpa])] at h
      simp only [List.head?_cons, Option.some.injEq] at h
      rw [← h]
      exact hpa

/-- `dropWhile` produces a suffix. -/
theorem dropWhile_suffix_exists (p : Char → Bool) (t : Str) :
    ∃ a, t = a ++ t.dropWhile p := by
  induction t with
  | nil => exact ⟨[], rfl⟩
  | cons x u ih =>
    cases hp : p x with
    | false => exact ⟨[], by simp [List.dropWhile_cons, hp]⟩
    | true =>
      obtain ⟨a, ha⟩ := ih
      refine ⟨x :: a, ?_⟩
      simp only [List.dropWhile_cons, hp, if_true, List.cons_append]
      exact congrArg (x :: ·) ha

/-- Trimming drops a leading whitespace character. -/
theorem jsTrim_cons_ws {c : Char} (s : Str) (h : isWs c = true) :
    jsTrim (c :: s) = jsTrim s := by
  simp [jsTrim, List.dropWhile_cons, h]

/-- An all-non-whitespace string is trim-stable. -/
theorem jsTrim_of_not_ws (s : Str) (h : ∀ c ∈ s, isWs c = false) :
    jsTrim s = s := by
  unfold jsTrim
  rw [dropWhile_eq_self_of_not _ _ h,
    dropWhile_eq_self_of_not _ _
      (fun c hc => h c (List.mem_reverse.mp hc)),
    List.reverse_reverse]

/-- `dropWhile` never lengthens a string. -/
theorem length_dropWhile_le_len (p : Char → Bool) (t : Str) :
    (t.dropWhile p).length ≤ t.length := by
  obtain ⟨a, ha⟩ := dropWhile_suffix_exists p t
  conv_rhs => rw [ha]
  simp only [List.length_append]
  omega

/-- Trimming never lengthens a string. -/
theorem jsTrim_length_le (s : Str) : (jsTrim s).length ≤ s.length := by
  unfold jsTrim
  rw [List.length_reverse]
  refine le_trans (length_dropWhile_le_len _ _) ?_
  rw [List.length_reverse]
  exact length_dropWhile_le_len _ _

/-- A string surviving a trim with a nonempty head has a non-whitespace
head. -/
theorem head_not_ws_of_trimStable {c : Char} {s : Str}
    (h : jsTrim (c :: s) = c :: s) : isWs c = false := by
  cases hw : isWs c with
  | false => rfl
  | true =>
    rw [jsTrim_cons_ws s hw] at h
    have hlen := jsTrim_length_le s
    rw [h] at hlen
    simp at hlen

/-- A string whose head and last characters are not whitespace is
trim-stable. -/
theorem jsTrim_of_head_last {t : Str}
    (hh : ∀ c, t.head? = some c → isWs c = false)
    (hl : ∀ c, t.getLast? = some c → isWs c = false) : jsTrim t = t := by
  unfold jsTrim
  have h1 : t.dropWhile isWs = t := by
    cases t with
    | nil => rfl
    | cons a u => simp [List.dropWhile_cons, hh a rfl]
  rw [h1]
  have h2 : t.reverse.dropWhile isWs = t.reverse := by
    cases hr : t.reverse with
    | nil => rfl
    | cons b v =>
      have hb : t.getLast? = some b := by
        rw [← List.head?_reverse, hr]
        rfl
      simp [List.dropWhile_cons, hl b hb]
  rw [h2, List.reverse_reverse]

/-- The head of a trimmed string is not whitespace. -/
theorem jsTrim_head_not_ws {s : Str} {c : Char}
    (h : (jsTrim s).head? = some c) : isWs c = false := by
  unfold jsTrim at h
  rw [List.head?_reverse] at h
  obtain ⟨a, ha⟩ := dropWhile_suffix_exists isWs ((s.dropWhile isWs).reverse)
  have hwne : ((s.dropWhile isWs).reverse).dropWhile isWs ≠ [] := by
    intro hnil
    rw [hnil] at h
    simp at h
  have hlast : ((s.dropWhile isWs).reverse).getLast? = some c := by
    conv_lhs => rw [ha]
    rw [List.getLast?_append_of_ne_nil a hwne]
    exact h
  rw [List.getLast?_reverse] at hlast
  exact head?_dropWhile_not isWs _ hlast

/-- The last character of a trimmed string is not whitespace. -/
theorem jsTrim_last_not_ws {s : Str} {c : Char}
    (h : (jsTrim s).getLast? = some c) : isWs c = false := by
  unfold jsTrim at h
  rw [List.getLast?_reverse] at h
  exact head?_dropWhile_not isWs _ h

/-- Trimming is idempotent. -/
theorem jsTrim_idem (s : Str) : jsTrim (jsTrim s) = jsTrim s := by
  apply jsTrim_of_head_last
  · exact fun c hc => jsTrim_head_not_ws hc
  · exact fun c hc => jsTrim_last_not_ws hc

/-- A string containing a non-whitespace character does not trim to the
empty string. -/
theorem jsTrim_ne_nil {s : Str} {c : Char} (hc : c ∈ s)
    (hw : isWs c = false) : jsTrim s ≠ [] := by
  unfold jsTrim
  have h1 : c ∈ s.dropWhile isWs := mem_dropWhile_of_not isWs hc hw
  have h2 : c ∈ ((s.dropWhile isWs).reverse).dropWhile isWs :=
    mem_dropWhile_of_not isWs (List.mem_reverse.mpr h1) hw
  intro hnil
  rw [← List.mem_reverse] at h2
  rw [hnil] at h2
  simp at h2

/-- Unfold the Boolean trim-stability test. -/
theorem trimStable_iff {s : Str} : trimStable s = true ↔ jsTrim s = s := by
  simp [trimStable]

/-- `takeWhile` walks through a prefix on which the predicate holds. -/
theorem takeWhile_append_all {α : Type} (p : α → Bool) (a b : List α)
    (h : ∀ x ∈ a, p x = true) :
    (a ++ b).takeWhile p = a ++ b.takeWhile p := by
  induction a with
  | nil => rfl
  | cons x u ih =>
    simp only [List.cons_append, List.takeWhile_cons, h x (by simp), if_true]
    exact congrArg (x :: ·) (ih (fun y hy => h y (by simp [hy])))

/-- `dropWhile` removes a prefix on which the predicate holds. -/
theorem dropWhile_append_all {α : Type} (p : α → Bool) (a b : List α)
    (h : ∀ x ∈ a, p x = true) :
    (a ++ b).dropWhile p = b.dropWhile p := by
  induction a with
  | nil => rfl
  | cons x u ih =>
    simp only [List.cons_append, List.dropWhile_cons, h x (by simp), if_true]
    exact ih (fun y hy => h y (by simp [hy]))

/-- `takeWhile` stops at a failing head. -/
theorem takeWhile_eq_nil_of_head {α : Type} (p : α → Bool) (b : List α)
    (h : ∀ x, b.head? = some x → p x = false) : b.takeWhile p = [] := by
  cases b with
  | nil => rfl
  | cons x u => simp [List.takeWhile_cons, h x rfl]

/-- `dropWhile` keeps a list with a failing head. -/
theorem dropWhile_eq_self_of_head {α : Type} (p : α → Bool) (b : List α)
    (h : ∀ x, b.head? = some x → p x = false) : b.dropWhile p = b := by
  cases b with
  | nil => rfl
  | cons x u => simp [List.dropWhile_cons, h x rfl]

/-- A newline-free string is a single split line. -/
theorem splitNl_no_nl (l : Str) (h : ('\n' : Char) ∉ l) : splitNl l = [l] := by
  induction l with
  | nil => rfl
  | cons c u ih =>
    have hc : ¬ c = '\n' := fun hh => h (by simp [hh])
    have hu : ('\n' : Char) ∉ u := fun hh => h (by simp [hh])
    simp only [splitNl]
    rw [if_neg hc, ih hu]

/-- Splitting walks past a newline-free prefix. -/
theorem splitNl_append (a t : Str) (h : ('\n' : Char) ∉ a) :
    splitNl (a ++ '\n' :: t) = a :: splitNl t := by
  induction a with
  | nil => simp [splitNl]
  | cons c u ih =>
    have hc : ¬ c = '\n' := fun hh => h (by simp [hh])
    have hu : ('\n' : Char) ∉ u := fun hh => h (by simp [hh])
    simp only [List.cons_append, splitNl]
    rw [if_neg hc]
    simp only [List.append_eq]
    rw [ih hu]

/-- The empty join. -/
theorem joinNl_nil : joinNl [] = [] := rfl

/-- A one-line join. -/
theorem joinNl_single (a : Str) : joinNl [a] = a := by
  simp [joinNl, List.intercalate]

/-- Unfold a join of two or more lines. -/
theorem joinNl_cons_cons (a b : Str) (u : List Str) :
    joinNl (a :: b :: u) = a ++ '\n' :: joinNl (b :: u) := by
  simp [joinNl, List.intercalate]

/-- `splitNl` inverts `joinNl` on newline-free lines. -/
theorem splitNl_joinNl (ls : List Str) (hne : ls ≠ [])
    (h : ∀ l ∈ ls, ('\n' : Char) ∉ l) : splitNl (joinNl ls) = ls := by
  induction ls with
  | nil => exact absurd rfl hne
  | cons a t ih =>
    cases t with
    | nil => simpa [joinNl_single] using splitNl_no_nl a (h a (by simp))
    | cons b u =>
      rw [joinNl_cons_cons, splitNl_append a _ (h a (by simp)),
        ih (by simp) (fun l hl => h l (by simp [hl]))]

/-- A string starts with itself. -/
theorem leads_append_self (p s : Str) : leads p (p ++ s) = true := by
  induction p with
  | nil => rfl
  | cons c u ih => simp [leads, ih]

/-- Scanning for a single character walks past a prefix that avoids it. -/
theorem idxOfAux_single (c : Char) (a b : Str) (ha : c ∉ a) (i : Nat) :
    idxOfAux [c] (a ++ c :: b) i = some (i + a.length) := by
  induction a generalizing i with
  | nil =>
    show idxOfAux [c] (c :: b) i = _
    simp [idxOfAux, leads]
  | cons x u ih =>
    have hu : c ∉ u := fun hh => ha (by simp [hh])
    have hlf : leads [c] (x :: (u ++ c :: b)) = false := by
      simp only [leads, Bool.and_eq_false_iff]
      left
      simp only [decide_eq_false_iff_not]
      exact fun hh => ha (by simp [hh])
    rw [List.cons_append, idxOfAux, if_neg (by simp [hlf]), ih hu]
    congr 1
    simp only [List.length_cons]
    omega

/-- Scanning for a newline-headed pattern walks past a newline-free
prefix. -/
theorem idxOfAux_skip (ps : Str) (l rest : Str) (hl : ('\n' : Char) ∉ l)
    (i : Nat) :
    idxOfAux ('\n' :: ps) (l ++ rest) i
      = idxOfAux ('\n' :: ps) rest (i + l.length) := by
  induction l generalizing i with
  | nil => simp
  | cons x u ih =>
    have hu : ('\n' : Char) ∉ u := fun hh => hl (by simp [hh])
    have hlf : leads ('\n' :: ps) (x :: (u ++ rest)) = false := by
      simp only [leads, Bool.and_eq_false_iff]
      left
      simp only [decide_eq_false_iff_not]
      exact fun hh => hl (by simp [← hh])
    rw [List.cons_append, idxOfAux, if_neg (by simp [hlf]), ih hu]
    congr 1
    simp only [List.length_cons]
    omega

/-- A dashes-then-newline pattern never matches at the start of a
newline-free line other than `---` followed by a newline. -/
theorem not_leads_dashes (next more : Str) (hnl : ('\n' : Char) ∉ next)
    (hne : next ≠ str "---") :
    leads (str "---\n") (next ++ '\n' :: more) = false := by
  cases next with
  | nil => simp [str, leads]
  | cons a next1 =>
    cases next1 with
    | nil => simp [str, leads]
    | cons b next2 =>
      cases next2 with
      | nil => simp [str, leads]
      | cons c next3 =>
        cases next3 with
        | nil =>
          by_cases ha : ('-' : Char) = a
          · by_cases hb : ('-' : Char) = b
            · by_cases hc : ('-' : Char) = c
              · exact absurd (by rw [← ha, ← hb, ← hc]; rfl) hne
              · simp [str, leads, hc]
            · simp [str, leads, hb]
          · simp [str, leads, ha]
        | cons d next4 =>
          have hd : ¬ ('\n' : Char) = d := fun hh => hnl (by simp [← hh])
          simp [str, leads, hd]

/-- One failing scan step. -/
theorem idxOfAux_step_false (pat : Str) (x : Char) (rest : Str) (i : Nat)
    (h : leads pat (x :: rest) = false) :
    idxOfAux pat (x :: rest) i = idxOfAux pat rest (i + 1) := by
  rw [idxOfAux, if_neg (by simp [h])]

/-- One succeeding scan step. -/
theorem idxOfAux_step_true (pat : Str) (x : Char) (rest : Str) (i : Nat)
    (h : leads pat (x :: rest) = true) :
    idxOfAux pat (x :: rest) i = some i := by
  rw [idxOfAux, if_pos (by simp [h])]

/-- The first `"\n---\n"` in a joined yaml block followed by the closing
fence sits exactly at the end of the block, provided no line is `---` or
contains a newline. -/
theorem idxOfAux_delimiter (lines : List Str) (B : Str) (i : Nat)
    (h : ∀ l ∈ lines, ('\n' : Char) ∉ l ∧ l ≠ str "---") :
    idxOfAux (str "\n---\n") (joinNl lines ++ str "\n---\n" ++ B) i
      = some (i + (joinNl lines).length) := by
  induction lines generalizing i with
  | nil =>
    rw [joinNl_nil, List.nil_append]
    have htrue : idxOfAux (str "\n---\n") (str "\n---\n" ++ B) i = some i :=
      idxOfAux_step_true (str "\n---\n") '\n' (str "---\n" ++ B) i
        (leads_append_self (str "\n---\n") B)
    rw [htrue]
    simp
  | cons l tail ih =>
    have hl := h l (by simp)
    cases tail with
    | nil =>
      rw [joinNl_single, List.append_assoc]
      have hskip : idxOfAux (str "\n---\n") (l ++ (str "\n---\n" ++ B)) i
          = idxOfAux (str "\n---\n") (str "\n---\n" ++ B) (i + l.length) :=
        idxOfAux_skip (str "---\n") l (str "\n---\n" ++ B) hl.1 i
      have htrue : idxOfAux (str "\n---\n") (str "\n---\n" ++ B)
          (i + l.length) = some (i + l.length) :=
        idxOfAux_step_true (str "\n---\n") '\n' (str "---\n" ++ B)
          (i + l.length) (leads_append_self (str "\n---\n") B)
      rw [hskip, htrue]
    | cons b u =>
      have hb := h b (by simp)
      have hshape : joinNl (l :: b :: u) ++ str "\n---\n" ++ B
          = l ++ ('\n' :: (joinNl (b :: u) ++ str "\n---\n" ++ B)) := by
        rw [joinNl_cons_cons]
        simp [List.append_assoc]
      have hX : ∃ Y, joinNl (b :: u) ++ str "\n---\n" ++ B
          = b ++ '\n' :: Y := by
        cases u with
        | nil =>
          refine ⟨str "---\n" ++ B, ?_⟩
          rw [joinNl_single]
          rw [show str "\n---\n" = '\n' :: str "---\n" from rfl]
          simp [List.append_assoc]
        | cons e v =>
          refine ⟨joinNl (e :: v) ++ str "\n---\n" ++ B, ?_⟩
          rw [joinNl_cons_cons]
          simp [List.append_assoc]
      obtain ⟨Y, hY⟩ := hX
      have hlf : leads (str "\n---\n")
          ('\n' :: (joinNl (b :: u) ++ str "\n---\n" ++ B)) = false := by
        show leads ('\n' :: str "---\n")
          ('\n' :: (joinNl (b :: u) ++ str "\n---\n" ++ B)) = false
        rw [leads, hY]
        simp [not_leads_dashes b Y hb.1 hb.2]
      have hskip : idxOfAux (str "\n---\n")
          (l ++ ('\n' :: (joinNl (b :: u) ++ str "\n---\n" ++ B))) i
          = idxOfAux (str "\n---\n")
            ('\n' :: (joinNl (b :: u) ++ str "\n---\n" ++ B)) (i + l.length) :=
        idxOfAux_skip (str "---\n") l _ hl.1 i
      have hstep := idxOfAux_step_false (str "\n---\n") '\n'
        (joinNl (b :: u) ++ str "\n---\n" ++ B) (i + l.length) hlf
      rw [hshape, hskip, hstep,
        ih (i + l.length + 1) (fun x hx => h x (by simp [hx]))]
      congr 1
      rw [joinNl_cons_cons]
      simp only [List.length_append, List.length_cons]
      omega

/-- Parsing a markdown file assembled from a yaml block and a body: the
yaml block is recovered line by line and the body is trimmed.  The lines
must be newline-free and none may equal `---`. -/
theorem parseMarkdownString_shape (lines : List Str) (body : Str)
    (hne : lines ≠ [])
    (h : ∀ l ∈ lines, ('\n' : Char) ∉ l ∧ l ≠ str "---") :
    parseMarkdownString (str "---\n" ++ joinNl lines ++ str "\n---\n"
        ++ '\n' :: body)
      = ⟨parseYamlGo (lines.length + 1) [] lines, jsTrim body⟩ := by
  have hstart : leads (str "---\n")
      (str "---\n" ++ joinNl lines ++ str "\n---\n" ++ '\n' :: body)
      = true := by
    have := leads_append_self (str "---\n")
      (joinNl lines ++ str "\n---\n" ++ '\n' :: body)
    simpa [List.append_assoc] using this
  have hdrop4 : (str "---\n" ++ joinNl lines ++ str "\n---\n"
      ++ '\n' :: body).drop 4
      = joinNl lines ++ str "\n---\n" ++ '\n' :: body := by
    simp [List.append_assoc, str]
  have hidx : idxOfFrom (str "\n---\n")
      (str "---\n" ++ joinNl lines ++ str "\n---\n" ++ '\n' :: body) 4
      = some (4 + (joinNl lines).length) := by
    unfold idxOfFrom
    rw [hdrop4]
    exact idxOfAux_delimiter lines ('\n' :: body) 4 h
  have hslice : jsSlice (str "---\n" ++ joinNl lines ++ str "\n---\n"
      ++ '\n' :: body) 4 (4 + (joinNl lines).length) = joinNl lines := by
    unfold jsSlice
    rw [hdrop4]
    have harith : 4 + (joinNl lines).length - 4 = (joinNl lines).length := by
      omega
    rw [harith, List.append_assoc, List.take_left]
  have hbody : (str "---\n" ++ joinNl lines ++ str "\n---\n"
      ++ '\n' :: body).drop (4 + (joinNl lines).length + 5) = '\n' :: body := by
    have hpre : (str "---\n" ++ joinNl lines ++ str "\n---\n").length
        = 4 + (joinNl lines).length + 5 := by
      simp [str]
      omega
    calc (str "---\n" ++ joinNl lines ++ str "\n---\n"
        ++ '\n' :: body).drop (4 + (joinNl lines).length + 5)
        = ((str "---\n" ++ joinNl lines ++ str "\n---\n")
          ++ '\n' :: body).drop (4 + (joinNl lines).length + 5) := by
          simp [List.append_assoc]
      _ = '\n' :: body := List.drop_left' hpre
  unfold parseMarkdownString
  rw [if_neg (not_not_intro hstart), hidx]
  dsimp only
  rw [hslice, hbody]
  rw [jsTrim_cons_ws body (by decide)]
  unfold parseYaml
  rw [splitNl_joinNl lines hne (fun l hl => (h l hl).1)]

/-- Heads differ, lists differ. -/
theorem cons_ne {a b : Char} {u v : Str} (hab : ¬ a = b)
    (h : a :: u = b :: v) : False := by
  injection h with h1 _
  exact hab h1

/-- Membership with a false `contains` test. -/
theorem contains_eq_false_iff {α : Type} [BEq α] [LawfulBEq α] {c : α}
    {s : List α} : s.contains c = false ↔ c ∉ s := by
  induction s with
  | nil => simp
  | cons a u ih => simp [List.contains_cons, ih, not_or]

/-- `natToStrGo` under sufficient fuel: nonempty and all decimal digits. -/
theorem natToStrGo_digits (fuel : Nat) : ∀ n, n < fuel →
    natToStrGo fuel n ≠ [] ∧ (natToStrGo fuel n).all isDigitCh = true := by
  induction fuel with
  | zero => intro n h; omega
  | succ fuel ih =>
    intro n h
    by_cases hn : n < 10
    · rw [natToStrGo, if_pos hn]
      refine ⟨by simp, ?_⟩
      simp only [List.all_cons, List.all_nil, Bool.and_true]
      interval_cases n <;> decide
    · rw [natToStrGo, if_neg hn]
      have hlt : n / 10 < n := Nat.div_lt_self (by omega) (by omega)
      have hdiv : n / 10 < fuel := by omega
      obtain ⟨h1, h2⟩ := ih (n / 10) hdiv
      constructor
      · simp
      · rw [List.all_append]
        have hm : n % 10 < 10 := Nat.mod_lt _ (by omega)
        have hdig : isDigitCh (digitChar (n % 10)) = true := by
          generalize n % 10 = m at hm
          interval_cases m <;> decide
        simp [h2, hdig]

/-- `natToStr`: nonempty and all decimal digits. -/
theorem natToStr_digits (n : Nat) :
    natToStr n ≠ [] ∧ (natToStr n).all isDigitCh = true :=
  natToStrGo_digits (n + 1) n (by omega)

/-- Basic exclusions for a decimal digit character. -/
theorem digit_char_facts {c : Char} (h : isDigitCh c = true) :
    ¬ c = '-' ∧ ¬ c = '\n' ∧ isWs c = false ∧ isWordCh c = true := by
  simp only [isDigitCh, decide_eq_true_eq] at h
  obtain ⟨h1, h2⟩ := h
  refine ⟨?_, ?_, ?_, ?_⟩
  · rintro rfl; exact absurd h1 (by decide)
  · rintro rfl; exact absurd h1 (by decide)
  · simp only [isWs, decide_eq_false_iff_not]
    rintro (rfl | rfl | rfl | rfl | rfl | rfl) <;> exact absurd h1 (by decide)
  · simp only [isWordCh, decide_eq_true_eq]
    exact Or.inr (Or.inr (Or.inl ⟨h1, h2⟩))

/-- A string of digits trims to itself. -/
theorem jsTrim_of_digits {s : Str} (h : s.all isDigitCh = true) :
    jsTrim s = s := by
  apply jsTrim_of_not_ws
  intro c hc
  rw [List.all_eq_true] at h
  exact (digit_char_facts (h c hc)).2.2.1

/-- The head shape of `intToStr`. -/
theorem intToStr_head (n : Int) : ∃ c cs, intToStr n = c :: cs ∧
    (c = '-' ∨ isDigitCh c = true) := by
  unfold intToStr
  split
  · exact ⟨'-', natToStr n.natAbs, rfl, Or.inl rfl⟩
  · obtain ⟨h1, h2⟩ := natToStr_digits n.toNat
    cases hns : natToStr n.toNat with
    | nil => exact absurd hns h1
    | cons c cs =>
      rw [hns, List.all_cons, Bool.and_eq_true] at h2
      exact ⟨c, cs, rfl, Or.inr h2.1⟩

/-- `intToStr` is nonempty. -/
theorem intToStr_ne_nil (n : Int) : intToStr n ≠ [] := by
  obtain ⟨c, cs, hcons, _⟩ := intToStr_head n
  rw [hcons]
  simp

/-- `intToStr` matches the integer-literal regex. -/
theorem intLit_intToStr (n : Int) : intLit (intToStr n) = true := by
  unfold intToStr
  split
  · obtain ⟨h1, h2⟩ := natToStr_digits n.natAbs
    simp only [intLit]
    simp [h1, h2]
  · obtain ⟨h1, h2⟩ := natToStr_digits n.toNat
    cases hns : natToStr n.toNat with
    | nil => exact absurd hns h1
    | cons c cs =>
      rw [hns] at h2
      have hc : isDigitCh c = true := by
        rw [List.all_cons, Bool.and_eq_true] at h2
        exact h2.1
      have hcd := (digit_char_facts hc).1
      unfold intLit
      split
      · rename_i heq
        exact absurd heq (by simp)
      · rename_i rest heq
        injection heq with hh _
        exact absurd hh hcd
      · exact h2

/-- `parseInt` inverts `String( )` on integers. -/
theorem parseIntDec_intToStr (n : Int) : parseIntDec (intToStr n) = n := by
  by_cases hneg : n < 0
  · rw [show intToStr n = '-' :: natToStr n.natAbs from by
      unfold intToStr; rw [if_pos hneg]]
    show -(parseNat (natToStr n.natAbs) : Int) = n
    rw [parseNat_natToStr]
    omega
  · rw [show intToStr n = natToStr n.toNat from by
      unfold intToStr; rw [if_neg hneg]]
    obtain ⟨h1, h2⟩ := natToStr_digits n.toNat
    cases hns : natToStr n.toNat with
    | nil => exact absurd hns h1
    | cons c cs =>
      rw [hns] at h2
      have hc : isDigitCh c = true := by
        rw [List.all_cons, Bool.and_eq_true] at h2
        exact h2.1
      have hcd := (digit_char_facts hc).1
      unfold parseIntDec
      split
      · rename_i rest heq
        injection heq with hh _
        exact absurd hh hcd
      · rw [← hns, parseNat_natToStr]
        omega

/-- An integer literal with a bad head character fails the integer-literal
regex. -/
theorem intLit_head_bad {c : Char} (hc : isDigitCh c = false)
    (hcd : ¬ c = '-') (X : Str) : intLit (c :: X) = false := by
  unfold intLit
  split
  · rename_i heq
    exact absurd heq (by simp)
  · rename_i rest heq
    injection heq with hh _
    exact absurd hh hcd
  · simp [List.all_cons, hc]

/-- A float literal with a bad head character fails the float-literal
regex. -/
theorem floatLit_head_bad {c : Char} (hc : isDigitCh c = false)
    (hcd : ¬ c = '-') (X : Str) : floatLit (c :: X) = false := by
  unfold floatLit
  split
  · rename_i rest heq
    injection heq with hh _
    exact absurd hh hcd
  · rcases hidx : idxOfFrom ['.'] (c :: X) 0 with _ | k
    · simp [hidx]
    · simp only [hidx]
      cases k with
      | zero => simp
      | succ k => simp [List.take_succ_cons, List.all_cons, hc]

/-- Decimal-digit strings never start with a quote. -/
theorem isDigitCh_quote : isDigitCh '"' = false := by decide

/-- `hexVal` inverts `hexDigit` on one hex digit. -/
theorem hexVal_hexDigit {m : Nat} (h : m < 16) :
    hexVal (hexDigit m) = some m := by
  interval_cases m <;> decide

/-- `hexDigit` is never a newline. -/
theorem hexDigit_not_nl {m : Nat} (h : m < 16) : ¬ hexDigit m = '\n' := by
  interval_cases m <;> decide

/-- No escape expansion contains a raw newline. -/
theorem jsonEscChar_no_nl (c : Char) : ('\n' : Char) ∉ jsonEscChar c := by
  intro hmem
  unfold jsonEscChar at hmem
  repeat' split at hmem
  · simp at hmem
  · simp at hmem
  · simp at hmem
  · simp at hmem
  · simp at hmem
  · simp at hmem
  · simp at hmem
  · rename_i h8
    simp only [List.mem_cons] at hmem
    rcases hmem with h | h | h | h | h | h
    · exact absurd h (by decide)
    · exact absurd h (by decide)
    · exact absurd h (by decide)
    · exact absurd h (by decide)
    · exact absurd h.symm (hexDigit_not_nl (by omega))
    · rcases h with h | h
      · exact absurd h.symm (hexDigit_not_nl (Nat.mod_lt _ (by omega)))
      · simp at h
  · rename_i h1 h2 h3 h4 h5 h6 h7 h8
    simp only [List.mem_singleton] at hmem
    rw [← hmem] at h3
    exact h3 rfl

/-- A JSON-quoted string contains no raw newline. -/
theorem jsonQuote_no_nl (s : Str) : ('\n' : Char) ∉ jsonQuote s := by
  unfold jsonQuote
  intro hmem
  rcases List.mem_cons.mp hmem with h | h
  · exact absurd h (by decide)
  · rcases List.mem_append.mp h with h2 | h2
    · obtain ⟨c, _, hcc⟩ := List.mem_flatMap.mp h2
      exact jsonEscChar_no_nl c hcc
    · simp at h2

/-- A JSON-quoted string is trim-stable. -/
theorem jsTrim_jsonQuote (s : Str) : jsTrim (jsonQuote s) = jsonQuote s := by
  apply jsTrim_of_head_last
  · intro c hc
    have hh : (jsonQuote s).head? = some '"' := rfl
    rw [hh] at hc
    injection hc with hc2
    rw [← hc2]
    decide
  · intro c hc
    have hlast : (jsonQuote s).getLast? = some '"' := by
      show (('"' :: s.flatMap jsonEscChar) ++ ['"']).getLast? = some '"'
      exact List.getLast?_concat _
    rw [hlast] at hc
    injection hc with hc2
    rw [← hc2]
    decide

/-- Scanning decodes the escaped body: the core JSON string round trip. -/
theorem jsonScan_escape (s : Str) :
    jsonScan ((s.flatMap jsonEscChar) ++ ['"']) = some s := by
  induction s with
  | nil => rfl
  | cons c u ih =>
    rw [List.flatMap_cons, List.append_assoc]
    by_cases h1 : c = '"'
    · subst h1
      rw [show jsonEscChar '"' = ['\\', '"'] from rfl]
      simp [jsonScan, ih]
    · by_cases h2 : c = '\\'
      · subst h2
        rw [show jsonEscChar '\\' = ['\\', '\\'] from rfl]
        simp [jsonScan, ih]
      · by_cases h3 : c = '\n'
        · subst h3
          rw [show jsonEscChar '\n' = ['\\', 'n'] from rfl]
          simp [jsonScan, ih]
        · by_cases h4 : c = '\r'
          · subst h4
            rw [show jsonEscChar '\r' = ['\\', 'r'] from rfl]
            simp [jsonScan, ih]
          · by_cases h5 : c = '\t'
            · subst h5
              rw [show jsonEscChar '\t' = ['\\', 't'] from rfl]
              simp [jsonScan, ih]
            · by_cases h6 : c = '\x08'
              · subst h6
                rw [show jsonEscChar '\x08' = ['\\', 'b'] from rfl]
                simp [jsonScan, ih]
              · by_cases h7 : c = '\x0c'
                · subst h7
                  rw [show jsonEscChar '\x0c' = ['\\', 'f'] from rfl]
                  simp [jsonScan, ih]
                · by_cases h8 : c.toNat < 0x20
                  · rw [show jsonEscChar c = ['\\', 'u', '0', '0',
                        hexDigit (c.toNat / 16), hexDigit (c.toNat % 16)]
                      from by
                        unfold jsonEscChar
                        rw [if_neg h1, if_neg h2, if_neg h3, if_neg h4,
                          if_neg h5, if_neg h6, if_neg h7, if_pos h8]]
                    have e0 : hexVal '0' = some 0 := rfl
                    have e1 : hexVal (hexDigit (c.toNat / 16))
                        = some (c.toNat / 16) := hexVal_hexDigit (by omega)
                    have e2 : hexVal (hexDigit (c.toNat % 16))
                        = some (c.toNat % 16) :=
                      hexVal_hexDigit (Nat.mod_lt _ (by omega))
                    have e3 : ((0 * 16 + 0) * 16 + c.toNat / 16) * 16
                        + c.toNat % 16 = c.toNat := by omega
                    simp only [List.cons_append, List.append_eq,
                      List.nil_append, jsonScan, e0, e1, e2, e3,
                      Char.ofNat_toNat, ih]
                    rfl
                  · rw [show jsonEscChar c = [c] from by
                      unfold jsonEscChar
                      rw [if_neg h1, if_neg h2, if_neg h3, if_neg h4,
                        if_neg h5, if_neg h6, if_neg h7, if_neg h8]]
                    simp only [List.cons_append, List.nil_append]
                    rw [show jsonScan (c :: (u.flatMap jsonEscChar ++ ['"']))
                        = (c :: ·) <$> jsonScan (u.flatMap jsonEscChar ++ ['"'])
                      from ?_]
                    · rw [ih]; rfl
                    · rw [jsonScan.eq_def]
                      split
                      · rename_i heq
                        exact absurd heq (by simp)
                      · rename_i rest heq
                        injection heq with hh _
                        exact absurd hh h1
                      · rename_i rest heq
                        injection heq with hh _
                        exact absurd hh h2
                      · rename_i x rest hq1 hq2 heq
                        injection heq with hh hrest
                        subst hrest
                        rw [← hh]
                        rw [if_neg (by omega)]

/-- `JSON.parse` inverts `JSON.stringify` on strings. -/
theorem jsonParseStr_jsonQuote (s : Str) :
    jsonParseStr (jsonQuote s) = some s :=
  jsonScan_escape s

/-- Components of a false quoting test. -/
theorem needsQuote_false_facts {s : Str} (h : needsQuote s = false) :
    ('\n' : Char) ∉ s ∧ (':' : Char) ∉ s ∧ s ≠ [] := by
  unfold needsQuote at h
  rw [decide_eq_false_iff_not] at h
  push_neg at h
  obtain ⟨h1, h2, h3, h4⟩ := h
  refine ⟨?_, ?_, h4⟩
  · exact contains_eq_false_iff.mp (by simpa using h1)
  · exact contains_eq_false_iff.mp (by simpa using h2)

/-- `intToStr` never collides with a yaml keyword or bracket. -/
theorem intToStr_ne_kw (n : Int) :
    intToStr n ≠ str "null" ∧ intToStr n ≠ str "~" ∧ intToStr n ≠ []
      ∧ intToStr n ≠ str "true" ∧ intToStr n ≠ str "false"
      ∧ intToStr n ≠ str "[]" := by
  obtain ⟨c, cs, hcons, hhead⟩ := intToStr_head n
  have hok : ∀ (b : Char) (v : Str), ¬ b = '-' → isDigitCh b = false →
      ¬ intToStr n = b :: v := by
    intro b v hb hdg heq
    rw [hcons] at heq
    injection heq with hh _
    rcases hhead with h | h
    · rw [hh] at h; exact hb h
    · rw [hh] at h; rw [h] at hdg; cases hdg
  refine ⟨hok 'n' _ (by decide) (by decide), hok '~' _ (by decide) (by decide),
    ?_, hok 't' _ (by decide) (by decide), hok 'f' _ (by decide) (by decide),
    hok '[' _ (by decide) (by decide)⟩
  rw [hcons]
  simp

/-- `parseYamlValue` on the rendering of an integer. -/
theorem parseYamlValue_intToStr (n : Int) :
    parseYamlValue (intToStr n) = .vInt n := by
  obtain ⟨hn, ht, he, htr, hf, hbr⟩ := intToStr_ne_kw n
  unfold parseYamlValue
  rw [if_neg (by rintro (h | h | h) <;> [exact hn h; exact ht h; exact he h]),
    if_neg htr, if_neg hf, if_neg hbr, if_pos (intLit_intToStr n),
    parseIntDec_intToStr]

/-- `parseYamlValue` on a JSON-quoted string. -/
theorem parseYamlValue_jsonQuote (s : Str) :
    parseYamlValue (jsonQuote s) = .vStr s := by
  have hcons : jsonQuote s = '"' :: (s.flatMap jsonEscChar ++ ['"']) := rfl
  have hint : intLit (jsonQuote s) = false := by
    rw [hcons]
    exact intLit_head_bad (by decide) (by decide) _
  have hfl : floatLit (jsonQuote s) = false := by
    rw [hcons]
    exact floatLit_head_bad (by decide) (by decide) _
  have hrev : leads ['"'] (jsonQuote s).reverse = true := by
    have : (jsonQuote s).reverse
        = '"' :: ('"' :: s.flatMap jsonEscChar).reverse := by
      rw [show jsonQuote s = ('"' :: s.flatMap jsonEscChar) ++ ['"'] from rfl,
        List.reverse_append]
      rfl
    rw [this]
    simp [leads]
  unfold parseYamlValue
  rw [if_neg, if_neg, if_neg, if_neg,
    if_neg (by simp [hint]), if_neg (by simp [hfl]), if_pos,
    jsonParseStr_jsonQuote]
  · left
    rw [Bool.and_eq_true]
    refine ⟨?_, hrev⟩
    rw [hcons]
    simp [leads]
  · rw [hcons]; exact fun h => cons_ne (by decide) h
  · rw [hcons]; exact fun h => cons_ne (by decide) h
  · rw [hcons]; exact fun h => cons_ne (by decide) h
  · rintro (h | h | h)
    · exact cons_ne (by decide) (hcons ▸ h)
    · exact cons_ne (by decide) (hcons ▸ h)
    · rw [hcons] at h; simp at h

/-- `parseYamlValue` on a safe plain scalar. -/
theorem parseYamlValue_plain (s : Str) (h : plainScalarSafe s = true) :
    parseYamlValue s = .vStr s := by
  unfold plainScalarSafe at h
  simp only [Bool.and_eq_true, Bool.not_eq_true', decide_eq_true_eq] at h
  obtain ⟨⟨⟨⟨⟨⟨⟨⟨⟨⟨hq, ht⟩, h1⟩, h2⟩, h3⟩, h4⟩, h5⟩, hil⟩, hfl⟩, hdq⟩, hsq⟩ := h
  have hne := (needsQuote_false_facts hq).2.2
  unfold parseYamlValue
  rw [if_neg (by rintro (h | h | h) <;> [exact h1 h; exact h2 h; exact hne h]),
    if_neg h3, if_neg h4, if_neg h5, if_neg (by simp [hil]),
    if_neg (by simp [hfl]), if_neg (by rintro (h | h) <;> simp_all)]

/-- `parseYamlValue` inverts `scalarText` on safe scalars. -/
theorem parseYamlValue_scalarText (v : YValue) (h : scalarSafe v = true) :
    parseYamlValue (scalarText v) = v := by
  cases v with
  | vStr s =>
    simp only [scalarSafe, strValueSafe] at h
    cases hq : needsQuote s with
    | true =>
      rw [show scalarText (.vStr s) = jsonQuote s from by
        simp [scalarText, hq]]
      exact parseYamlValue_jsonQuote s
    | false =>
      have hp : plainScalarSafe s = true := by
        rw [hq] at h; simpa using h
      rw [show scalarText (.vStr s) = s from by simp [scalarText, hq]]
      exact parseYamlValue_plain s hp
  | vInt n => exact parseYamlValue_intToStr n
  | vBool b => cases b <;> rfl
  | vNull => rfl
  | vFloat raw => simp [scalarSafe] at h
  | vArr xs => simp [scalarSafe] at h
  | vObj f => simp [scalarSafe] at h

/-- The rendering of a safe scalar is a valid line text. -/
theorem lineTxtOk_scalarText (v : YValue) (h : scalarSafe v = true) :
    lineTxtOk (scalarText v) = true := by
  have build : ∀ (t : Str), t ≠ [] → jsTrim t = t → ('\n' : Char) ∉ t →
      lineTxtOk t = true := by
    intro t h1 h2 h3
    unfold lineTxtOk trimStable
    simp [h1, h2, contains_eq_false_iff]
    exact h3
  cases v with
  | vStr s =>
    simp only [scalarSafe, strValueSafe] at h
    cases hq : needsQuote s with
    | true =>
      rw [show scalarText (.vStr s) = jsonQuote s from by
        simp [scalarText, hq]]
      exact build _ (by rw [show jsonQuote s
          = '"' :: (s.flatMap jsonEscChar ++ ['"']) from rfl]; simp)
        (jsTrim_jsonQuote s) (jsonQuote_no_nl s)
    | false =>
      have hp : plainScalarSafe s = true := by
        rw [hq] at h; simpa using h
      unfold plainScalarSafe at hp
      simp only [Bool.and_eq_true, Bool.not_eq_true', decide_eq_true_eq] at hp
      obtain ⟨⟨⟨⟨⟨⟨⟨⟨⟨⟨hq2, ht⟩, _⟩, _⟩, _⟩, _⟩, _⟩, _⟩, _⟩, _⟩, _⟩ := hp
      obtain ⟨hnl, _, hne⟩ := needsQuote_false_facts hq2
      rw [show scalarText (.vStr s) = s from by simp [scalarText, hq]]
      exact build _ hne (trimStable_iff.mp ht) hnl
  | vInt n =>
    have hmem : ∀ c ∈ intToStr n, isWs c = false ∧ ¬ c = '\n' := by
      intro c hc
      unfold intToStr at hc
      split at hc
      · rcases List.mem_cons.mp hc with h | h
        · subst h; exact ⟨by decide, by decide⟩
        · have hall := (natToStr_digits n.natAbs).2
          rw [List.all_eq_true] at hall
          have hd := digit_char_facts (hall c h)
          exact ⟨hd.2.2.1, hd.2.1⟩
      · have hall := (natToStr_digits n.toNat).2
        rw [List.all_eq_true] at hall
        have hd := digit_char_facts (hall c hc)
        exact ⟨hd.2.2.1, hd.2.1⟩
    exact build _ (intToStr_ne_nil n)
      (jsTrim_of_not_ws _ (fun c hc => (hmem c hc).1))
      (fun hc => (hmem '\n' hc).2 rfl)
  | vBool b => cases b <;> decide
  | vNull => decide
  | vFloat raw => simp [scalarSafe] at h
  | vArr xs => simp [scalarSafe] at h
  | vObj f => simp [scalarSafe] at h

/-- Components of a safe key. -/
theorem keySafe_facts {k : Str} (h : keySafe k = true) :
    k ≠ [] ∧ jsTrim k = k ∧ (':' : Char) ∉ k ∧ ('\n' : Char) ∉ k := by
  unfold keySafe at h
  simp only [Bool.and_eq_true, Bool.not_eq_true', decide_eq_true_eq] at h
  obtain ⟨⟨⟨h1, h2⟩, h3⟩, h4⟩ := h
  exact ⟨h1, trimStable_iff.mp h2, contains_eq_false_iff.mp h3,
    contains_eq_false_iff.mp h4⟩

/-- A safe key starts with a non-whitespace character. -/
theorem keySafe_head {k : Str} (h : keySafe k = true) :
    ∃ c cs, k = c :: cs ∧ isWs c = false := by
  obtain ⟨h1, h2, _, _⟩ := keySafe_facts h
  cases k with
  | nil => exact absurd rfl h1
  | cons c cs =>
    exact ⟨c, cs, rfl, head_not_ws_of_trimStable h2⟩

/-- Components of a valid line text. -/
theorem lineTxtOk_facts {txt : Str} (h : lineTxtOk txt = true) :
    txt ≠ [] ∧ jsTrim txt = txt ∧ ('\n' : Char) ∉ txt := by
  unfold lineTxtOk at h
  simp only [Bool.and_eq_true, Bool.not_eq_true', decide_eq_true_eq] at h
  obtain ⟨⟨h1, h2⟩, h3⟩ := h
  exact ⟨h1, trimStable_iff.mp h2, contains_eq_false_iff.mp h3⟩

/-- Exclusions for a word character. -/
theorem isWordCh_facts {c : Char} (h : isWordCh c = true) :
    isWs c = false ∧ ¬ c = '-' ∧ ¬ c = ':' := by
  simp only [isWordCh, decide_eq_true_eq] at h
  refine ⟨?_, ?_, ?_⟩
  · simp only [isWs, decide_eq_false_iff_not]
    rintro (rfl | rfl | rfl | rfl | rfl | rfl) <;> exact absurd h (by decide)
  · rintro rfl; exact absurd h (by decide)
  · rintro rfl; exact absurd h (by decide)

/-- A word key is a safe key with a word head. -/
theorem wordKey_facts {k : Str} (hw : wordKey k = true) :
    keySafe k = true ∧ ∃ c cs, k = c :: cs ∧ isWordCh c = true := by
  unfold wordKey at hw
  simp only [Bool.and_eq_true, decide_eq_true_eq] at hw
  obtain ⟨h1, h2⟩ := hw
  rw [List.all_eq_true] at h2
  have hks : keySafe k = true := by
    unfold keySafe
    have htr : jsTrim k = k :=
      jsTrim_of_not_ws k (fun c hc => (isWordCh_facts (h2 c hc)).1)
    have hc1 : (':' : Char) ∉ k := fun hc => (isWordCh_facts (h2 _ hc)).2.2 rfl
    have hc2 : ('\n' : Char) ∉ k := fun hc => by
      have := h2 _ hc
      exact absurd this (by decide)
    simp [h1, trimStable, htr, contains_eq_false_iff.mpr hc1,
      contains_eq_false_iff.mpr hc2]
    exact ⟨hc1, hc2⟩
  cases k with
  | nil => exact absurd rfl h1
  | cons c cs => exact ⟨hks, c, cs, rfl, h2 c (by simp)⟩

/-- `parseKV` on a scalar line built from a safe key and a trim-stable
text. -/
theorem parseKV_line (k txt : Str) (hk : keySafe k = true)
    (htxt : jsTrim txt = txt) :
    parseKV (k ++ str ": " ++ txt) = some (k, txt) := by
  obtain ⟨h1, h2, h3, _⟩ := keySafe_facts hk
  have hform : k ++ str ": " ++ txt = k ++ ':' :: ' ' :: txt := by
    rw [List.append_assoc]
    rfl
  rw [hform]
  have hidx : idxOfFrom [':'] (k ++ ':' :: ' ' :: txt) 0 = some k.length := by
    unfold idxOfFrom
    rw [List.drop_zero, idxOfAux_single ':' k (' ' :: txt) h3 0]
    simp
  unfold parseKV
  rw [hidx]
  obtain ⟨m, hm⟩ : ∃ m, k.length = m + 1 := by
    cases k with
    | nil => exact absurd rfl h1
    | cons c cs => exact ⟨cs.length, rfl⟩
  rw [hm]
  show some (jsTrim ((k ++ ':' :: ' ' :: txt).take (m + 1)),
    jsTrim ((k ++ ':' :: ' ' :: txt).drop (m + 1 + 1))) = some (k, txt)
  rw [← hm, List.take_left]
  rw [show k ++ ':' :: ' ' :: txt = (k ++ [':']) ++ ' ' :: txt from by simp]
  rw [List.drop_left' (by simp)]
  rw [h2, jsTrim_cons_ws txt (by decide), htxt]

/-- `parseKV` on a bare key line. -/
theorem parseKV_keyOnly (k : Str) (hk : keySafe k = true) :
    parseKV (k ++ [':']) = some (k, []) := by
  obtain ⟨h1, h2, h3, _⟩ := keySafe_facts hk
  have hidx : idxOfFrom [':'] (k ++ [':']) 0 = some k.length := by
    unfold idxOfFrom
    rw [List.drop_zero, show k ++ [':'] = k ++ ':' :: [] from rfl,
      idxOfAux_single ':' k [] h3 0]
    simp
  unfold parseKV
  rw [hidx]
  obtain ⟨m, hm⟩ : ∃ m, k.length = m + 1 := by
    cases k with
    | nil => exact absurd rfl h1
    | cons c cs => exact ⟨cs.length, rfl⟩
  rw [hm]
  show some (jsTrim ((k ++ [':']).take (m + 1)),
    jsTrim ((k ++ [':']).drop (m + 1 + 1))) = some (k, [])
  rw [← hm, List.take_left]
  have hdrop : (k ++ [':']).drop (k.length + 1) = [] :=
    List.drop_eq_nil_of_le (by simp)
  rw [hdrop, h2]
  rfl

/-- Setting a fresh key appends. -/
theorem fmSet_append (acc : Fm) (k : Str) (v : YValue)
    (h : ∀ kv ∈ acc, kv.1 ≠ k) : fmSet acc k v = acc ++ [(k, v)] := by
  unfold fmSet
  rw [if_neg]
  simp only [List.any_eq_true]
  rintro ⟨kv, hmem, hbeq⟩
  exact h kv hmem (by simpa using hbeq)

/-- One scalar-line step of the yaml parser. -/
theorem parseYamlGo_scalar_step (fuel : Nat) (acc : Fm) (k txt : Str)
    (rest : List Str) (hk : keySafe k = true) (htxt : lineTxtOk txt = true) :
    parseYamlGo (fuel + 1) acc ((k ++ str ": " ++ txt) :: rest)
      = parseYamlGo fuel (fmSet acc k (parseYamlValue txt)) rest := by
  obtain ⟨ht1, ht2, _⟩ := lineTxtOk_facts htxt
  obtain ⟨c, cs, hcons, hws⟩ := keySafe_head hk
  have hblank : jsTrim (k ++ str ": " ++ txt) ≠ [] := by
    rw [hcons]
    exact jsTrim_ne_nil (by simp) hws
  rw [parseYamlGo, if_neg hblank, parseKV_line k txt hk ht2]
  dsimp only
  rw [if_neg ht1]

/-- A block of scalar lines parses to the corresponding entries appended to
the accumulator. -/
theorem parseYamlGo_scalarLines (entries : List (Str × Str)) :
    ∀ (fuel : Nat) (acc : Fm),
    entries.length ≤ fuel →
    (∀ e ∈ entries, keySafe e.1 = true ∧ lineTxtOk e.2 = true) →
    (entries.map (·.1)).Nodup →
    (∀ e ∈ entries, ∀ kv ∈ acc, kv.1 ≠ e.1) →
    parseYamlGo fuel acc (entries.map (fun e => e.1 ++ str ": " ++ e.2))
      = acc ++ entries.map (fun e => (e.1, parseYamlValue e.2)) := by
  induction entries with
  | nil =>
    intro fuel acc _ _ _ _
    cases fuel <;> simp [parseYamlGo]
  | cons e es ih =>
    intro fuel acc hfuel hok hnodup hacc
    cases fuel with
    | zero => simp at hfuel
    | succ fuel =>
      rw [List.map_cons, parseYamlGo_scalar_step fuel acc e.1 e.2 _
        (hok e (by simp)).1 (hok e (by simp)).2]
      rw [fmSet_append acc e.1 _ (fun kv hkv => hacc e (by simp) kv hkv)]
      rw [ih fuel _ (by simpa using hfuel)
        (fun x hx => hok x (by simp [hx]))
        (by simpa using hnodup.of_cons)
        ?_]
      · simp
      · intro x hx kv hkv
        rcases List.mem_append.mp hkv with h | h
        · exact hacc x (by simp [hx]) kv h
        · simp at h
          rw [h]
          intro hh
          have hh2 : e.1 = x.1 := hh
          rw [List.map_cons, List.nodup_cons] at hnodup
          refine hnodup.1 ?_
          rw [hh2]
          exact List.mem_map_of_mem (·.1) hx

/-- An indented word-keyed line is not an array opener. -/
theorem isArrayStart_word (c : Char) (R : Str) (hw : isWordCh c = true) :
    isArrayStart (' ' :: ' ' :: c :: R) = false := by
  obtain ⟨hws, hcd, _⟩ := isWordCh_facts hw
  have hsp : isWs ' ' = true := by decide
  have hdw : List.dropWhile isWs (' ' :: ' ' :: c :: R) = c :: R := by
    simp [List.dropWhile_cons, hsp, hws]
  simp only [isArrayStart, hdw]
  have hmatch : (match c :: R with
      | '-' :: c2 :: _ => isWs c2
      | _ => false) = false := by
    split
    · rename_i c2 rest2 heq
      injection heq with hh _
      exact absurd hh hcd
    · rfl
  simp [hmatch]

/-- An indented word-keyed line is an object opener. -/
theorem isObjStart_nested (e1 e2 : Str) (hne : e1 ≠ [])
    (hall : e1.all isWordCh = true) :
    isObjStart (str "  " ++ e1 ++ str ": " ++ e2) = true := by
  obtain ⟨c1, cs1, hecons⟩ : ∃ c cs, e1 = c :: cs := by
    cases e1 with
    | nil => exact absurd rfl hne
    | cons c cs => exact ⟨c, cs, rfl⟩
  have hallm := hall
  rw [List.all_eq_true] at hallm
  have hew : isWordCh c1 = true := hallm c1 (by rw [hecons]; simp)
  obtain ⟨hws1, _, _⟩ := isWordCh_facts hew
  have hsp : isWs ' ' = true := by decide
  have hwc : isWordCh ':' = false := by decide
  have hdw : List.dropWhile isWs (str "  " ++ e1 ++ str ": " ++ e2)
      = (e1 ++ str ": ") ++ e2 := by
    rw [hecons]
    show List.dropWhile isWs
      (' ' :: ' ' :: (c1 :: ((cs1 ++ str ": ") ++ e2))) = _
    simp [List.dropWhile_cons, hsp, hws1]
  have hind : indentOf (str "  " ++ e1 ++ str ": " ++ e2) = 2 := by
    rw [hecons]
    show indentOf (' ' :: ' ' :: (c1 :: ((cs1 ++ str ": ") ++ e2))) = 2
    unfold indentOf
    simp [List.takeWhile_cons, hsp, hws1]
  have htw : ((e1 ++ str ": ") ++ e2).takeWhile isWordCh = e1 := by
    rw [List.append_assoc, takeWhile_append_all isWordCh e1 _ hallm]
    rw [show (str ": " ++ e2).takeWhile isWordCh = [] from by
      show ((':' :: ' ' :: e2).takeWhile isWordCh) = []
      simp [List.takeWhile_cons, hwc]]
    simp
  have hdw2 : ((e1 ++ str ": ") ++ e2).dropWhile isWordCh
      = ':' :: ' ' :: e2 := by
    rw [List.append_assoc, dropWhile_append_all isWordCh e1 _ hallm]
    show (':' :: ' ' :: e2).dropWhile isWordCh = _
    simp [List.dropWhile_cons, hwc]
  simp only [isObjStart, hdw, htw, hdw2, hind]
  simp [leads, hne]

/-- One nested-object step of the yaml parser: a bare key line followed by
twice-indented scalar lines, then lines of a following top-level entry or
nothing. -/
theorem parseYamlGo_obj_step (fuel : Nat) (acc : Fm) (k : Str)
    (inner : List (Str × Str)) (rest : List Str)
    (hk : keySafe k = true) (hinner_ne : inner ≠ [])
    (hinner : ∀ e ∈ inner, wordKey e.1 = true ∧ lineTxtOk e.2 = true)
    (hkeys : (inner.map (·.1)).Nodup)
    (hfuel : inner.length ≤ fuel)
    (hrest : ∀ l, rest.head? = some l → jsTrim l ≠ [] ∧ indentOf l = 0) :
    parseYamlGo (fuel + 1) acc
      ((k ++ [':'])
        :: (inner.map (fun e => str "  " ++ e.1 ++ str ": " ++ e.2) ++ rest))
      = parseYamlGo fuel
        (fmSet acc k (.vObj (inner.map (fun e => (e.1, parseYamlValue e.2)))))
        rest := by
  obtain ⟨c, cs, hkcons, hkws⟩ := keySafe_head hk
  have hblank : jsTrim (k ++ [':']) ≠ [] := by
    rw [hkcons]
    exact jsTrim_ne_nil (by simp) hkws
  have hind : ∀ e ∈ inner,
      indentOf (str "  " ++ e.1 ++ str ": " ++ e.2) = 2 := by
    intro e he
    obtain ⟨hks, c1, cs1, hecons, hew⟩ := wordKey_facts (hinner e he).1
    obtain ⟨hws1, _, _⟩ := isWordCh_facts hew
    have hsp : isWs ' ' = true := by decide
    rw [hecons]
    show indentOf (' ' :: ' ' :: (c1 :: ((cs1 ++ str ": ") ++ e.2))) = 2
    unfold indentOf
    simp [List.takeWhile_cons, hsp, hws1]
  cases inner with
  | nil => exact absurd rfl hinner_ne
  | cons e0 es =>
    have hw0 := (hinner e0 (by simp)).1
    obtain ⟨hks0, c1, cs1, hecons, hew⟩ := wordKey_facts hw0
    have hobj : isObjStart (str "  " ++ e0.1 ++ str ": " ++ e0.2) = true := by
      apply isObjStart_nested
      · rw [hecons]; simp
      · unfold wordKey at hw0
        simp only [Bool.and_eq_true] at hw0
        exact hw0.2
    have harr : isArrayStart (str "  " ++ e0.1 ++ str ": " ++ e0.2)
        = false := by
      rw [hecons]
      show isArrayStart
        (' ' :: ' ' :: (c1 :: ((cs1 ++ str ": ") ++ e0.2))) = false
      exact isArrayStart_word c1 _ hew
    have hi0 : indentOf (str "  " ++ e0.1 ++ str ": " ++ e0.2) = 2 :=
      hind e0 (by simp)
    rw [parseYamlGo, if_neg hblank, parseKV_keyOnly k hk]
    dsimp only
    rw [if_pos rfl]
    dsimp only [List.map_cons, List.cons_append, List.head?_cons]
    rw [if_neg (by rw [harr]; simp), if_pos hobj, hi0]
    have htake : List.takeWhile
          (fun l => decide (jsTrim l = [] ∨ 2 ≤ indentOf l))
          ((str "  " ++ e0.1 ++ str ": " ++ e0.2)
            :: (es.map (fun e => str "  " ++ e.1 ++ str ": " ++ e.2) ++ rest))
        = (str "  " ++ e0.1 ++ str ": " ++ e0.2)
          :: es.map (fun e => str "  " ++ e.1 ++ str ": " ++ e.2) := by
      rw [show ((str "  " ++ e0.1 ++ str ": " ++ e0.2)
          :: (es.map (fun e => str "  " ++ e.1 ++ str ": " ++ e.2) ++ rest))
        = (((e0 :: es).map (fun e => str "  " ++ e.1 ++ str ": " ++ e.2))
          ++ rest) from by simp]
      rw [takeWhile_append_all]
      · rw [takeWhile_eq_nil_of_head]
        · simp
        · intro x hx
          obtain ⟨hb, hz⟩ := hrest x hx
          show decide (jsTrim x = [] ∨ 2 ≤ indentOf x) = false
          rw [decide_eq_false_iff_not]
          rintro (h | h)
          · exact hb h
          · omega
      · intro x hx
        obtain ⟨e, he, hfe⟩ := List.mem_map.mp hx
        show decide (jsTrim x = [] ∨ 2 ≤ indentOf x) = true
        rw [← hfe, decide_eq_true_eq]
        refine Or.inr ?_
        rw [hind e he]
    have hdrop : List.dropWhile
          (fun l => decide (jsTrim l = [] ∨ 2 ≤ indentOf l))
          ((str "  " ++ e0.1 ++ str ": " ++ e0.2)
            :: (es.map (fun e => str "  " ++ e.1 ++ str ": " ++ e.2) ++ rest))
        = rest := by
      rw [show ((str "  " ++ e0.1 ++ str ": " ++ e0.2)
          :: (es.map (fun e => str "  " ++ e.1 ++ str ": " ++ e.2) ++ rest))
        = (((e0 :: es).map (fun e => str "  " ++ e.1 ++ str ": " ++ e.2))
          ++ rest) from by simp]
      rw [dropWhile_append_all]
      · rw [dropWhile_eq_self_of_head]
        intro x hx
        obtain ⟨hb, hz⟩ := hrest x hx
        show decide (jsTrim x = [] ∨ 2 ≤ indentOf x) = false
        rw [decide_eq_false_iff_not]
        rintro (h | h)
        · exact hb h
        · omega
      · intro x hx
        obtain ⟨e, he, hfe⟩ := List.mem_map.mp hx
        show decide (jsTrim x = [] ∨ 2 ≤ indentOf x) = true
        rw [← hfe, decide_eq_true_eq]
        refine Or.inr ?_
        rw [hind e he]
    rw [htake, hdrop]
    have hmapdrop : (((str "  " ++ e0.1 ++ str ": " ++ e0.2)
          :: es.map (fun e => str "  " ++ e.1 ++ str ": " ++ e.2)).map
            (fun l => l.drop 2))
        = (e0 :: es).map (fun e => e.1 ++ str ": " ++ e.2) := by
      rw [show ((str "  " ++ e0.1 ++ str ": " ++ e0.2)
          :: es.map (fun e => str "  " ++ e.1 ++ str ": " ++ e.2))
        = ((e0 :: es).map (fun e => str "  " ++ e.1 ++ str ": " ++ e.2))
        from by simp]
      rw [List.map_map]
      apply List.map_congr_left
      intro a _
      rfl
    rw [hmapdrop]
    rw [parseYamlGo_scalarLines (e0 :: es) fuel [] hfuel
      (fun e he => ⟨(wordKey_facts (hinner e he).1).1, (hinner e he).2⟩)
      hkeys (by simp)]
    rw [List.nil_append, List.map_cons]

/-- A plan always stands for at least one line. -/
theorem planLines_ne_nil (p : EntryPlan) : planLines p ≠ [] := by
  cases p <;> simp [planLines]

/-- The first line of a well-formed plan is a top-level non-blank line. -/
theorem planLines_head (p : EntryPlan) (hwf : planWf p) :
    ∀ l, (planLines p).head? = some l → jsTrim l ≠ [] ∧ indentOf l = 0 := by
  cases p with
  | scalar k txt =>
    intro l hl
    obtain ⟨hks, _⟩ := hwf
    simp only [planLines, List.head?_cons, Option.some.injEq] at hl
    obtain ⟨c, cs, hcons, hws⟩ := keySafe_head hks
    constructor
    · rw [← hl, hcons]
      exact jsTrim_ne_nil (by simp) hws
    · rw [← hl, hcons]
      show indentOf (c :: ((cs ++ str ": ") ++ txt)) = 0
      unfold indentOf
      simp [List.takeWhile_cons, hws]
  | objE k inner =>
    intro l hl
    obtain ⟨hks, _, _, _⟩ := hwf
    simp only [planLines, List.head?_cons, Option.some.injEq] at hl
    obtain ⟨c, cs, hcons, hws⟩ := keySafe_head hks
    constructor
    · rw [← hl, hcons]
      exact jsTrim_ne_nil (by simp) hws
    · rw [← hl, hcons]
      show indentOf (c :: (cs ++ [':'])) = 0
      unfold indentOf
      simp [List.takeWhile_cons, hws]

/-- The head of the lines of a plan list comes from its first plan. -/
theorem flatMap_planLines_head (ps : List EntryPlan) (l : Str)
    (h : (ps.flatMap planLines).head? = some l) :
    ∃ p ∈ ps, (planLines p).head? = some l := by
  cases ps with
  | nil => simp at h
  | cons p ps' =>
    rw [List.flatMap_cons] at h
    cases hpl : planLines p with
    | nil => exact absurd hpl (planLines_ne_nil p)
    | cons x xs =>
      rw [hpl] at h
      simp only [List.cons_append, List.head?_cons, Option.some.injEq] at h
      exact ⟨p, by simp, by rw [hpl, ← h]; rfl⟩

/-- Assembling a block of well-formed plans: the parser recovers exactly the
planned entries in order. -/
theorem parseYamlGo_plans (plans : List EntryPlan) :
    ∀ (fuel : Nat) (acc : Fm),
    (plans.flatMap planLines).length ≤ fuel →
    (∀ p ∈ plans, planWf p) →
    (plans.map (fun p => (planKV p).1)).Nodup →
    (∀ p ∈ plans, ∀ kv ∈ acc, kv.1 ≠ (planKV p).1) →
    parseYamlGo fuel acc (plans.flatMap planLines)
      = acc ++ plans.map planKV := by
  induction plans with
  | nil =>
    intro fuel acc _ _ _ _
    cases fuel <;> simp [parseYamlGo]
  | cons p ps ih =>
    intro fuel acc hfuel hwf hnodup hacc
    have hrest : ∀ l, (ps.flatMap planLines).head? = some l →
        jsTrim l ≠ [] ∧ indentOf l = 0 := by
      intro l hl
      obtain ⟨p', hp', hh⟩ := flatMap_planLines_head ps l hl
      exact planLines_head p' (hwf p' (by simp [hp'])) l hh
    rw [List.flatMap_cons]
    cases p with
    | scalar k txt =>
      obtain ⟨hks, hltxt⟩ := hwf (.scalar k txt) (by simp)
      cases fuel with
      | zero =>
        rw [List.flatMap_cons] at hfuel
        simp [planLines] at hfuel
      | succ fuel =>
        rw [show planLines (.scalar k txt) ++ ps.flatMap planLines
            = (k ++ str ": " ++ txt) :: ps.flatMap planLines from rfl]
        rw [parseYamlGo_scalar_step fuel acc k txt _ hks hltxt]
        rw [fmSet_append acc k _
          (fun kv hkv => hacc (.scalar k txt) (by simp) kv hkv)]
        rw [ih fuel _ ?hf ?hw ?hn ?ha]
        · simp [planKV]
        case hf =>
          rw [List.flatMap_cons] at hfuel
          simp only [planLines, List.singleton_append, List.length_cons]
            at hfuel
          omega
        case hw => exact fun x hx => hwf x (by simp [hx])
        case hn =>
          rw [List.map_cons, List.nodup_cons] at hnodup
          exact hnodup.2
        case ha =>
          intro x hx kv hkv
          rcases List.mem_append.mp hkv with hm | hm
          · exact hacc x (by simp [hx]) kv hm
          · simp at hm
            rw [hm]
            show k ≠ (planKV x).1
            intro hh
            rw [List.map_cons, List.nodup_cons] at hnodup
            refine hnodup.1 ?_
            rw [show (planKV (.scalar k txt)).1 = k from rfl, hh]
            exact List.mem_map_of_mem (fun q => (planKV q).1) hx
    | objE k inner =>
      obtain ⟨hks, hine, hinw, hinn⟩ := hwf (.objE k inner) (by simp)
      cases fuel with
      | zero =>
        rw [List.flatMap_cons] at hfuel
        simp [planLines] at hfuel
      | succ fuel =>
        rw [show planLines (.objE k inner) ++ ps.flatMap planLines
            = (k ++ [':'])
              :: (inner.map (fun e => str "  " ++ e.1 ++ str ": " ++ e.2)
                ++ ps.flatMap planLines) from by simp [planLines]]
        rw [parseYamlGo_obj_step fuel acc k inner _ hks hine hinw hinn
          ?hfu hrest]
        rw [fmSet_append acc k _
          (fun kv hkv => hacc (.objE k inner) (by simp) kv hkv)]
        rw [ih fuel _ ?hf ?hw ?hn ?ha]
        · simp [planKV]
        case hfu =>
          rw [List.flatMap_cons] at hfuel
          simp only [planLines, List.length_cons, List.length_append,
            List.length_map] at hfuel
          omega
        case hf =>
          rw [List.flatMap_cons] at hfuel
          simp only [planLines, List.length_cons, List.length_append,
            List.length_map] at hfuel
          omega
        case hw => exact fun x hx => hwf x (by simp [hx])
        case hn =>
          rw [List.map_cons, List.nodup_cons] at hnodup
          exact hnodup.2
        case ha =>
          intro x hx kv hkv
          rcases List.mem_append.mp hkv with hm | hm
          · exact hacc x (by simp [hx]) kv hm
          · simp at hm
            rw [hm]
            show k ≠ (planKV x).1
            intro hh
            rw [List.map_cons, List.nodup_cons] at hnodup
            refine hnodup.1 ?_
            rw [show (planKV (.objE k inner)).1 = k from rfl, hh]
            exact List.mem_map_of_mem (fun q => (planKV q).1) hx

/-- Flattening a list of singletons is a map. -/
theorem flatten_singletons {α β : Type} (l : List α) (g : α → List β) :
    (l.map (fun x => [g x])).flatten = l.map g := by
  induction l with
  | nil => rfl
  | cons a t ih => simp [ih]

/-- `planOfEntry` keeps the key. -/
theorem planKV_ofEntry_key (e : Str × YValue) :
    (planKV (planOfEntry e)).1 = e.1 := by
  obtain ⟨k, v⟩ := e
  cases v <;> rfl

/-- A well-formed entry yields a well-formed plan. -/
theorem planWf_ofEntry (e : Str × YValue) (h : entryWf e) :
    planWf (planOfEntry e) := by
  obtain ⟨k, v⟩ := e
  cases v with
  | vObj fields =>
    obtain ⟨h1, h2, h3, h4⟩ := h
    refine ⟨h1, by simpa using h2, ?_, by simpa using h4⟩
    intro e2 he2
    obtain ⟨kv, hkv, hmap⟩ := List.mem_map.mp he2
    rw [← hmap]
    exact ⟨(h3 kv hkv).1, lineTxtOk_scalarText kv.2 (h3 kv hkv).2⟩
  | vStr s => exact ⟨h.1, lineTxtOk_scalarText _ h.2⟩
  | vInt n => exact ⟨h.1, lineTxtOk_scalarText _ h.2⟩
  | vBool b => exact ⟨h.1, lineTxtOk_scalarText _ h.2⟩
  | vNull => exact ⟨h.1, lineTxtOk_scalarText _ h.2⟩
  | vFloat raw => exact absurd h.2 (by simp [scalarSafe])
  | vArr xs => exact absurd h.2 (by simp [scalarSafe])

/-- A well-formed entry is recovered by parsing its plan. -/
theorem planKV_ofEntry (e : Str × YValue) (h : entryWf e) :
    planKV (planOfEntry e) = e := by
  obtain ⟨k, v⟩ := e
  cases v with
  | vObj fields =>
    obtain ⟨h1, h2, h3, h4⟩ := h
    show (k, YValue.vObj ((fields.map
      (fun kv => (kv.1, scalarText kv.2))).map
        (fun e2 => (e2.1, parseYamlValue e2.2)))) = (k, .vObj fields)
    rw [List.map_map]
    have : fields.map ((fun e2 => (e2.1, parseYamlValue e2.2)) ∘
        (fun kv => (kv.1, scalarText kv.2))) = fields.map id := by
      apply List.map_congr_left
      intro kv hkv
      show (kv.1, parseYamlValue (scalarText kv.2)) = id kv
      rw [parseYamlValue_scalarText kv.2 (h3 kv hkv).2]
      rfl
    rw [this, List.map_id]

  | vStr s =>
    show (k, parseYamlValue (scalarText (.vStr s))) = (k, .vStr s)
    rw [parseYamlValue_scalarText _ h.2]
  | vInt n =>
    show (k, parseYamlValue (scalarText (.vInt n))) = (k, .vInt n)
    rw [parseYamlValue_scalarText _ h.2]
  | vBool b =>
    show (k, parseYamlValue (scalarText (.vBool b))) = (k, .vBool b)
    rw [parseYamlValue_scalarText _ h.2]
  | vNull =>
    show (k, parseYamlValue (scalarText .vNull)) = (k, .vNull)
    rw [parseYamlValue_scalarText _ h.2]
  | vFloat raw => exact absurd h.2 (by simp [scalarSafe])
  | vArr xs => exact absurd h.2 (by simp [scalarSafe])

/-- A scalar entry at nesting depth one serializes to its single indented
line. -/
theorem serializeEntry_scalar_indent1 (fuel : Nat) (flag : Bool) (k0 : Str)
    (v0 : YValue) (h : scalarSafe v0 = true) :
    serializeEntry (fuel + 1) flag 1 k0 v0
      = [str "  " ++ k0 ++ str ": " ++ scalarText v0] := by
  cases v0 with
  | vStr s =>
    by_cases hq : needsQuote s
    · show (if needsQuote s then _ else _) = _
      rw [if_pos hq, show scalarText (.vStr s) = jsonQuote s from by
        simp [scalarText, hq]]
      rfl
    · show (if needsQuote s then _ else _) = _
      rw [if_neg hq, show scalarText (.vStr s) = s from by
        simp [scalarText, hq]]
      rfl
  | vInt n => rfl
  | vBool b => cases b <;> rfl
  | vNull =>
    rw [show scalarText .vNull = str "null" from rfl,
      List.append_assoc (str "  " ++ k0)]
    rfl
  | vFloat raw => exact absurd h (by simp [scalarSafe])
  | vArr xs => exact absurd h (by simp [scalarSafe])
  | vObj f => exact absurd h (by simp [scalarSafe])

/-- A well-formed entry serializes exactly to its plan's lines (either
serializer; they differ only on object-valued array elements, which
well-formedness excludes). -/
theorem serializeEntry_plan (fuel : Nat) (flag : Bool) (k : Str) (v : YValue)
    (h : entryWf (k, v)) :
    serializeEntry (fuel + 2) flag 0 k v = planLines (planOfEntry (k, v)) := by
  cases v with
  | vStr s =>
    by_cases hq : needsQuote s
    · show (if needsQuote s then _ else _) = _
      rw [if_pos hq]
      show [k ++ str ": " ++ jsonQuote s] = [k ++ str ": " ++ scalarText (.vStr s)]
      rw [show scalarText (.vStr s) = jsonQuote s from by simp [scalarText, hq]]
    · show (if needsQuote s then _ else _) = _
      rw [if_neg hq]
      show [k ++ str ": " ++ s] = [k ++ str ": " ++ scalarText (.vStr s)]
      rw [show scalarText (.vStr s) = s from by simp [scalarText, hq]]
  | vInt n => rfl
  | vBool b => cases b <;> rfl
  | vNull =>
    rw [show planLines (planOfEntry (k, .vNull))
        = [k ++ str ": " ++ str "null"] from rfl,
      List.append_assoc k]
    rfl
  | vFloat raw => exact absurd h.2 (by simp [scalarSafe])
  | vArr xs => exact absurd h.2 (by simp [scalarSafe])
  | vObj fields =>
    obtain ⟨h1, h2, h3, h4⟩ := h
    show (pad 0 ++ k ++ [':'])
        :: (fields.map (fun kv =>
          serializeEntry (fuel + 1) flag 1 kv.1 kv.2)).flatten
      = (k ++ [':'])
        :: (fields.map (fun kv => (kv.1, scalarText kv.2))).map
          (fun e => str "  " ++ e.1 ++ str ": " ++ e.2)
    congr 1
    have hmap : fields.map (fun kv =>
        serializeEntry (fuel + 1) flag 1 kv.1 kv.2)
        = fields.map (fun kv =>
          [str "  " ++ kv.1 ++ str ": " ++ scalarText kv.2]) := by
      apply List.map_congr_left
      intro kv hkv
      exact serializeEntry_scalar_indent1 fuel flag kv.1 kv.2 (h3 kv hkv).2
    rw [hmap, flatten_singletons fields
      (fun kv => str "  " ++ kv.1 ++ str ": " ++ scalarText kv.2),
      List.map_map]
    apply List.map_congr_left
    intro kv _
    rfl

/-- The serialized entries of a well-formed frontmatter are its plans'
lines. -/
theorem serializeEntries_plan (fuel : Nat) (flag : Bool) (fm : Fm)
    (h : ∀ e ∈ fm, entryWf e) :
    serializeEntries (fuel + 2) flag 0 fm
      = (fm.map planOfEntry).flatMap planLines := by
  induction fm with
  | nil => rfl
  | cons e t ih =>
    obtain ⟨k, v⟩ := e
    unfold serializeEntries
    rw [List.map_cons, List.flatten_cons, List.map_cons, List.flatMap_cons,
      serializeEntry_plan fuel flag k v (h (k, v) (by simp))]
    congr 1
    exact ih (fun x hx => h x (by simp [hx]))

/-- The lines of a well-formed plan are newline-free and never a bare
fence. -/
theorem planLines_ok (p : EntryPlan) (hwf : planWf p) :
    ∀ l ∈ planLines p, ('\n' : Char) ∉ l ∧ l ≠ str "---" := by
  have hdash : ∀ (a : Str) (b : Str), (':' : Char) ∈ b →
      a ++ b ≠ str "---" := by
    intro a b hcb heq
    have : (':' : Char) ∈ str "---" := by
      rw [← heq]
      exact List.mem_append.mpr (Or.inr hcb)
    exact absurd this (by decide)
  cases p with
  | scalar k txt =>
    intro l hl
    obtain ⟨hks, hltxt⟩ := hwf
    obtain ⟨_, _, _, hknl⟩ := keySafe_facts hks
    obtain ⟨_, _, htnl⟩ := lineTxtOk_facts hltxt
    simp only [planLines, List.mem_singleton] at hl
    subst hl
    constructor
    · intro hmem
      rcases List.mem_append.mp hmem with hm | hm
      · rcases List.mem_append.mp hm with hm2 | hm2
        · exact hknl hm2
        · exact absurd hm2 (by decide)
      · exact htnl hm
    · rw [List.append_assoc]
      exact hdash k _ (by simp [str])
  | objE k inner =>
    intro l hl
    obtain ⟨hks, _, hinw, _⟩ := hwf
    obtain ⟨_, _, _, hknl⟩ := keySafe_facts hks
    simp only [planLines, List.mem_cons] at hl
    rcases hl with hl | hl
    · subst hl
      constructor
      · intro hmem
        rcases List.mem_append.mp hmem with hm | hm
        · exact hknl hm
        · exact absurd hm (by decide)
      · exact hdash k _ (by simp)
    · obtain ⟨e, he, hfe⟩ := List.mem_map.mp hl
      obtain ⟨hek, _⟩ := wordKey_facts (hinw e he).1
      obtain ⟨_, _, _, heknl⟩ := keySafe_facts hek
      obtain ⟨_, _, htnl⟩ := lineTxtOk_facts (hinw e he).2
      rw [← hfe]
      constructor
      · intro hmem
        rcases List.mem_append.mp hmem with hm | hm
        · rcases List.mem_append.mp hm with hm2 | hm2
          · rcases List.mem_append.mp hm2 with hm3 | hm3
            · exact absurd hm3 (by decide)
            · exact heknl hm3
          · exact absurd hm2 (by decide)
        · exact htnl hm
      · rw [List.append_assoc]
        exact hdash _ _ (by simp [str])

/-- The lines of a nonempty plan list are nonempty. -/
theorem flatMap_planLines_ne_nil (ps : List EntryPlan) (h : ps ≠ []) :
    ps.flatMap planLines ≠ [] := by
  cases ps with
  | nil => exact absurd rfl h
  | cons p t =>
    rw [List.flatMap_cons]
    intro heq
    rcases List.append_eq_nil.mp heq with ⟨h1, _⟩
    exact planLines_ne_nil p h1

/-- Parsing the serialization of a well-formed frontmatter with a
trim-stable body recovers the frontmatter and the body exactly: the round
trip of the file encoding under the side conditions it needs. -/
theorem parseMarkdownString_serialize (fm : Fm) (body : Str) (fuel : Nat)
    (flag : Bool) (h : ∀ e ∈ fm, entryWf e)
    (hkeys : (fm.map (·.1)).Nodup) (hne : fm ≠ [])
    (hbody : jsTrim body = body) :
    parseMarkdownString (str "---\n" ++ serializeYamlStr (fuel + 2) flag 0 fm
      ++ str "---\n\n" ++ body) = ⟨fm, body⟩ := by
  have hplan := serializeEntries_plan fuel flag fm h
  have hwfs : ∀ p ∈ fm.map planOfEntry, planWf p := by
    intro p hp
    obtain ⟨e, he, hfe⟩ := List.mem_map.mp hp
    rw [← hfe]
    exact planWf_ofEntry e (h e he)
  have hlok : ∀ l ∈ (fm.map planOfEntry).flatMap planLines,
      ('\n' : Char) ∉ l ∧ l ≠ str "---" := by
    intro l hl
    obtain ⟨p, hp, hlp⟩ := List.mem_flatMap.mp hl
    exact planLines_ok p (hwfs p hp) l hlp
  have hlne : (fm.map planOfEntry).flatMap planLines ≠ [] :=
    flatMap_planLines_ne_nil _ (by simpa using hne)
  have hshape : str "---\n" ++ serializeYamlStr (fuel + 2) flag 0 fm
      ++ str "---\n\n" ++ body
      = str "---\n" ++ joinNl ((fm.map planOfEntry).flatMap planLines)
        ++ str "\n---\n" ++ '\n' :: body := by
    unfold serializeYamlStr
    rw [hplan]
    simp only [List.append_assoc, List.cons_append, List.nil_append]
    rfl
  rw [hshape, parseMarkdownString_shape _ body hlne hlok]
  rw [parseYamlGo_plans (fm.map planOfEntry)
    (((fm.map planOfEntry).flatMap planLines).length + 1) [] (by omega)
    hwfs ?hn (fun p hp kv hkv => absurd hkv (List.not_mem_nil kv))]
  · rw [hbody, List.nil_append]
    congr 1
    have : (fm.map planOfEntry).map planKV = fm.map id := by
      rw [List.map_map]
      apply List.map_congr_left
      intro e he
      exact planKV_ofEntry e (h e he)
    rw [this, List.map_id]
  case hn =>
    have : (fm.map planOfEntry).map (fun p => (planKV p).1)
        = fm.map (·.1) := by
      rw [List.map_map]
      apply List.map_congr_left
      intro e _
      exact planKV_ofEntry_key e
    rw [this]
    exact hkeys

/-- C6: counterexample.  For the item with title `"42"` and body `"x\n"`,
parsing the serialization neither preserves the body (it comes back
trimmed to `"x"`) nor the declared `title` field (it comes back as the
number 42, not the string `"42"`). -/
theorem c6_counterexample_trailing_newline_and_numeric_title :
    (parseMarkdownString (serializeItemToMarkdown exHash exNow
        ⟨str "PVTI_item1", str "42", str "x\n", none, str "DraftIssue",
          some (str "DI_x")⟩ exCtx)).body
      ≠ str "x\n" ∧
    fmGet (parseMarkdownString (serializeItemToMarkdown exHash exNow
        ⟨str "PVTI_item1", str "42", str "x\n", none, str "DraftIssue",
          some (str "DI_x")⟩ exCtx)).fm (str "title")
      = some (.vInt 42) ∧
    fmGet (parseMarkdownString (serializeItemToMarkdown exHash exNow
        ⟨str "PVTI_item1", str "42", str "x\n", none, str "DraftIssue",
          some (str "DI_x")⟩ exCtx)).fm (str "title")
      ≠ some (.vStr (str "42")) := by
  refine ⟨?_, rfl, ?_⟩
  · have hb : (parseMarkdownString (serializeItemToMarkdown exHash exNow
        ⟨str "PVTI_item1", str "42", str "x\n", none, str "DraftIssue",
          some (str "DI_x")⟩ exCtx)).body = str "x" := by rfl
    rw [hb]
    decide
  · have ht : fmGet (parseMarkdownString (serializeItemToMarkdown exHash exNow
        ⟨str "PVTI_item1", str "42", str "x\n", none, str "DraftIssue",
          some (str "DI_x")⟩ exCtx)).fm (str "title") = some (.vInt 42) := rfl
    rw [ht]
    intro h
    injection h with h2
    exact YValue.noConfusion h2

/-- C6 (amended): round trip of the file encoding.  For every item whose
body is trim-stable and whose string fields (id, project ids, title,
status, content kind and id, the timestamp and the checksum) either get
JSON-quoted or are safe plain scalars, parsing the serialization yields
exactly the declared frontmatter object and the body unchanged: every
declared metadata field is preserved with its value. -/
theorem c6_amended_round_trip_preserves_item (hash : Str → Str) (now : Str)
    (item : ProjectItem) (ctx : ProjectContext)
    (hid : strValueSafe item.id = true)
    (hpid : strValueSafe ctx.projectId = true)
    (hpo : strValueSafe ctx.projectOwner = true)
    (htitle : strValueSafe item.title = true)
    (hstatus : ∀ s, item.status = some s → strValueSafe s = true)
    (hct : strValueSafe item.contentType = true)
    (hcid : ∀ s, item.contentId = some s → strValueSafe s = true)
    (hnow : strValueSafe now = true)
    (hhash : strValueSafe (hash item.body) = true)
    (hbody : jsTrim item.body = item.body) :
    parseMarkdownString (serializeItemToMarkdown hash now item ctx)
      = ⟨itemFm hash now item ctx, item.body⟩ := by
  unfold serializeItemToMarkdown serializeYamlMd
  refine parseMarkdownString_serialize (itemFm hash now item ctx) item.body 1
    true ?hw ?hk ?hne hbody
  case hw =>
    intro e he
    unfold itemFm at he
    simp only [List.mem_cons, List.not_mem_nil, or_false] at he
    rcases he with he | he | he | he | he | he | he | he | he | he <;>
      subst he
    · exact ⟨by decide, hid⟩
    · exact ⟨by decide, hpid⟩
    · exact ⟨by decide, hpo⟩
    · exact ⟨by decide, rfl⟩
    · exact ⟨by decide, htitle⟩
    · cases hst : item.status with
      | none => exact ⟨by decide, rfl⟩
      | some s => exact ⟨by decide, hstatus s hst⟩
    · exact ⟨by decide, hct⟩
    · cases hci : item.contentId with
      | none => exact ⟨by decide, rfl⟩
      | some s => exact ⟨by decide, hcid s hci⟩
    · exact ⟨by decide, rfl⟩
    · refine ⟨by decide, by simp, ?_, ?_⟩
      · intro e2 he2
        simp only [List.mem_cons, List.not_mem_nil, or_false] at he2
        rcases he2 with he2 | he2 <;> subst he2
        · exact ⟨(by decide : wordKey (str "remote_updated_at") = true), hnow⟩
        · exact ⟨(by decide : wordKey (str "local_checksum") = true), hhash⟩
      · have hred : List.map (fun x => x.1)
            [(str "remote_updated_at", YValue.vStr now),
             (str "local_checksum", YValue.vStr (hash item.body))]
            = [str "remote_updated_at", str "local_checksum"] := rfl
        rw [hred]
        decide
  case hk =>
    have hred : List.map (fun x => x.1) (itemFm hash now item ctx)
        = [str "id", str "project_id", str "project_owner",
           str "project_number", str "title", str "status",
           str "content_type", str "content_id", str "deleted",
           str "_sync"] := rfl
    rw [hred]
    decide
  case hne => simp [itemFm]

/-- C6 witness: the amended round trip at a concrete item. -/
theorem c6_amended_round_trip_preserves_item_witness :
    parseMarkdownString (serializeItemToMarkdown exHash exNow
        ⟨str "PVTI_1", str "Test Item", str "A body.", some (str "Todo"),
          str "DraftIssue", some (str "DI_1")⟩ exCtx)
      = ⟨itemFm exHash exNow
          ⟨str "PVTI_1", str "Test Item", str "A body.", some (str "Todo"),
            str "DraftIssue", some (str "DI_1")⟩ exCtx,
         str "A body."⟩ :=
  c6_amended_round_trip_preserves_item exHash exNow
    ⟨str "PVTI_1", str "Test Item", str "A body.", some (str "Todo"),
      str "DraftIssue", some (str "DI_1")⟩ exCtx
    (by decide) (by decide) (by decide) (by decide)
    (by intro s hs; cases hs; decide) (by decide)
    (by intro s hs; cases hs; decide) (by decide) (by decide) (by decide)

/-- Strict equality against a string value holds only for that string. -/
theorem jsEq_vStr_iff (a : YValue) (s : Str) :
    jsEq a (.vStr s) = true ↔ a = .vStr s := by
  cases a with
  | vStr x => simp [jsEq]
  | vInt n => simp [jsEq, numVal]
  | vFloat raw =>
    cases hnv : numVal (.vFloat raw) <;> simp [jsEq, hnv, numVal]
  | vBool b => simp [jsEq]
  | vNull => simp [jsEq]
  | vArr xs => simp [jsEq]
  | vObj fi => simp [jsEq]

/-- Strict equality with a string value on the left holds only against that
string. -/
theorem jsEq_vStr_left (s : Str) (v : YValue) :
    jsEq (.vStr s) v = true ↔ v = .vStr s := by
  cases v with
  | vStr x =>
    simp only [jsEq, beq_iff_eq, YValue.vStr.injEq]
    exact eq_comm
  | vInt n => simp [jsEq]
  | vFloat raw => simp [jsEq]
  | vBool b => simp [jsEq]
  | vNull => simp [jsEq]
  | vArr xs => simp [jsEq]
  | vObj fi => simp [jsEq]

/-- Truthiness of a string value. -/
theorem truthy_vStr (s : Str) (h : s ≠ []) : truthy (.vStr s) = true := by
  simp [truthy, h]

/-- Where the members of a `mapSet` result come from. -/
theorem mem_mapSet (m : List (YValue × Str)) (k : YValue) (v : Str) :
    ∀ kv ∈ mapSet m k v, kv ∈ m ∨
      (∃ kv0 ∈ m, kv = (kv0.1, v) ∧ jsEq kv0.1 k = true) ∨ kv = (k, v) := by
  unfold mapSet
  split
  · intro kv hkv
    obtain ⟨kv0, hkv0, hmap⟩ := List.mem_map.mp hkv
    by_cases hj : jsEq kv0.1 k = true
    · right; left
      refine ⟨kv0, hkv0, ?_, hj⟩
      rw [← hmap, if_pos hj]
    · left
      rw [← hmap, if_neg hj]
      exact hkv0
  · intro kv hkv
    rcases List.mem_append.mp hkv with h | h
    · exact Or.inl h
    · right; right; simpa using h

/-- A fresh key appends to the end of the map. -/
theorem mapSet_append (m : List (YValue × Str)) (k : YValue) (v : Str)
    (h : ∀ kv ∈ m, jsEq kv.1 k = false) : mapSet m k v = m ++ [(k, v)] := by
  unfold mapSet
  rw [if_neg]
  simp only [List.any_eq_true]
  rintro ⟨kv, hkv, hj⟩
  rw [h kv hkv] at hj
  cases hj

/-- The named fold computes `buildLocalItemMap`. -/
theorem buildLocalItemMap_eq_foldl (fs : Files) (names : List Str) :
    buildLocalItemMap fs names = names.foldl (bstep fs) [] := rfl

/-- Decomposition of the local item map around a uniquely identified file:
the map holds exactly one entry whose value is that file, keyed by its
parsed id, and every other entry names a different file. -/
theorem buildLocalItemMap_main (fs : Files) (f c s : Str)
    (hfg : filesGet fs f = some c)
    (hid : fmGet (parseMarkdownString c).fm (str "id") = some (.vStr s))
    (hs : s ≠ []) :
    ∀ (names : List Str), names.Nodup → f ∈ names →
    (∀ g ∈ names, g ≠ f → ∀ cg, filesGet fs g = some cg →
      ∀ v, fmGet (parseMarkdownString cg).fm (str "id") = some v →
        truthy v = true → jsEq v (.vStr s) = false) →
    ∃ A B, buildLocalItemMap fs names = A ++ (.vStr s, f) :: B ∧
      (∀ kv ∈ A, kv.2 ≠ f) ∧ (∀ kv ∈ B, kv.2 ≠ f) ∧
      (∀ kv ∈ A, jsEq kv.1 (.vStr s) = false) := by
  have hpre : ∀ (N : List Str) (m : List (YValue × Str)),
      (∀ g ∈ N, g ≠ f ∧ ∀ cg, filesGet fs g = some cg →
        ∀ v, fmGet (parseMarkdownString cg).fm (str "id") = some v →
          truthy v = true → jsEq v (.vStr s) = false) →
      (∀ kv ∈ m, kv.2 ≠ f ∧ jsEq kv.1 (.vStr s) = false) →
      (∀ kv ∈ N.foldl (bstep fs) m,
        kv.2 ≠ f ∧ jsEq kv.1 (.vStr s) = false) := by
    intro N
    induction N with
    | nil => intro m _ hm; exact hm
    | cons g t ih =>
      intro m hN hm
      rw [List.foldl_cons]
      refine ih _ (fun x hx => hN x (by simp [hx])) ?_
      intro kv hkv
      unfold bstep at hkv
      split at hkv
      · exact hm kv hkv
      · rename_i content hfg2
        split at hkv
        · rename_i idv hid2
          split at hkv
          · rename_i htr
            have hju : jsEq idv (.vStr s) = false :=
              (hN g (by simp)).2 content hfg2 idv hid2 htr
            rcases mem_mapSet m idv g kv hkv with h | ⟨kv0, hkv0, hkveq, _⟩ | h
            · exact hm kv h
            · rw [hkveq]
              exact ⟨(hN g (by simp)).1, (hm kv0 hkv0).2⟩
            · rw [h]
              exact ⟨(hN g (by simp)).1, hju⟩
          · exact hm kv hkv
        · exact hm kv hkv
  have hpost : ∀ (N : List Str) (m : List (YValue × Str)),
      (∀ g ∈ N, g ≠ f ∧ ∀ cg, filesGet fs g = some cg →
        ∀ v, fmGet (parseMarkdownString cg).fm (str "id") = some v →
          truthy v = true → jsEq v (.vStr s) = false) →
      (∃ A B, m = A ++ (.vStr s, f) :: B ∧
        (∀ kv ∈ A, kv.2 ≠ f) ∧ (∀ kv ∈ B, kv.2 ≠ f) ∧
        (∀ kv ∈ A, jsEq kv.1 (.vStr s) = false)) →
      (∃ A B, N.foldl (bstep fs) m = A ++ (.vStr s, f) :: B ∧
        (∀ kv ∈ A, kv.2 ≠ f) ∧ (∀ kv ∈ B, kv.2 ≠ f) ∧
        (∀ kv ∈ A, jsEq kv.1 (.vStr s) = false)) := by
    intro N
    induction N with
    | nil => intro m _ hm; exact hm
    | cons g t ih =>
      intro m hN hm
      rw [List.foldl_cons]
      refine ih _ (fun x hx => hN x (by simp [hx])) ?_
      obtain ⟨A, B, hmAB, hA, hB, hAk⟩ := hm
      unfold bstep
      split
      · exact ⟨A, B, hmAB, hA, hB, hAk⟩
      · rename_i content hfg2
        split
        · rename_i idv hid2
          split
          · rename_i htr
            have hju : jsEq idv (.vStr s) = false :=
              (hN g (by simp)).2 content hfg2 idv hid2 htr
            have hgf : g ≠ f := (hN g (by simp)).1
            unfold mapSet
            split
            · refine ⟨A.map (fun kv =>
                  if jsEq kv.1 idv then (kv.1, g) else kv),
                B.map (fun kv =>
                  if jsEq kv.1 idv then (kv.1, g) else kv), ?_, ?_, ?_, ?_⟩
              · rw [hmAB, List.map_append, List.map_cons]
                have hours : (if jsEq (YValue.vStr s) idv then
                    ((YValue.vStr s), g) else ((YValue.vStr s), f))
                    = ((YValue.vStr s), f) := by
                  rw [if_neg]
                  intro hj
                  rw [(jsEq_vStr_left s idv).mp hj] at hju
                  simp [jsEq] at hju
                rw [hours]
              · intro kv hkv
                obtain ⟨kv0, hkv0, hmap⟩ := List.mem_map.mp hkv
                rw [← hmap]
                split
                · exact hgf
                · exact hA kv0 hkv0
              · intro kv hkv
                obtain ⟨kv0, hkv0, hmap⟩ := List.mem_map.mp hkv
                rw [← hmap]
                split
                · exact hgf
                · exact hB kv0 hkv0
              · intro kv hkv
                obtain ⟨kv0, hkv0, hmap⟩ := List.mem_map.mp hkv
                rw [← hmap]
                split
                · exact hAk kv0 hkv0
                · exact hAk kv0 hkv0
            · refine ⟨A, B ++ [(idv, g)], ?_, hA, ?_, hAk⟩
              · rw [hmAB]
                simp
              · intro kv hkv
                rcases List.mem_append.mp hkv with h | h
                · exact hB kv h
                · simp at h
                  rw [h]
                  exact hgf
          · exact ⟨A, B, hmAB, hA, hB, hAk⟩
        · exact ⟨A, B, hmAB, hA, hB, hAk⟩
  intro names hnodup hmem huniq
  obtain ⟨N1, N2, hsplit⟩ := List.append_of_mem hmem
  subst hsplit
  have hf1 : f ∉ N1 := by
    intro hf
    rw [List.nodup_append] at hnodup
    exact hnodup.2.2 hf (by simp)
  have hf2 : f ∉ N2 := by
    rw [List.nodup_append] at hnodup
    have := hnodup.2.1
    rw [List.nodup_cons] at this
    exact this.1
  rw [buildLocalItemMap_eq_foldl, List.foldl_append, List.foldl_cons]
  have hm1 : ∀ kv ∈ N1.foldl (bstep fs) [], kv.2 ≠ f ∧
      jsEq kv.1 (.vStr s) = false := by
    refine hpre N1 [] ?_ (by simp)
    intro g hg
    refine ⟨fun hgf => hf1 (hgf ▸ hg), ?_⟩
    intro cg hfg2 v hid2 htr
    by_cases hgf : g = f
    · exact absurd (hgf ▸ hg) hf1
    · exact huniq g (by simp [hg]) hgf cg hfg2 v hid2 htr
  have hstepf : bstep fs (N1.foldl (bstep fs) []) f
      = (N1.foldl (bstep fs) []) ++ [(.vStr s, f)] := by
    unfold bstep
    rw [hfg]
    dsimp only
    rw [hid]
    dsimp only
    rw [if_pos (truthy_vStr s hs)]
    exact mapSet_append _ _ _ (fun kv hkv => (hm1 kv hkv).2)
  rw [hstepf]
  refine hpost N2 _ ?_ ⟨N1.foldl (bstep fs) [], [], rfl, ?_, by simp, ?_⟩
  · intro g hg
    refine ⟨fun hgf => hf2 (hgf ▸ hg), ?_⟩
    intro cg hfg2 v hid2 htr
    by_cases hgf : g = f
    · exact absurd (hgf ▸ hg) hf2
    · exact huniq g (by simp [hg]) hgf cg hfg2 v hid2 htr
  · exact fun kv hkv => (hm1 kv hkv).1
  · exact fun kv hkv => (hm1 kv hkv).2

/-- The name chosen by `getUniqueFilename` is never an existing name. -/
theorem getUniqueFilename_not_mem (base : Str) (used : List Str) :
    used.contains (getUniqueFilename base used) = false := by
  unfold getUniqueFilename
  cases hc : used.contains (base ++ str ".md") with
  | false =>
    exact hc
  | true =>
    rw [if_neg (by decide)]
    rw [range_map_add_two]
    have hex : ∃ k, 2 ≤ k ∧ k < 2 + (used.length + 1) ∧
        (!used.contains (suffixName base k)) = true := by
      obtain ⟨k, h1, h2, h3⟩ := exists_free_suffix base used
      exact ⟨k, h1, by omega, by rw [h3]; rfl⟩
    have hsome := find?_range'_isSome hex
    rcases Option.isSome_iff_exists.mp hsome with ⟨k, hfind⟩
    obtain ⟨_, _, hk3, _⟩ := find?_range'_some hfind
    rw [hfind, Option.getD_some]
    cases hcc : used.contains (suffixName base k)
    · rfl
    · rw [hcc] at hk3
      cases hk3

/-- A string ending in a fixed suffix passes `strEnds`. -/
theorem strEnds_append (suffix x : Str) : strEnds suffix (x ++ suffix) = true := by
  unfold strEnds
  rw [List.reverse_append]
  exact leads_append_self _ _

/-- The name chosen by `getUniqueFilename` ends in `.md`. -/
theorem getUniqueFilename_ends_md (base : Str) (used : List Str) :
    strEnds (str ".md") (getUniqueFilename base used) = true := by
  unfold getUniqueFilename
  split
  · exact strEnds_append _ _
  · exact strEnds_append (str ".md") _

/-- A successful read means membership. -/
theorem filesGet_mem (fs : Files) (g cg : Str)
    (h : filesGet fs g = some cg) : (g, cg) ∈ fs := by
  unfold filesGet at h
  cases hf : fs.find? (fun kv => kv.1 == g) with
  | none => rw [hf] at h; cases h
  | some kv0 =>
    rw [hf] at h
    have hmem := List.mem_of_find?_eq_some hf
    have hpred := List.find?_some hf
    simp only [beq_iff_eq] at hpred
    obtain ⟨a, b⟩ := kv0
    injection h with h2
    simp only at hpred h2
    rw [hpred, h2] at hmem
    exact hmem

/-- Writing any file preserves the existence of every file. -/
theorem filesGet_filesSet_isSome (fs : Files) (n c g : Str)
    (h : (filesGet fs g).isSome = true) :
    (filesGet (filesSet fs n c) g).isSome = true := by
  by_cases hg : n = g
  · rw [hg, filesGet_filesSet_self]
    rfl
  · rw [filesGet_filesSet_ne fs n c g hg]
    exact h

/-- `fmSet` preserves duplicate-free keys. -/
theorem fmSet_keys_nodup (m : Fm) (k : Str) (v : YValue)
    (h : (m.map (·.1)).Nodup) : ((fmSet m k v).map (·.1)).Nodup := by
  unfold fmSet
  split
  · rw [List.map_map]
    have : m.map ((·.1) ∘ (fun kv => if kv.1 == k then (k, v) else kv))
        = m.map (·.1) := by
      apply List.map_congr_left
      intro kv _
      show (if kv.1 == k then (k, v) else kv).1 = kv.1
      split
      · rename_i hj
        simp only [beq_iff_eq] at hj
        rw [hj]
      · rfl
    rw [this]
    exact h
  · rename_i hany
    rw [List.map_append]
    simp only [List.map_cons, List.map_nil]
    rw [List.nodup_append]
    refine ⟨h, by simp, ?_⟩
    intro a ha
    simp only [List.mem_singleton]
    intro hak
    obtain ⟨kv0, hkv0, hmap⟩ := List.mem_map.mp ha
    apply hany
    simp only [List.any_eq_true]
    refine ⟨kv0, hkv0, ?_⟩
    simp only [beq_iff_eq]
    rw [hmap, hak]

/-- The yaml parser builds an object without duplicate keys. -/
theorem parseYamlGo_keys_nodup (fuel : Nat) : ∀ (lines : List Str) (acc : Fm),
    (acc.map (·.1)).Nodup → ((parseYamlGo fuel acc lines).map (·.1)).Nodup := by
  induction fuel with
  | zero => intro lines acc h; exact h
  | succ fuel ih =>
    intro lines acc h
    cases lines with
    | nil => exact h
    | cons line rest =>
      rw [parseYamlGo]
      repeat' split
      all_goals first
        | exact ih _ _ h
        | exact ih _ _ (fmSet_keys_nodup _ _ _ h)
        | exact fmSet_keys_nodup _ _ _ h
        | exact h

/-- The frontmatter of any parsed file has duplicate-free keys. -/
theorem parseMarkdownString_keys_nodup (c : Str) :
    (((parseMarkdownString c).fm).map (·.1)).Nodup := by
  unfold parseMarkdownString
  split
  · simp
  · split
    · simp
    · unfold parseYaml
      exact parseYamlGo_keys_nodup _ _ [] (by simp)

/-- A nonempty parsed frontmatter means the body was trimmed. -/
theorem parseMarkdownString_body_trimStable (c : Str)
    (h : (parseMarkdownString c).fm ≠ []) :
    jsTrim (parseMarkdownString c).body = (parseMarkdownString c).body := by
  unfold parseMarkdownString at h ⊢
  split at h
  · simp at h
  · rename_i hld
    split at h
    · simp at h
    · rename_i endIndex hidx
      rw [if_neg hld]
      exact jsTrim_idem _

/-- A fetch from the empty object fails, so a successful fetch means a
nonempty object. -/
theorem fm_ne_nil_of_fmGet {m : Fm} {k : Str} {v : YValue}
    (h : fmGet m k = some v) : m ≠ [] := by
  intro hm
  rw [hm] at h
  cases h

/-- The pair written by `fmSet` is a member of the result. -/
theorem mem_fmSet_self (m : Fm) (k : Str) (v : YValue) :
    (k, v) ∈ fmSet m k v := by
  unfold fmSet
  split
  · rename_i hany
    simp only [List.any_eq_true] at hany
    obtain ⟨kv0, hkv0, hj⟩ := hany
    refine List.mem_map.mpr ⟨kv0, hkv0, ?_⟩
    rw [if_pos hj]
  · simp

/-- Reading a mapped object at a present key under duplicate-free keys. -/
theorem fmGet_map_of_mem (m : Fm) (g : Str × YValue → YValue) (k : Str)
    (v : YValue) (hmem : (k, v) ∈ m) (hnodup : (m.map (·.1)).Nodup) :
    fmGet (m.map (fun kv => (kv.1, g kv))) k = some (g (k, v)) := by
  induction m with
  | nil => simp at hmem
  | cons kv0 t ih =>
    rw [List.map_cons, List.nodup_cons] at hnodup
    rcases List.mem_cons.mp hmem with h | h
    · rw [← h]
      unfold fmGet
      rw [List.map_cons, List.find?_cons_of_pos _ (by simp)]
      rfl
    · have hk0 : kv0.1 ≠ k := by
        intro hh
        refine hnodup.1 ?_
        rw [hh]
        exact List.mem_map_of_mem (·.1) h
      unfold fmGet
      rw [List.map_cons, List.find?_cons_of_neg _ (by simp [hk0])]
      exact ih h hnodup.2


/-- A successful `Map.get` names an entry of the map whose key tests equal
to the requested one. -/
theorem mapGet_value_mem (lim : List (YValue × Str)) (k : YValue) (f : Str)
    (h : mapGet lim k = some f) :
    ∃ key, (key, f) ∈ lim ∧ jsEq key k = true := by
  unfold mapGet at h
  cases hf : lim.find? (fun kv => jsEq kv.1 k) with
  | none => rw [hf] at h; cases h
  | some kv0 =>
    rw [hf] at h
    injection h with h2
    have hmem := List.mem_of_find?_eq_some hf
    have hpred := List.find?_some hf
    simp only at hpred h2
    refine ⟨kv0.1, ?_, hpred⟩
    rw [← h2]
    exact hmem

/-- The first pull loop never touches the file of an item the remote list
does not mention: its step either rewrites some other item's file or
creates a fresh name. -/
theorem pullStep_preserves (hash : Str → Str) (now : Str)
    (ctx : ProjectContext) (lim : List (YValue × Str)) (s f : Str)
    (A B : List (YValue × Str)) (hlim : lim = A ++ (.vStr s, f) :: B)
    (hA : ∀ kv ∈ A, kv.2 ≠ f) (hB : ∀ kv ∈ B, kv.2 ≠ f)
    (r : ProjectItem) (hrid : r.id ≠ s) (st : PullSt) (hused : f ∈ st.used) :
    f ∈ (pullStep hash now ctx lim st r).used ∧
      filesGet (pullStep hash now ctx lim st r).files f
        = filesGet st.files f := by
  unfold pullStep
  cases hmg : mapGet lim (.vStr r.id) with
  | some filename =>
    have hne : filename ≠ f := by
      intro he
      subst he
      obtain ⟨key, hmem, hj⟩ := mapGet_value_mem lim _ filename hmg
      rw [hlim] at hmem
      rcases List.mem_append.mp hmem with h | h
      · exact hA _ h rfl
      · rcases List.mem_cons.mp h with h | h
        · rw [Prod.mk.injEq] at h
          rw [h.1] at hj
          have := (jsEq_vStr_left s (.vStr r.id)).mp hj
          injection this with h2
          exact hrid h2
        · exact hB _ h rfl
    dsimp only
    split
    · exact ⟨hused, filesGet_filesSet_ne _ _ _ _ hne⟩
    · exact ⟨hused, rfl⟩
  | none =>
    dsimp only
    refine ⟨List.mem_append_left _ hused, ?_⟩
    apply filesGet_filesSet_ne
    intro he
    have h0 := getUniqueFilename_not_mem (sanitizeForFilesystem
      (if r.title = [] then str "untitled" else r.title) 100) st.used
    rw [he] at h0
    exact absurd hused (contains_eq_false_iff.mp h0)

/-- The whole first pull loop leaves the file of a remotely absent item
unread and its name in the used list. -/
theorem pullFold_preserves (hash : Str → Str) (now : Str)
    (ctx : ProjectContext) (lim : List (YValue × Str)) (s f : Str)
    (A B : List (YValue × Str)) (hlim : lim = A ++ (.vStr s, f) :: B)
    (hA : ∀ kv ∈ A, kv.2 ≠ f) (hB : ∀ kv ∈ B, kv.2 ≠ f)
    (items : List ProjectItem) :
    ∀ (st : PullSt), (∀ r ∈ items, r.id ≠ s) → f ∈ st.used →
    f ∈ (items.foldl (pullStep hash now ctx lim) st).used ∧
      filesGet (items.foldl (pullStep hash now ctx lim) st).files f
        = filesGet st.files f := by
  induction items with
  | nil => intro st _ h; exact ⟨h, rfl⟩
  | cons r t ih =>
    intro st hitems h
    rw [List.foldl_cons]
    obtain ⟨h1, h2⟩ := pullStep_preserves hash now ctx lim s f A B hlim hA hB
      r (hitems r (by simp)) st h
    obtain ⟨h3, h4⟩ := ih _ (fun x hx => hitems x (by simp [hx])) h1
    exact ⟨h3, h4.trans h2⟩

/-- A tombstone step for one map entry never touches another entry's
file. -/
theorem pullTombstoneStep_preserves_other (remoteItems : List ProjectItem)
    (st : PullSt) (entry : YValue × Str) (f : Str) (h : entry.2 ≠ f) :
    filesGet (pullTombstoneStep remoteItems st entry).files f
      = filesGet st.files f := by
  unfold pullTombstoneStep
  split
  · rfl
  · split
    · rfl
    · dsimp only
      split
      · rfl
      · exact filesGet_filesSet_ne _ _ _ _ h

/-- The tombstone loop over entries naming other files never touches this
file. -/
theorem pullTombstoneFold_preserves (remoteItems : List ProjectItem)
    (f : Str) (entries : List (YValue × Str)) :
    ∀ (st : PullSt), (∀ kv ∈ entries, kv.2 ≠ f) →
    filesGet ((entries.foldl (pullTombstoneStep remoteItems) st).files) f
      = filesGet st.files f := by
  induction entries with
  | nil => intro st _; rfl
  | cons e t ih =>
    intro st hent
    rw [List.foldl_cons]
    rw [ih _ (fun x hx => hent x (by simp [hx]))]
    exact pullTombstoneStep_preserves_other remoteItems st e f
      (hent e (by simp))

/-- The tombstone step on the entry of a remotely absent, untombstoned item
rewrites its file with `deleted: true` added to the frontmatter and the
parsed body appended unchanged. -/
theorem pullTombstoneStep_write (remoteItems : List ProjectItem)
    (st : PullSt) (s f c : Str)
    (habsent : ∀ r ∈ remoteItems, r.id ≠ s)
    (hc : filesGet st.files f = some c)
    (hdel : truthyO (fmGet (parseMarkdownString c).fm (str "deleted"))
      = false) :
    filesGet (pullTombstoneStep remoteItems st (.vStr s, f)).files f
      = some (str "---\n"
          ++ joinNl ((fmSet (parseMarkdownString c).fm (str "deleted")
              (.vBool true)).map
              (fun kv => kv.1 ++ str ": "
                ++ formatYamlValue (c.length + 4) kv.2))
          ++ str "\n---\n\n" ++ (parseMarkdownString c).body) := by
  have hany : remoteItems.any (fun r => jsEq (YValue.vStr s) (.vStr r.id))
      = false := by
    rw [List.any_eq_false]
    intro r hr hj
    have := (jsEq_vStr_left s (.vStr r.id)).mp hj
    injection this with h2
    exact habsent r hr h2
  unfold pullTombstoneStep
  dsimp only
  rw [if_neg (by
    intro hcond
    rw [hany] at hcond
    exact Bool.false_ne_true hcond)]
  rw [hc]
  dsimp only
  rw [if_neg (by
    intro hcond
    rw [hdel] at hcond
    exact Bool.false_ne_true hcond)]
  exact filesGet_filesSet_self _ _ _

/-- One step of the first pull loop only writes files, so every existing
file still exists afterwards. -/
theorem pullStep_isSome (hash : Str → Str) (now : Str) (ctx : ProjectContext)
    (lim : List (YValue × Str)) (st : PullSt) (r : ProjectItem) (g : Str)
    (h : (filesGet st.files g).isSome = true) :
    (filesGet (pullStep hash now ctx lim st r).files g).isSome = true := by
  unfold pullStep
  split
  · dsimp only
    split
    · exact filesGet_filesSet_isSome _ _ _ _ h
    · exact h
  · dsimp only
    exact filesGet_filesSet_isSome _ _ _ _ h

/-- The first pull loop never removes a file. -/
theorem pullFold_isSome (hash : Str → Str) (now : Str) (ctx : ProjectContext)
    (lim : List (YValue × Str)) (items : List ProjectItem) :
    ∀ (st : PullSt) (g : Str), (filesGet st.files g).isSome = true →
    (filesGet ((items.foldl (pullStep hash now ctx lim) st).files) g).isSome
      = true := by
  induction items with
  | nil => intro st g h; exact h
  | cons r t ih =>
    intro st g h
    rw [List.foldl_cons]
    exact ih _ g (pullStep_isSome hash now ctx lim st r g h)

/-- One tombstone step only writes files, so every existing file still
exists afterwards. -/
theorem pullTombstoneStep_isSome (remoteItems : List ProjectItem)
    (st : PullSt) (entry : YValue × Str) (g : Str)
    (h : (filesGet st.files g).isSome = true) :
    (filesGet (pullTombstoneStep remoteItems st entry).files g).isSome
      = true := by
  unfold pullTombstoneStep
  split
  · exact h
  · split
    · exact h
    · dsimp only
      split
      · exact h
      · exact filesGet_filesSet_isSome _ _ _ _ h

/-- The tombstone loop never removes a file. -/
theorem pullTombstoneFold_isSome (remoteItems : List ProjectItem)
    (entries : List (YValue × Str)) :
    ∀ (st : PullSt) (g : Str), (filesGet st.files g).isSome = true →
    (filesGet ((entries.foldl (pullTombstoneStep remoteItems) st).files)
      g).isSome = true := by
  induction entries with
  | nil => intro st g h; exact h
  | cons e t ih =>
    intro st g h
    rw [List.foldl_cons]
    exact ih _ g (pullTombstoneStep_isSome remoteItems st e g h)

/-- `pullProject` never removes a file: it only ever writes. -/
theorem pullProject_isSome (hash : Str → Str) (now : Str)
    (ctx : ProjectContext) (remoteItems : List ProjectItem) (files : Files)
    (g : Str) (h : (filesGet files g).isSome = true) :
    (filesGet (pullProject hash now ctx remoteItems files).files g).isSome
      = true := by
  unfold pullProject
  dsimp only
  exact pullTombstoneFold_isSome remoteItems _ _ g
    (pullFold_isSome hash now ctx _ remoteItems _ g h)

/-- `fmSet` never returns the empty object. -/
theorem fmSet_ne_nil (m : Fm) (k : Str) (v : YValue) : fmSet m k v ≠ [] := by
  unfold fmSet
  split
  · rename_i hany
    intro he
    have hm : m = [] := by
      cases m with
      | nil => rfl
      | cons a t => simp at he
    rw [hm] at hany
    simp at hany
  · simp

/-- The scalar plans of a list of entries flatten to one line per entry. -/
theorem flatMap_scalar_plans (m : Fm) (fv : YValue → Str) :
    (m.map (fun kv => EntryPlan.scalar kv.1 (fv kv.2))).flatMap planLines
      = m.map (fun kv => kv.1 ++ str ": " ++ fv kv.2) := by
  induction m with
  | nil => rfl
  | cons kv t ih =>
    rw [List.map_cons, List.flatMap_cons, List.map_cons, ih]
    rfl

/-- Parsing a frontmatter block of safe scalar lines keyed by distinct safe
keys over a trim-stable body: every line comes back as its key with the
parsed value text, and the body comes back unchanged. -/
theorem scalarLines_parse (m : Fm) (body : Str) (fv : YValue → Str)
    (hm : m ≠ []) (hkeys : (m.map (·.1)).Nodup) (hbody : jsTrim body = body)
    (hlines : ∀ kv ∈ m, keySafe kv.1 = true ∧ lineTxtOk (fv kv.2) = true) :
    parseMarkdownString (str "---\n"
        ++ joinNl (m.map (fun kv => kv.1 ++ str ": " ++ fv kv.2))
        ++ str "\n---\n\n" ++ body)
      = ⟨m.map (fun kv => (kv.1, parseYamlValue (fv kv.2))), body⟩ := by
  have hfl := flatMap_scalar_plans m fv
  have hlne : m.map (fun kv => kv.1 ++ str ": " ++ fv kv.2) ≠ [] := by
    cases m with
    | nil => exact absurd rfl hm
    | cons kv t => simp
  have hwfs : ∀ p ∈ m.map (fun kv => EntryPlan.scalar kv.1 (fv kv.2)),
      planWf p := by
    intro p hp
    obtain ⟨kv, hkv, hpe⟩ := List.mem_map.mp hp
    rw [← hpe]
    exact ⟨(hlines kv hkv).1, (hlines kv hkv).2⟩
  have hlok : ∀ l ∈ m.map (fun kv => kv.1 ++ str ": " ++ fv kv.2),
      ('\n' : Char) ∉ l ∧ l ≠ str "---" := by
    intro l hl
    rw [← hfl] at hl
    obtain ⟨p, hp, hlp⟩ := List.mem_flatMap.mp hl
    exact planLines_ok p (hwfs p hp) l hlp
  have hn : ((m.map (fun kv => EntryPlan.scalar kv.1 (fv kv.2))).map
      (fun p => (planKV p).1)).Nodup := by
    have h2 : (m.map (fun kv => EntryPlan.scalar kv.1 (fv kv.2))).map
        (fun p => (planKV p).1) = m.map (·.1) := by
      rw [List.map_map]
      rfl
    rw [h2]
    exact hkeys
  have hshape : str "---\n"
      ++ joinNl (m.map (fun kv => kv.1 ++ str ": " ++ fv kv.2))
      ++ str "\n---\n\n" ++ body
      = str "---\n" ++ joinNl (m.map (fun kv => kv.1 ++ str ": " ++ fv kv.2))
        ++ str "\n---\n" ++ '\n' :: body := by
    simp only [List.append_assoc]
    rfl
  rw [hshape, parseMarkdownString_shape _ body hlne hlok, ← hfl,
    parseYamlGo_plans _ _ [] (by omega) hwfs hn
      (fun p hp kv hkv => absurd hkv (List.not_mem_nil kv)),
    List.nil_append, hbody, List.map_map]
  rfl

/-- C7: tombstone on remote deletion.  For a local file whose parsed
frontmatter carries a canonical string id that no remote item bears, which
is not already tombstoned, whose id is unique among the directory's files,
and whose frontmatter rewrites to safe scalar lines, `pullProject` (1)
never removes any existing file, and (2) leaves that file rewritten so that
its parsed frontmatter has `deleted` set to `true` while its parsed body is
unchanged. -/
theorem c7_pull_tombstones_remotely_deleted_item
    (hash : Str → Str) (now : Str) (ctx : ProjectContext)
    (remoteItems : List ProjectItem) (files : Files) (f c s : Str)
    (hnodup : (mdNames files).Nodup)
    (hfg : filesGet files f = some c)
    (hmd : f ∈ mdNames files)
    (hid : fmGet (parseMarkdownString c).fm (str "id") = some (.vStr s))
    (hpv : leads (str "PVTI_") s = true)
    (habsent : ∀ r ∈ remoteItems, r.id ≠ s)
    (hdel : truthyO (fmGet (parseMarkdownString c).fm (str "deleted"))
      = false)
    (huniq : ∀ g ∈ mdNames files, g ≠ f → ∀ cg, filesGet files g = some cg →
      ∀ v, fmGet (parseMarkdownString cg).fm (str "id") = some v →
        truthy v = true → jsEq v (.vStr s) = false)
    (hlines : ∀ kv ∈ fmSet (parseMarkdownString c).fm (str "deleted")
        (.vBool true),
      keySafe kv.1 = true ∧
        lineTxtOk (formatYamlValue (c.length + 4) kv.2) = true) :
    (∀ g, (filesGet files g).isSome = true →
      (filesGet (pullProject hash now ctx remoteItems files).files
        g).isSome = true) ∧
    ∃ c', filesGet (pullProject hash now ctx remoteItems files).files f
        = some c' ∧
      fmGet (parseMarkdownString c').fm (str "deleted")
        = some (.vBool true) ∧
      (parseMarkdownString c').body = (parseMarkdownString c).body := by
  have hs : s ≠ [] := by
    intro h
    rw [h] at hpv
    simp [str, leads] at hpv
  refine ⟨fun g hg => pullProject_isSome hash now ctx remoteItems files g hg,
    ?_⟩
  obtain ⟨A, B, hlim, hA, hB, -⟩ := buildLocalItemMap_main files f c s hfg
    hid hs (mdNames files) hnodup hmd huniq
  unfold pullProject
  dsimp only
  rw [hlim, List.foldl_append, List.foldl_cons]
  obtain ⟨hu1, hf1⟩ := pullFold_preserves hash now ctx
    (A ++ (YValue.vStr s, f) :: B) s f A B rfl hA hB remoteItems
    ⟨files, mdNames files, 0, 0, 0, 0⟩ habsent hmd
  have hfcA : filesGet ((A.foldl (pullTombstoneStep remoteItems)
      (remoteItems.foldl
        (pullStep hash now ctx (A ++ (YValue.vStr s, f) :: B))
        ⟨files, mdNames files, 0, 0, 0, 0⟩)).files) f = some c := by
    rw [pullTombstoneFold_preserves remoteItems f A _ hA]
    exact hf1.trans hfg
  have hw := pullTombstoneStep_write remoteItems
    (A.foldl (pullTombstoneStep remoteItems)
      (remoteItems.foldl
        (pullStep hash now ctx (A ++ (YValue.vStr s, f) :: B))
        ⟨files, mdNames files, 0, 0, 0, 0⟩)) s f c habsent hfcA hdel
  have hfB := pullTombstoneFold_preserves remoteItems f B
    (pullTombstoneStep remoteItems
      (A.foldl (pullTombstoneStep remoteItems)
        (remoteItems.foldl
          (pullStep hash now ctx (A ++ (YValue.vStr s, f) :: B))
          ⟨files, mdNames files, 0, 0, 0, 0⟩)) (YValue.vStr s, f)) hB
  have hparse := scalarLines_parse
    (fmSet (parseMarkdownString c).fm (str "deleted") (.vBool true))
    ((parseMarkdownString c).body)
    (formatYamlValue (c.length + 4))
    (fmSet_ne_nil _ _ _)
    (fmSet_keys_nodup _ _ _ (parseMarkdownString_keys_nodup c))
    (parseMarkdownString_body_trimStable c (fm_ne_nil_of_fmGet hid))
    hlines
  refine ⟨_, hfB.trans hw, ?_, ?_⟩
  · rw [hparse]
    exact fmGet_map_of_mem
      (fmSet (parseMarkdownString c).fm (str "deleted") (.vBool true))
      (fun kv => parseYamlValue (formatYamlValue (c.length + 4) kv.2))
      (str "deleted") (.vBool true)
      (mem_fmSet_self _ _ _)
      (fmSet_keys_nodup _ _ _ (parseMarkdownString_keys_nodup c))
  · rw [hparse]

/-- Witness for C7: a directory with the single file `a.md` holding item
`PVTI_1` and an empty remote item list; the pull keeps the file and
tombstones it with the body intact. -/
theorem c7_pull_tombstones_remotely_deleted_item_witness :
    ∃ c', filesGet (pullProject exHash exNow exCtx []
        [(str "a.md", str "---\nid: PVTI_1\ntitle: T\n---\n\nBody")]).files
        (str "a.md") = some c' ∧
      fmGet (parseMarkdownString c').fm (str "deleted")
        = some (.vBool true) ∧
      (parseMarkdownString c').body
        = (parseMarkdownString
            (str "---\nid: PVTI_1\ntitle: T\n---\n\nBody")).body :=
  (c7_pull_tombstones_remotely_deleted_item exHash exNow exCtx []
    [(str "a.md", str "---\nid: PVTI_1\ntitle: T\n---\n\nBody")]
    (str "a.md") (str "---\nid: PVTI_1\ntitle: T\n---\n\nBody")
    (str "PVTI_1")
    (by decide)
    (by rfl)
    (by decide)
    (by rfl)
    (by decide)
    (fun r hr => absurd hr (List.not_mem_nil r))
    (by rfl)
    (by
      intro g hg hgne
      have hmd1 : mdNames
          [(str "a.md", str "---\nid: PVTI_1\ntitle: T\n---\n\nBody")]
          = [str "a.md"] := rfl
      rw [hmd1] at hg
      exact absurd (List.mem_singleton.mp hg) hgne)
    (by decide)).2

/-- `List.find?_cons_of_pos` with the predicate and head passed
explicitly. -/
theorem find?_cons_pos {α : Type} (p : α → Bool) (a : α) (l : List α)
    (h : p a = true) : List.find? p (a :: l) = some a :=
  List.find?_cons_of_pos l h

/-- `List.find?_cons_of_neg` with the predicate and head passed
explicitly. -/
theorem find?_cons_neg {α : Type} (p : α → Bool) (a : α) (l : List α)
    (h : p a = false) : List.find? p (a :: l) = List.find? p l := by
  refine List.find?_cons_of_neg l ?_
  intro hc
  rw [h] at hc
  exact Bool.false_ne_true hc

/-- `Map.get` on a map whose earlier keys all fail the `SameValueZero` test
against `vStr s` returns the decomposed entry's value. -/
theorem find?_jsEq_decomp (s : Str) (f : Str) (B : List (YValue × Str)) :
    ∀ (A : List (YValue × Str)),
    (∀ kv ∈ A, jsEq kv.1 (.vStr s) = false) →
    mapGet (A ++ (.vStr s, f) :: B) (.vStr s) = some f := by
  intro A
  induction A with
  | nil =>
    intro _
    unfold mapGet
    rw [List.nil_append, find?_cons_pos
      (fun kv : YValue × Str => jsEq kv.1 (YValue.vStr s))
      (YValue.vStr s, f) B (by simp [jsEq])]
    rfl
  | cons kv t ih =>
    intro hAk
    unfold mapGet
    rw [List.cons_append, find?_cons_neg
      (fun kv0 : YValue × Str => jsEq kv0.1 (YValue.vStr s))
      kv (t ++ (YValue.vStr s, f) :: B) (hAk kv (by simp))]
    exact ih (fun x hx => hAk x (by simp [hx]))

/-- When the item is still remote and the parsed local file disagrees with
it in title or body, the first pull loop overwrites the file with the
serialized remote item and leaves the used-name list unchanged. -/
theorem pullStep_overwrite (hash : Str → Str) (now : Str)
    (ctx : ProjectContext) (lim : List (YValue × Str)) (st : PullSt)
    (r : ProjectItem) (f c : Str)
    (hmg : mapGet lim (.vStr r.id) = some f)
    (hfc : filesGet st.files f = some c)
    (hcond : (!(match fmGet (parseMarkdownString c).fm (str "title") with
        | some w0 => w0.eqStr r.title
        | none => false)
      || (parseMarkdownString c).body != r.body) = true) :
    (pullStep hash now ctx lim st r).used = st.used ∧
    filesGet (pullStep hash now ctx lim st r).files f
      = some (serializeItemToMarkdown hash now r ctx) := by
  unfold pullStep
  rw [hmg]
  dsimp only
  rw [hfc]
  constructor
  · split
    · rfl
    · rfl
  · split
    · dsimp only
      exact filesGet_filesSet_self _ _ _
    · rename_i hcond2
      exact absurd hcond hcond2

/-- The tombstone loop skips every entry whose id the remote list still
mentions. -/
theorem pullTombstoneStep_skip (remoteItems : List ProjectItem)
    (st : PullSt) (entry : YValue × Str)
    (h : remoteItems.any (fun r => jsEq entry.1 (.vStr r.id)) = true) :
    pullTombstoneStep remoteItems st entry = st := by
  unfold pullTombstoneStep
  rw [if_pos h]

/-- C1 (amended): when both sides diverged from baseline, the status
reconciler indeed treats the item as `localModified` only — its step
appends the file to `localModified` and leaves `remoteModified` untouched —
but `pullProject` never consults that classification: whenever the remote
title or body differs from the parsed local ones it still overwrites the
item's file with the serialized remote item, discarding the local edit. -/
theorem c1_amended_local_wins_in_status_but_pull_overwrites
    (remoteList : List ProjectItem) (info : StatusInfo) (ids : List Str)
    (lf : LocalFileInfo) (s0 : Str) (remote : ProjectItem) (w : YValue)
    (ha1 : lf.itemId = .vStr s0) (ha2 : s0 ≠ [])
    (ha3 : leads (str "PVTI_") s0 = true)
    (ha4 : lf.deleted = false)
    (ha5 : ((remoteByIdList remoteList).find? (fun kv => kv.1 == s0)).map
      (·.2) = some remote)
    (ha6 : lf.storedChecksum = some w)
    (ha7 : jsEq (.vStr lf.currentChecksum) w = false)
    (hash : Str → Str) (now : Str) (ctx : ProjectContext)
    (RA RB : List ProjectItem) (r : ProjectItem) (files : Files)
    (f c s : Str)
    (hnodup : (mdNames files).Nodup)
    (hfg : filesGet files f = some c)
    (hmd : f ∈ mdNames files)
    (hid : fmGet (parseMarkdownString c).fm (str "id") = some (.vStr s))
    (hpv : leads (str "PVTI_") s = true)
    (hrid : r.id = s)
    (hRA : ∀ x ∈ RA, x.id ≠ s) (hRB : ∀ x ∈ RB, x.id ≠ s)
    (huniq : ∀ g ∈ mdNames files, g ≠ f → ∀ cg, filesGet files g = some cg →
      ∀ v, fmGet (parseMarkdownString cg).fm (str "id") = some v →
        truthy v = true → jsEq v (.vStr s) = false)
    (wl : YValue)
    (hsc : storedChecksumOf (parseMarkdownString c).fm = some wl)
    (hdiv : jsEq (.vStr (hash (parseMarkdownString c).body)) wl = false)
    (hcond : (!(match fmGet (parseMarkdownString c).fm (str "title") with
        | some w0 => w0.eqStr r.title
        | none => false)
      || (parseMarkdownString c).body != r.body) = true) :
    classifyStep remoteList (some (info, ids)) lf
      = some ({ info with localModified := info.localModified ++ [lf] },
          ids ++ [s0]) ∧
    filesGet (pullProject hash now ctx (RA ++ r :: RB) files).files f
      = some (serializeItemToMarkdown hash now r ctx) := by
  constructor
  · unfold classifyStep
    dsimp only
    rw [ha1]
    dsimp only
    rw [if_neg (by
      rintro (h | h)
      · exact ha2 h
      · exact h ha3)]
    rw [ha4, if_neg Bool.false_ne_true, ha5]
    dsimp only
    rw [ha6]
    dsimp only
    rw [ha7]
    simp only [Bool.not_false, Bool.not_true, Bool.and_false]
    rw [if_pos trivial, if_neg Bool.false_ne_true]
  · have hs2 : s ≠ [] := by
      intro h
      rw [h] at hpv
      simp [str, leads] at hpv
    obtain ⟨A, B, hlim, hA, hB, hAk⟩ := buildLocalItemMap_main files f c s
      hfg hid hs2 (mdNames files) hnodup hmd huniq
    unfold pullProject
    dsimp only
    rw [hlim, List.foldl_append, List.foldl_cons, List.foldl_append,
      List.foldl_cons]
    obtain ⟨huA, hfA⟩ := pullFold_preserves hash now ctx
      (A ++ (YValue.vStr s, f) :: B) s f A B rfl hA hB RA
      ⟨files, mdNames files, 0, 0, 0, 0⟩ hRA hmd
    have hmg : mapGet (A ++ (YValue.vStr s, f) :: B) (.vStr r.id)
        = some f := by
      rw [hrid]
      exact find?_jsEq_decomp s f B A hAk
    obtain ⟨husedEq, hfW⟩ := pullStep_overwrite hash now ctx
      (A ++ (YValue.vStr s, f) :: B)
      (RA.foldl (pullStep hash now ctx (A ++ (YValue.vStr s, f) :: B))
        ⟨files, mdNames files, 0, 0, 0, 0⟩) r f c hmg (hfA.trans hfg) hcond
    obtain ⟨huB, hfB⟩ := pullFold_preserves hash now ctx
      (A ++ (YValue.vStr s, f) :: B) s f A B rfl hA hB RB
      (pullStep hash now ctx (A ++ (YValue.vStr s, f) :: B)
        (RA.foldl (pullStep hash now ctx (A ++ (YValue.vStr s, f) :: B))
          ⟨files, mdNames files, 0, 0, 0, 0⟩) r) hRB
      (by rw [husedEq]; exact huA)
    have hany : (RA ++ r :: RB).any
        (fun r0 => jsEq (YValue.vStr s, f).1 (.vStr r0.id)) = true :=
      List.any_eq_true.mpr ⟨r, by simp,
        show jsEq (YValue.vStr s) (.vStr r.id) = true by
          rw [hrid]
          simp [jsEq]⟩
    rw [pullTombstoneFold_preserves (RA ++ r :: RB) f B _ hB,
      pullTombstoneStep_skip (RA ++ r :: RB) _ (YValue.vStr s, f) hany,
      pullTombstoneFold_preserves (RA ++ r :: RB) f A _ hA]
    exact hfB.trans hfW

/-- Witness for the amended C1 at the diverged-on-both-sides example: the
reconciler files the item under `localModified` only, and the pull still
overwrites `a.md` with the serialized remote item. -/
theorem c1_amended_local_wins_in_status_but_pull_overwrites_witness :
    classifyStep [exRemoteDiverged]
        (some (⟨[], [], [], [], [], []⟩, []))
        (mkLocalFileInfo exHash (str "a.md")
          (parseMarkdownString exModifiedFile))
      = some (⟨[mkLocalFileInfo exHash (str "a.md")
            (parseMarkdownString exModifiedFile)], [], [], [], [], []⟩,
          [str "PVTI_1"]) ∧
    filesGet (pullProject exHash exNow exCtx [exRemoteDiverged]
        [(str "a.md", exModifiedFile)]).files (str "a.md")
      = some (serializeItemToMarkdown exHash exNow exRemoteDiverged exCtx) :=
  c1_amended_local_wins_in_status_but_pull_overwrites
    [exRemoteDiverged] ⟨[], [], [], [], [], []⟩ []
    (mkLocalFileInfo exHash (str "a.md") (parseMarkdownString exModifiedFile))
    (str "PVTI_1") exRemoteDiverged (.vStr (str "hold"))
    rfl (by decide) (by decide) rfl rfl rfl rfl
    exHash exNow exCtx [] [] exRemoteDiverged
    [(str "a.md", exModifiedFile)]
    (str "a.md") exModifiedFile (str "PVTI_1")
    (by decide) rfl (by decide) rfl (by decide) rfl
    (fun x hx => absurd hx (List.not_mem_nil x))
    (fun x hx => absurd hx (List.not_mem_nil x))
    (by
      intro g hg hgne
      have hmd1 : mdNames [(str "a.md", exModifiedFile)] = [str "a.md"] := rfl
      rw [hmd1] at hg
      exact absurd (List.mem_singleton.mp hg) hgne)
    (.vStr (str "hold")) rfl rfl rfl

/-- `List.filter` keeps a head that passes, with everything explicit. -/
theorem filter_cons_pos {α : Type} (p : α → Bool) (a : α) (l : List α)
    (h : p a = true) : List.filter p (a :: l) = a :: List.filter p l := by
  simp [List.filter_cons, h]

/-- A one-file directory whose name ends in `.md` lists exactly that
name. -/
theorem mdNames_single (fnm c : Str) (h : strEnds (str ".md") fnm = true) :
    mdNames [(fnm, c)] = [fnm] := by
  unfold mdNames
  rw [filter_cons_pos (fun kv : Str × Str => strEnds (str ".md") kv.1)
    (fnm, c) [] h]
  rfl

/-- Reading the single file of a one-file directory. -/
theorem filesGet_single (fnm c : Str) : filesGet [(fnm, c)] fnm = some c := by
  unfold filesGet
  rw [find?_cons_pos (fun kv : Str × Str => kv.1 == fnm) (fnm, c) [] (by simp)]
  rfl

/-- Reading the overwritten key of an in-place object write. -/
theorem fmGet_map_set_self (k : Str) (v : YValue) :
    ∀ (m : Fm), m.any (fun kv => kv.1 == k) = true →
    fmGet (m.map (fun kv => if kv.1 == k then (k, v) else kv)) k
      = some v := by
  intro m
  induction m with
  | nil => intro h; cases h
  | cons kv t ih =>
    intro hany
    rw [List.map_cons]
    unfold fmGet
    by_cases hk : (kv.1 == k) = true
    · rw [if_pos hk, find?_cons_pos (fun kv0 : Str × YValue => kv0.1 == k)
        (k, v) _ (by simp)]
      rfl
    · rw [if_neg hk, find?_cons_neg (fun kv0 : Str × YValue => kv0.1 == k)
        kv _ (by
          cases hq : (kv.1 == k)
          · exact hq
          · exact absurd hq hk)]
      refine ih ?_
      rcases List.any_eq_true.mp hany with ⟨x, hx, hpx⟩
      rcases List.mem_cons.mp hx with h | h
      · rw [← h] at hk
        exact absurd hpx hk
      · exact List.any_eq_true.mpr ⟨x, h, hpx⟩

/-- Reading the appended key of an object write that appended. -/
theorem fmGet_append_self (k : Str) (v : YValue) :
    ∀ (m : Fm), (∀ kv ∈ m, (kv.1 == k) = false) →
    fmGet (m ++ [(k, v)]) k = some v := by
  intro m
  induction m with
  | nil =>
    intro _
    unfold fmGet
    rw [List.nil_append, find?_cons_pos (fun kv : Str × YValue => kv.1 == k)
      (k, v) [] (by simp)]
    rfl
  | cons kv t ih =>
    intro hall
    unfold fmGet
    rw [List.cons_append, find?_cons_neg
      (fun kv0 : Str × YValue => kv0.1 == k) kv _ (hall kv (by simp))]
    exact ih (fun x hx => hall x (by simp [hx]))

/-- An object write makes a later read of the same key return the new
value. -/
theorem fmGet_fmSet_self (m : Fm) (k : Str) (v : YValue) :
    fmGet (fmSet m k v) k = some v := by
  unfold fmSet
  split
  · rename_i hany
    exact fmGet_map_set_self k v m hany
  · rename_i hany
    refine fmGet_append_self k v m ?_
    intro kv hkv
    cases hq : (kv.1 == k)
    · rfl
    · exact absurd (List.any_eq_true.mpr ⟨kv, hkv, hq⟩) hany

/-- Reading another key across an in-place object write. -/
theorem fmGet_map_set_ne (k : Str) (v : YValue) (g : Str) (h : g ≠ k) :
    ∀ (m : Fm),
    fmGet (m.map (fun kv => if kv.1 == k then (k, v) else kv)) g
      = fmGet m g := by
  intro m
  induction m with
  | nil => rfl
  | cons kv t ih =>
    rw [List.map_cons]
    unfold fmGet
    by_cases hk : (kv.1 == k) = true
    · rw [if_pos hk,
        find?_cons_neg (fun kv0 : Str × YValue => kv0.1 == g) (k, v) _
          (by
            simp only [beq_eq_false_iff_ne, ne_eq]
            exact fun he => h he.symm),
        find?_cons_neg (fun kv0 : Str × YValue => kv0.1 == g) kv _
          (by
            simp only [beq_iff_eq] at hk
            simp only [beq_eq_false_iff_ne, ne_eq, hk]
            exact fun he => h he.symm)]
      exact ih
    · rw [if_neg hk]
      by_cases hg : ((kv.1 == g) = true)
      · rw [find?_cons_pos (fun kv0 : Str × YValue => kv0.1 == g) kv _ hg,
          find?_cons_pos (fun kv0 : Str × YValue => kv0.1 == g) kv _ hg]
      · rw [find?_cons_neg (fun kv0 : Str × YValue => kv0.1 == g) kv _
          (by
            cases hq : (kv.1 == g)
            · exact hq
            · exact absurd hq hg),
          find?_cons_neg (fun kv0 : Str × YValue => kv0.1 == g) kv _
          (by
            cases hq : (kv.1 == g)
            · exact hq
            · exact absurd hq hg)]
        exact ih

/-- Reading another key across an appending object write. -/
theorem fmGet_append_ne (k : Str) (v : YValue) (g : Str) (h : g ≠ k) :
    ∀ (m : Fm), fmGet (m ++ [(k, v)]) g = fmGet m g := by
  intro m
  induction m with
  | nil =>
    unfold fmGet
    rw [List.nil_append, find?_cons_neg
      (fun kv0 : Str × YValue => kv0.1 == g) (k, v) []
      (by
        simp only [beq_eq_false_iff_ne, ne_eq]
        exact fun he => h he.symm)]
  | cons kv t ih =>
    unfold fmGet
    rw [List.cons_append]
    by_cases hg : ((kv.1 == g) = true)
    · rw [find?_cons_pos (fun kv0 : Str × YValue => kv0.1 == g) kv _ hg,
        find?_cons_pos (fun kv0 : Str × YValue => kv0.1 == g) kv _ hg]
    · rw [find?_cons_neg (fun kv0 : Str × YValue => kv0.1 == g) kv _
        (by
          cases hq : (kv.1 == g)
          · exact hq
          · exact absurd hq hg),
        find?_cons_neg (fun kv0 : Str × YValue => kv0.1 == g) kv _
        (by
          cases hq : (kv.1 == g)
          · exact hq
          · exact absurd hq hg)]
      exact ih

/-- An object write leaves reads of any other key unchanged. -/
theorem fmGet_fmSet_ne (m : Fm) (k : Str) (v : YValue) (g : Str)
    (h : g ≠ k) : fmGet (fmSet m k v) g = fmGet m g := by
  unfold fmSet
  split
  · exact fmGet_map_set_ne k v g h m
  · exact fmGet_append_ne k v g h m

/-- Pulling one safe remote item into an empty directory creates its file;
pulling again against the unchanged remote touches nothing: the second run
reports zero created and zero updated (one unchanged). -/
theorem pull_fresh_single_idempotent (hash : Str → Str) (now : Str)
    (ctx : ProjectContext) (r : ProjectItem)
    (hwf : ∀ e ∈ itemFm hash now r ctx, entryWf e)
    (hbody : jsTrim r.body = r.body)
    (hid : r.id ≠ []) :
    (pullProject hash now ctx [r] []).created = 1 ∧
    (pullProject hash now ctx [r]
        (pullProject hash now ctx [r] []).files).created = 0 ∧
    (pullProject hash now ctx [r]
        (pullProject hash now ctx [r] []).files).updated = 0 := by
  set fn : Str := sanitizeForFilesystem
    (if r.title = [] then str "untitled" else r.title) 100 ++ str ".md"
    with hfndef
  set md : Str := serializeItemToMarkdown hash now r ctx with hmddef
  have hkeys : ((itemFm hash now r ctx).map (·.1)).Nodup := by
    have hred : (itemFm hash now r ctx).map (·.1)
        = [str "id", str "project_id", str "project_owner",
           str "project_number", str "title", str "status",
           str "content_type", str "content_id", str "deleted",
           str "_sync"] := rfl
    rw [hred]
    decide
  have hparse : parseMarkdownString md = ⟨itemFm hash now r ctx, r.body⟩ := by
    have h := parseMarkdownString_serialize (itemFm hash now r ctx) r.body 1
      true hwf hkeys (by simp [itemFm]) hbody
    exact h
  have hp1 : pullProject hash now ctx [r] []
      = ⟨[(fn, md)], [fn], 1, 0, 0, 0⟩ := rfl
  have hends : strEnds (str ".md") fn = true := strEnds_append _ _
  have hmd1 := mdNames_single fn md hends
  have hfg1 := filesGet_single fn md
  have hlim2 : buildLocalItemMap [(fn, md)] [fn] = [(.vStr r.id, fn)] := by
    rw [buildLocalItemMap_eq_foldl, List.foldl_cons, List.foldl_nil]
    unfold bstep
    rw [hfg1]
    dsimp only
    rw [hparse]
    dsimp only
    rw [show fmGet (itemFm hash now r ctx) (str "id")
        = some (.vStr r.id) from rfl]
    dsimp only
    rw [if_pos (truthy_vStr r.id hid)]
    rfl
  have hstep2 : pullStep hash now ctx [(.vStr r.id, fn)]
      ⟨[(fn, md)], [fn], 0, 0, 0, 0⟩ r
      = ⟨[(fn, md)], [fn], 0, 0, 1, 0⟩ := by
    unfold pullStep
    rw [show mapGet [(YValue.vStr r.id, fn)] (.vStr r.id) = some fn from by
      unfold mapGet
      rw [find?_cons_pos
        (fun kv : YValue × Str => jsEq kv.1 (YValue.vStr r.id))
        (YValue.vStr r.id, fn) [] (by simp [jsEq])]
      rfl]
    dsimp only
    rw [hfg1]
    rw [show (some md).map parseMarkdownString
        = some (parseMarkdownString md) from rfl, hparse]
    split
    · rename_i hcond
      exfalso
      have hc2 : ((!(YValue.vStr r.title).eqStr r.title)
          || (r.body != r.body)) = true := hcond
      simp [YValue.eqStr] at hc2
    · rfl
  have hp2 : pullProject hash now ctx [r] [(fn, md)]
      = ⟨[(fn, md)], [fn], 0, 0, 1, 0⟩ := by
    unfold pullProject
    dsimp only
    rw [hmd1, hlim2, List.foldl_cons, List.foldl_nil, List.foldl_cons,
      List.foldl_nil, hstep2]
    exact pullTombstoneStep_skip [r] _ (.vStr r.id, fn)
      (List.any_eq_true.mpr ⟨r, by simp,
        show jsEq (YValue.vStr r.id) (.vStr r.id) = true by simp [jsEq]⟩)
  refine ⟨by rw [hp1], ?_, ?_⟩
  · rw [hp1]
    dsimp only
    rw [hp2]
  · rw [hp1]
    dsimp only
    rw [hp2]

/-- Overwriting the single file of a one-file directory. -/
theorem filesSet_single (fnm c d : Str) : filesSet [(fnm, c)] fnm d = [(fnm, d)] := by
  unfold filesSet
  rw [if_pos (by simp), List.map_cons, List.map_nil]
  dsimp only
  rw [if_pos (by simp)]

/-- Pushing a single locally modified draft file performs the remote update
and rewrites the file with the refreshed checksum; pushing again with no
further local change reports zero created and zero updated (one
unchanged). -/
theorem push_single_update_idempotent (hash : Str → Str) (now : Str)
    (pid : Str) (fnm c : Str) (r : ProjectItem) (s : Str) (w : YValue)
    (cid : Str) (tv : YValue) (sync0 : Fm)
    (hends : strEnds (str ".md") fnm = true)
    (hid : fmGet (parseMarkdownString c).fm (str "id") = some (.vStr s))
    (hs : s ≠ [])
    (hdel : ((fmGet (parseMarkdownString c).fm (str "deleted")).map
      YValue.isTrue).getD false = false)
    (hrid : r.id = s)
    (hsc : storedChecksumOf (parseMarkdownString c).fm = some w)
    (htw : truthy w = true)
    (hdiv : jsEq (.vStr (hash (parseMarkdownString c).body)) w = false)
    (hcid : r.contentId = some cid)
    (hck : (!cid.isEmpty && r.contentType == str "DraftIssue") = true)
    (htitle : fmGet (parseMarkdownString c).fm (str "title") = some tv)
    (hsync : syncObjOf (parseMarkdownString c).fm = some sync0)
    (hwf1 : ∀ e ∈ (fmSet (parseMarkdownString c).fm (str "_sync") (.vObj (fmSet (fmSet sync0 (str "local_checksum") (.vStr (hash (parseMarkdownString c).body))) (str "remote_updated_at") (.vStr now)))), entryWf e) :
    (pushProject hash now false pid [(fnm, c)]
        ⟨[r], [], [], false, []⟩).updated = 1 ∧
    (pushProject hash now false pid
        (pushProject hash now false pid [(fnm, c)]
          ⟨[r], [], [], false, []⟩).files
        (pushProject hash now false pid [(fnm, c)]
          ⟨[r], [], [], false, []⟩).remote).created = 0 ∧
    (pushProject hash now false pid
        (pushProject hash now false pid [(fnm, c)]
          ⟨[r], [], [], false, []⟩).files
        (pushProject hash now false pid [(fnm, c)]
          ⟨[r], [], [], false, []⟩).remote).updated = 0 := by
  have hmd1 := mdNames_single fnm c hends
  have hfg1 := filesGet_single fnm c
  have hloc1 : (mdNames [(fnm, c)]).filterMap (fun name =>
      (filesGet [(fnm, c)] name).map (fun content =>
        (⟨name, parseMarkdownString content,
          hash (parseMarkdownString content).body, content.length⟩
          : LocalItem)))
      = [⟨fnm, parseMarkdownString c, hash (parseMarkdownString c).body,
          c.length⟩] := by
    rw [hmd1, List.filterMap_cons, hfg1]
    rfl
  have hstep1 : pushStep now false pid [r]
      ⟨[(fnm, c)], ⟨[r], [], [], false, []⟩, 0, 0, 0, 0, none⟩
      ⟨fnm, parseMarkdownString c, hash (parseMarkdownString c).body,
        c.length⟩
      = ⟨[(fnm, (str "---\n" ++ serializeFrontmatterPush (c.length + 8) (fmSet (parseMarkdownString c).fm (str "_sync") (.vObj (fmSet (fmSet sync0 (str "local_checksum") (.vStr (hash (parseMarkdownString c).body))) (str "remote_updated_at") (.vStr now)))) ++ str "---\n\n" ++ (parseMarkdownString c).body))], (⟨[{r with title := jsStringOf (c.length + 4) tv, body := (parseMarkdownString c).body}], [], [], false, []⟩ : RemoteState), 0, 1, 0, 0, none⟩ := by
    unfold pushStep
    dsimp only
    rw [if_neg (show ¬((none : Option Str).isSome = true) from by simp)]
    rw [hid, hdel]
    dsimp only
    rw [if_pos (truthy_vStr s hs)]
    rw [List.reverse_singleton]
    rw [find?_cons_pos (fun it : ProjectItem => jsEq (YValue.vStr s)
        (.vStr it.id)) r []
      (by
        show jsEq (YValue.vStr s) (.vStr r.id) = true
        rw [hrid]
        simp [jsEq])]
    rw [if_neg Bool.false_ne_true]
    dsimp only
    rw [hsc]
    dsimp only
    rw [hdiv]
    rw [show truthyO (some w) = truthy w from rfl, htw]
    simp only [Bool.not_false, Bool.and_true]
    rw [if_pos trivial]
    rw [hcid]
    dsimp only
    rw [if_pos hck]
    rw [htitle]
    dsimp only
    rw [show Gpfs.ghUpdateDraftIssue ⟨[r], [], [], false, []⟩ cid
        (jsStringOf (c.length + 4) tv) (parseMarkdownString c).body
        = (true, (⟨[{r with title := jsStringOf (c.length + 4) tv, body := (parseMarkdownString c).body}], [], [], false, []⟩ : RemoteState))
        from by
      unfold Gpfs.ghUpdateDraftIssue
      rw [if_neg (show ¬(List.contains ([] : List Str) cid = true) from by
        simp)]
      rw [List.map_cons, List.map_nil]
      dsimp only
      rw [hcid, if_pos rfl]]
    dsimp only
    rw [show updateLocalChecksum now (parseMarkdownString c)
        (hash (parseMarkdownString c).body) (c.length + 8)
        = some (str "---\n" ++ serializeFrontmatterPush (c.length + 8) (fmSet (parseMarkdownString c).fm (str "_sync") (.vObj (fmSet (fmSet sync0 (str "local_checksum") (.vStr (hash (parseMarkdownString c).body))) (str "remote_updated_at") (.vStr now)))) ++ str "---\n\n" ++ (parseMarkdownString c).body)
        from by
      unfold updateLocalChecksum
      rw [hsync]]
    dsimp only
    rw [filesSet_single]
    rw [if_neg Bool.false_ne_true, hcid]
  have hp1 : pushProject hash now false pid [(fnm, c)]
      ⟨[r], [], [], false, []⟩
      = ⟨[(fnm, (str "---\n" ++ serializeFrontmatterPush (c.length + 8) (fmSet (parseMarkdownString c).fm (str "_sync") (.vObj (fmSet (fmSet sync0 (str "local_checksum") (.vStr (hash (parseMarkdownString c).body))) (str "remote_updated_at") (.vStr now)))) ++ str "---\n\n" ++ (parseMarkdownString c).body))], (⟨[{r with title := jsStringOf (c.length + 4) tv, body := (parseMarkdownString c).body}], [], [], false, []⟩ : RemoteState), 0, 1, 0, 0, none⟩ := by
    unfold pushProject
    dsimp only
    rw [hloc1, List.foldl_cons, List.foldl_nil, hstep1]
  have hkeys1 : (((fmSet (parseMarkdownString c).fm (str "_sync") (.vObj (fmSet (fmSet sync0 (str "local_checksum") (.vStr (hash (parseMarkdownString c).body))) (str "remote_updated_at") (.vStr now))))).map (·.1)).Nodup :=
    fmSet_keys_nodup _ _ _ (parseMarkdownString_keys_nodup c)
  have hbody1 : jsTrim (parseMarkdownString c).body
      = (parseMarkdownString c).body :=
    parseMarkdownString_body_trimStable c (fm_ne_nil_of_fmGet hid)
  have hparse2 : parseMarkdownString (str "---\n" ++ serializeFrontmatterPush (c.length + 8) (fmSet (parseMarkdownString c).fm (str "_sync") (.vObj (fmSet (fmSet sync0 (str "local_checksum") (.vStr (hash (parseMarkdownString c).body))) (str "remote_updated_at") (.vStr now)))) ++ str "---\n\n" ++ (parseMarkdownString c).body)
      = ⟨(fmSet (parseMarkdownString c).fm (str "_sync") (.vObj (fmSet (fmSet sync0 (str "local_checksum") (.vStr (hash (parseMarkdownString c).body))) (str "remote_updated_at") (.vStr now)))), (parseMarkdownString c).body⟩ := by
    have h := parseMarkdownString_serialize (fmSet (parseMarkdownString c).fm (str "_sync") (.vObj (fmSet (fmSet sync0 (str "local_checksum") (.vStr (hash (parseMarkdownString c).body))) (str "remote_updated_at") (.vStr now))))
      ((parseMarkdownString c).body) (c.length + 6) false hwf1 hkeys1
      (fmSet_ne_nil _ _ _) hbody1
    exact h
  have hid2 : fmGet (fmSet (parseMarkdownString c).fm (str "_sync") (.vObj (fmSet (fmSet sync0 (str "local_checksum") (.vStr (hash (parseMarkdownString c).body))) (str "remote_updated_at") (.vStr now)))) (str "id") = some (.vStr s) := by
    rw [fmGet_fmSet_ne ((parseMarkdownString c).fm) (str "_sync")
      (.vObj (fmSet (fmSet sync0 (str "local_checksum") (.vStr (hash (parseMarkdownString c).body))) (str "remote_updated_at") (.vStr now))) (str "id") (by decide)]
    exact hid
  have hdel2 : ((fmGet (fmSet (parseMarkdownString c).fm (str "_sync") (.vObj (fmSet (fmSet sync0 (str "local_checksum") (.vStr (hash (parseMarkdownString c).body))) (str "remote_updated_at") (.vStr now)))) (str "deleted")).map
      YValue.isTrue).getD false = false := by
    rw [fmGet_fmSet_ne ((parseMarkdownString c).fm) (str "_sync")
      (.vObj (fmSet (fmSet sync0 (str "local_checksum") (.vStr (hash (parseMarkdownString c).body))) (str "remote_updated_at") (.vStr now))) (str "deleted") (by decide)]
    exact hdel
  have hsc2 : storedChecksumOf (fmSet (parseMarkdownString c).fm (str "_sync") (.vObj (fmSet (fmSet sync0 (str "local_checksum") (.vStr (hash (parseMarkdownString c).body))) (str "remote_updated_at") (.vStr now))))
      = some (.vStr (hash (parseMarkdownString c).body)) := by
    unfold storedChecksumOf
    rw [fmGet_fmSet_self]
    dsimp only
    rw [fmGet_fmSet_ne (fmSet sync0 (str "local_checksum")
        (.vStr (hash (parseMarkdownString c).body)))
      (str "remote_updated_at") (.vStr now) (str "local_checksum")
      (by decide)]
    rw [fmGet_fmSet_self]
  have hfg2 := filesGet_single fnm (str "---\n" ++ serializeFrontmatterPush (c.length + 8) (fmSet (parseMarkdownString c).fm (str "_sync") (.vObj (fmSet (fmSet sync0 (str "local_checksum") (.vStr (hash (parseMarkdownString c).body))) (str "remote_updated_at") (.vStr now)))) ++ str "---\n\n" ++ (parseMarkdownString c).body)
  have hmd2 := mdNames_single fnm (str "---\n" ++ serializeFrontmatterPush (c.length + 8) (fmSet (parseMarkdownString c).fm (str "_sync") (.vObj (fmSet (fmSet sync0 (str "local_checksum") (.vStr (hash (parseMarkdownString c).body))) (str "remote_updated_at") (.vStr now)))) ++ str "---\n\n" ++ (parseMarkdownString c).body) hends
  have hloc2 : (mdNames [(fnm, (str "---\n" ++ serializeFrontmatterPush (c.length + 8) (fmSet (parseMarkdownString c).fm (str "_sync") (.vObj (fmSet (fmSet sync0 (str "local_checksum") (.vStr (hash (parseMarkdownString c).body))) (str "remote_updated_at") (.vStr now)))) ++ str "---\n\n" ++ (parseMarkdownString c).body))]).filterMap (fun name =>
      (filesGet [(fnm, (str "---\n" ++ serializeFrontmatterPush (c.length + 8) (fmSet (parseMarkdownString c).fm (str "_sync") (.vObj (fmSet (fmSet sync0 (str "local_checksum") (.vStr (hash (parseMarkdownString c).body))) (str "remote_updated_at") (.vStr now)))) ++ str "---\n\n" ++ (parseMarkdownString c).body))] name).map (fun content =>
        (⟨name, parseMarkdownString content,
          hash (parseMarkdownString content).body, content.length⟩
          : LocalItem)))
      = [⟨fnm, parseMarkdownString (str "---\n" ++ serializeFrontmatterPush (c.length + 8) (fmSet (parseMarkdownString c).fm (str "_sync") (.vObj (fmSet (fmSet sync0 (str "local_checksum") (.vStr (hash (parseMarkdownString c).body))) (str "remote_updated_at") (.vStr now)))) ++ str "---\n\n" ++ (parseMarkdownString c).body),
          hash (parseMarkdownString (str "---\n" ++ serializeFrontmatterPush (c.length + 8) (fmSet (parseMarkdownString c).fm (str "_sync") (.vObj (fmSet (fmSet sync0 (str "local_checksum") (.vStr (hash (parseMarkdownString c).body))) (str "remote_updated_at") (.vStr now)))) ++ str "---\n\n" ++ (parseMarkdownString c).body)).body, ((str "---\n" ++ serializeFrontmatterPush (c.length + 8) (fmSet (parseMarkdownString c).fm (str "_sync") (.vObj (fmSet (fmSet sync0 (str "local_checksum") (.vStr (hash (parseMarkdownString c).body))) (str "remote_updated_at") (.vStr now)))) ++ str "---\n\n" ++ (parseMarkdownString c).body)).length⟩] := by
    rw [hmd2, List.filterMap_cons, hfg2]
    rfl
  have hstep2 : pushStep now false pid [{r with title := jsStringOf (c.length + 4) tv, body := (parseMarkdownString c).body}]
      ⟨[(fnm, (str "---\n" ++ serializeFrontmatterPush (c.length + 8) (fmSet (parseMarkdownString c).fm (str "_sync") (.vObj (fmSet (fmSet sync0 (str "local_checksum") (.vStr (hash (parseMarkdownString c).body))) (str "remote_updated_at") (.vStr now)))) ++ str "---\n\n" ++ (parseMarkdownString c).body))], (⟨[{r with title := jsStringOf (c.length + 4) tv, body := (parseMarkdownString c).body}], [], [], false, []⟩ : RemoteState), 0, 0, 0, 0, none⟩
      ⟨fnm, parseMarkdownString (str "---\n" ++ serializeFrontmatterPush (c.length + 8) (fmSet (parseMarkdownString c).fm (str "_sync") (.vObj (fmSet (fmSet sync0 (str "local_checksum") (.vStr (hash (parseMarkdownString c).body))) (str "remote_updated_at") (.vStr now)))) ++ str "---\n\n" ++ (parseMarkdownString c).body),
        hash (parseMarkdownString (str "---\n" ++ serializeFrontmatterPush (c.length + 8) (fmSet (parseMarkdownString c).fm (str "_sync") (.vObj (fmSet (fmSet sync0 (str "local_checksum") (.vStr (hash (parseMarkdownString c).body))) (str "remote_updated_at") (.vStr now)))) ++ str "---\n\n" ++ (parseMarkdownString c).body)).body, ((str "---\n" ++ serializeFrontmatterPush (c.length + 8) (fmSet (parseMarkdownString c).fm (str "_sync") (.vObj (fmSet (fmSet sync0 (str "local_checksum") (.vStr (hash (parseMarkdownString c).body))) (str "remote_updated_at") (.vStr now)))) ++ str "---\n\n" ++ (parseMarkdownString c).body)).length⟩
      = ⟨[(fnm, (str "---\n" ++ serializeFrontmatterPush (c.length + 8) (fmSet (parseMarkdownString c).fm (str "_sync") (.vObj (fmSet (fmSet sync0 (str "local_checksum") (.vStr (hash (parseMarkdownString c).body))) (str "remote_updated_at") (.vStr now)))) ++ str "---\n\n" ++ (parseMarkdownString c).body))], (⟨[{r with title := jsStringOf (c.length + 4) tv, body := (parseMarkdownString c).body}], [], [], false, []⟩ : RemoteState), 0, 0, 0, 1, none⟩ := by
    unfold pushStep
    dsimp only
    rw [if_neg (show ¬((none : Option Str).isSome = true) from by simp)]
    rw [hparse2]
    dsimp only
    rw [hid2, hdel2]
    dsimp only
    rw [if_pos (truthy_vStr s hs)]
    rw [List.reverse_singleton]
    rw [find?_cons_pos (fun it : ProjectItem => jsEq (YValue.vStr s)
        (.vStr it.id)) {r with title := jsStringOf (c.length + 4) tv, body := (parseMarkdownString c).body} []
      (by
        show jsEq (YValue.vStr s) (.vStr r.id) = true
        rw [hrid]
        simp [jsEq])]
    rw [if_neg Bool.false_ne_true]
    dsimp only
    rw [hsc2]
    dsimp only
    rw [show jsEq (YValue.vStr (hash (parseMarkdownString c).body))
        (.vStr (hash (parseMarkdownString c).body)) = true from by
      simp [jsEq]]
    simp only [Bool.not_true, Bool.and_false]
    rw [if_neg Bool.false_ne_true]
  have hp2 : pushProject hash now false pid [(fnm, (str "---\n" ++ serializeFrontmatterPush (c.length + 8) (fmSet (parseMarkdownString c).fm (str "_sync") (.vObj (fmSet (fmSet sync0 (str "local_checksum") (.vStr (hash (parseMarkdownString c).body))) (str "remote_updated_at") (.vStr now)))) ++ str "---\n\n" ++ (parseMarkdownString c).body))] (⟨[{r with title := jsStringOf (c.length + 4) tv, body := (parseMarkdownString c).body}], [], [], false, []⟩ : RemoteState)
      = ⟨[(fnm, (str "---\n" ++ serializeFrontmatterPush (c.length + 8) (fmSet (parseMarkdownString c).fm (str "_sync") (.vObj (fmSet (fmSet sync0 (str "local_checksum") (.vStr (hash (parseMarkdownString c).body))) (str "remote_updated_at") (.vStr now)))) ++ str "---\n\n" ++ (parseMarkdownString c).body))], (⟨[{r with title := jsStringOf (c.length + 4) tv, body := (parseMarkdownString c).body}], [], [], false, []⟩ : RemoteState), 0, 0, 0, 1, none⟩ := by
    unfold pushProject
    dsimp only
    rw [hloc2, List.foldl_cons, List.foldl_nil, hstep2]
  refine ⟨by rw [hp1], ?_, ?_⟩
  · rw [hp1]
    dsimp only
    rw [hp2]
  · rw [hp1]
    dsimp only
    rw [hp2]

/-- C5 (amended): idempotence of sync under the side conditions the file
format needs, in the scope proved here.  Pull side: pulling one remote item
whose serialized frontmatter is well formed and whose body is trim-stable
into an empty directory, then pulling again with the remote unchanged,
reports zero created and zero updated on the second run.  Push side:
pushing a directory with one modified draft file (canonical id matching the
one remote draft, stored checksum diverged) updates the remote and rewrites
the file; pushing again with no further local change reports zero created
and zero updated on the second run.  (The unconditional claim is false: see
the recorded counterexample, where an untrimmed remote body makes every
second pull rewrite the file again.) -/
theorem c5_amended_pull_and_push_idempotent_under_side_conditions
    (hash : Str → Str) (now : Str) (ctx : ProjectContext) (r : ProjectItem)
    (hwf : ∀ e ∈ itemFm hash now r ctx, entryWf e)
    (hbody : jsTrim r.body = r.body)
    (hidne : r.id ≠ [])
    (hashP : Str → Str) (nowP : Str) (pid : Str) (fnm c : Str)
    (rp : ProjectItem) (s : Str) (w : YValue) (cid : Str) (tv : YValue)
    (sync0 : Fm)
    (hends : strEnds (str ".md") fnm = true)
    (hid : fmGet (parseMarkdownString c).fm (str "id") = some (.vStr s))
    (hs : s ≠ [])
    (hdel : ((fmGet (parseMarkdownString c).fm (str "deleted")).map
      YValue.isTrue).getD false = false)
    (hrid : rp.id = s)
    (hsc : storedChecksumOf (parseMarkdownString c).fm = some w)
    (htw : truthy w = true)
    (hdiv : jsEq (.vStr (hashP (parseMarkdownString c).body)) w = false)
    (hcid : rp.contentId = some cid)
    (hck : (!cid.isEmpty && rp.contentType == str "DraftIssue") = true)
    (htitle : fmGet (parseMarkdownString c).fm (str "title") = some tv)
    (hsync : syncObjOf (parseMarkdownString c).fm = some sync0)
    (hwf1 : ∀ e ∈ (fmSet (parseMarkdownString c).fm (str "_sync") (.vObj (fmSet (fmSet sync0 (str "local_checksum") (.vStr (hashP (parseMarkdownString c).body))) (str "remote_updated_at") (.vStr nowP)))), entryWf e) :
    ((pullProject hash now ctx [r] []).created = 1 ∧
     (pullProject hash now ctx [r]
        (pullProject hash now ctx [r] []).files).created = 0 ∧
     (pullProject hash now ctx [r]
        (pullProject hash now ctx [r] []).files).updated = 0) ∧
    ((pushProject hashP nowP false pid [(fnm, c)]
        ⟨[rp], [], [], false, []⟩).updated = 1 ∧
     (pushProject hashP nowP false pid
        (pushProject hashP nowP false pid [(fnm, c)]
          ⟨[rp], [], [], false, []⟩).files
        (pushProject hashP nowP false pid [(fnm, c)]
          ⟨[rp], [], [], false, []⟩).remote).created = 0 ∧
     (pushProject hashP nowP false pid
        (pushProject hashP nowP false pid [(fnm, c)]
          ⟨[rp], [], [], false, []⟩).files
        (pushProject hashP nowP false pid [(fnm, c)]
          ⟨[rp], [], [], false, []⟩).remote).updated = 0) :=
  ⟨pull_fresh_single_idempotent hash now ctx r hwf hbody hidne,
   push_single_update_idempotent hashP nowP pid fnm c rp s w cid tv sync0
     hends hid hs hdel hrid hsc htw hdiv hcid hck htitle hsync hwf1⟩

/-- C5 witness: the amended idempotence at the concrete remote draft and
the concrete modified draft file. -/
theorem c5_amended_pull_and_push_idempotent_witness :
    ((pullProject exHash exNow exCtx [exRemoteDraft] []).created = 1 ∧
     (pullProject exHash exNow exCtx [exRemoteDraft]
        (pullProject exHash exNow exCtx [exRemoteDraft] []).files).created
       = 0 ∧
     (pullProject exHash exNow exCtx [exRemoteDraft]
        (pullProject exHash exNow exCtx [exRemoteDraft] []).files).updated
       = 0) ∧
    ((pushProject exHash exNow false (str "PVT_p")
        [(str "a.md", exDraftModifiedFile)]
        ⟨[exRemoteDraft], [], [], false, []⟩).updated = 1 ∧
     (pushProject exHash exNow false (str "PVT_p")
        (pushProject exHash exNow false (str "PVT_p")
          [(str "a.md", exDraftModifiedFile)]
          ⟨[exRemoteDraft], [], [], false, []⟩).files
        (pushProject exHash exNow false (str "PVT_p")
          [(str "a.md", exDraftModifiedFile)]
          ⟨[exRemoteDraft], [], [], false, []⟩).remote).created = 0 ∧
     (pushProject exHash exNow false (str "PVT_p")
        (pushProject exHash exNow false (str "PVT_p")
          [(str "a.md", exDraftModifiedFile)]
          ⟨[exRemoteDraft], [], [], false, []⟩).files
        (pushProject exHash exNow false (str "PVT_p")
          [(str "a.md", exDraftModifiedFile)]
          ⟨[exRemoteDraft], [], [], false, []⟩).remote).updated = 0) :=
  c5_amended_pull_and_push_idempotent_under_side_conditions
    exHash exNow exCtx exRemoteDraft
    (by
      intro e he
      have hred : itemFm exHash exNow exRemoteDraft exCtx
          = [(str "id", .vStr (str "PVTI_1")),
             (str "project_id", .vStr (str "PVT_p")),
             (str "project_owner", .vStr (str "me")),
             (str "project_number", .vInt 7),
             (str "title", .vStr (str "T")),
             (str "status", .vNull),
             (str "content_type", .vStr (str "DraftIssue")),
             (str "content_id", .vStr (str "DI_1")),
             (str "deleted", .vBool false),
             (str "_sync", .vObj
               [(str "remote_updated_at", .vStr exNow),
                (str "local_checksum", .vStr (str "hold"))])] := rfl
      rw [hred] at he
      simp only [List.mem_cons, List.not_mem_nil, or_false] at he
      rcases he with he | he | he | he | he | he | he | he | he | he <;>
        subst he
      · exact ⟨by decide, by decide⟩
      · exact ⟨by decide, by decide⟩
      · exact ⟨by decide, by decide⟩
      · exact ⟨by decide, by decide⟩
      · exact ⟨by decide, by decide⟩
      · exact ⟨by decide, by decide⟩
      · exact ⟨by decide, by decide⟩
      · exact ⟨by decide, by decide⟩
      · exact ⟨by decide, by decide⟩
      · exact ⟨by decide, by simp, by decide, by decide⟩)
    (by decide)
    (by decide)
    exHash exNow (str "PVT_p") (str "a.md") exDraftModifiedFile
    exRemoteDraft (str "PVTI_1") (.vStr (str "hold")) (str "DI_1")
    (.vStr (str "T")) [(str "remote_updated_at", YValue.vStr (str "x")), (str "local_checksum", YValue.vStr (str "hold"))]
    (by decide)
    rfl
    (by decide)
    rfl
    rfl
    rfl
    (by decide)
    rfl
    rfl
    (by decide)
    rfl
    rfl
    (by
      intro e he
      have hred : fmSet (parseMarkdownString exDraftModifiedFile).fm
          (str "_sync")
          (.vObj (fmSet (fmSet [(str "remote_updated_at", YValue.vStr (str "x")), (str "local_checksum", YValue.vStr (str "hold"))] (str "local_checksum")
              (.vStr (exHash (parseMarkdownString exDraftModifiedFile).body)))
            (str "remote_updated_at") (.vStr exNow)))
          = [(str "id", .vStr (str "PVTI_1")),
             (str "title", .vStr (str "T")),
             (str "content_type", .vStr (str "DraftIssue")),
             (str "content_id", .vStr (str "DI_1")),
             (str "_sync", .vObj
               [(str "remote_updated_at", .vStr exNow),
                (str "local_checksum", .vStr (str "hnewbody"))])] := rfl
      rw [hred] at he
      simp only [List.mem_cons, List.not_mem_nil, or_false] at he
      rcases he with he | he | he | he | he <;> subst he
      · exact ⟨by decide, by decide⟩
      · exact ⟨by decide, by decide⟩
      · exact ⟨by decide, by decide⟩
      · exact ⟨by decide, by decide⟩
      · exact ⟨by decide, by simp, by decide, by decide⟩)

end Gpfs
